import Mathlib

/-!
Red-black tree of `RBTree.c`: memory model, refinement and invariants.

The C functions of `src/RBTree.c` are embedded over an explicit node store;
the theorems relate them to trees and prove the properties of the
specification.
-/

namespace RBT

variable {α : Type}

/-- Node colour, as in the enumeration of `RBTree.h`. -/
inductive Color where
  | RED
  | BLACK
  deriving DecidableEq, Repr

/-- A `Node` cell: child and parent pointers (`none` is `NULL`), colour and
the element pointer `data` (`none` is `NULL`). Pointers are addresses of the
node store. -/
structure Node (α : Type) where
  left : Option Nat
  right : Option Nat
  parent : Option Nat
  color : Color
  data : Option α

/-- The `RBTree` struct (`root`, `size`, `compFunc`, `freeFunc`) together with
the memory its nodes live in: `nodes` maps an address to the cell allocated
there, `next` is the address the next `calloc` returns, `freed` logs the
elements passed to `free`, `destroyed` the elements passed to `freeFunc`.
`freeFunc` records whether the function pointer is non-null. -/
structure RBTree (α : Type) where
  root : Option Nat
  size : Nat
  compFunc : Option (α → α → Int)
  freeFunc : Bool
  nodes : Nat → Option (Node α)
  next : Nat
  freed : List α
  destroyed : List α

/-- Store `n` in the cell at address `p`. -/
def RBTree.write (t : RBTree α) (p : Nat) (n : Node α) : RBTree α :=
  { t with nodes := fun q => if q = p then some n else t.nodes q }

/-- Reads `p->left`; the outer `none` is a dereference of an unallocated cell. -/
def leftOf (t : RBTree α) (p : Nat) : Option (Option Nat) := (t.nodes p).map (fun n => n.left)

/-- Reads `p->right`. -/
def rightOf (t : RBTree α) (p : Nat) : Option (Option Nat) := (t.nodes p).map (fun n => n.right)

/-- Reads `p->parent`. -/
def parentOf (t : RBTree α) (p : Nat) : Option (Option Nat) := (t.nodes p).map (fun n => n.parent)

/-- Reads `p->color`. -/
def colorOf (t : RBTree α) (p : Nat) : Option Color := (t.nodes p).map (fun n => n.color)

/-- Reads `p->data`. -/
def dataOf (t : RBTree α) (p : Nat) : Option (Option α) := (t.nodes p).map (fun n => n.data)

/-- Assignment `p->left = v`. -/
def setLeft (t : RBTree α) (p : Nat) (v : Option Nat) : Option (RBTree α) :=
  (t.nodes p).map (fun n => t.write p { n with left := v })

/-- Assignment `p->right = v`. -/
def setRight (t : RBTree α) (p : Nat) (v : Option Nat) : Option (RBTree α) :=
  (t.nodes p).map (fun n => t.write p { n with right := v })

/-- Assignment `p->parent = v`. -/
def setParent (t : RBTree α) (p : Nat) (v : Option Nat) : Option (RBTree α) :=
  (t.nodes p).map (fun n => t.write p { n with parent := v })

/-- Assignment `p->color = c`. -/
def setColor (t : RBTree α) (p : Nat) (c : Color) : Option (RBTree α) :=
  (t.nodes p).map (fun n => t.write p { n with color := c })

/-- Assignment `p->data = d`. -/
def setData (t : RBTree α) (p : Nat) (d : Option α) : Option (RBTree α) :=
  (t.nodes p).map (fun n => t.write p { n with data := d })

/-- The call `free(p)` on a node: the cell is no longer allocated. -/
def freeNode (t : RBTree α) (p : Nat) : Option (RBTree α) :=
  (t.nodes p).map (fun _ => { t with nodes := fun q => if q = p then none else t.nodes q })

/-- The call `free(d)` on an element pointer; `free(NULL)` does nothing. -/
def freeData (t : RBTree α) (d : Option α) : RBTree α :=
  match d with
  | none => t
  | some x => { t with freed := t.freed ++ [x] }

/-- Bound on the number of iterations of a pointer-chasing loop: a walk that
takes more steps than there are allocated cells never ends. -/
def RBTree.fuel (t : RBTree α) : Nat := t.next + 1

/-- Source `newNode`: a fresh RED cell with null links (allocation succeeds). -/
def newNode (t : RBTree α) (data : Option α) : Nat × RBTree α :=
  (t.next,
    { (t.write t.next ⟨none, none, none, Color.RED, data⟩) with next := t.next + 1 })

/-- Source `newRBTree`: the empty tree in an empty store. -/
def newRBTree (compFunc : Option (α → α → Int)) (freeFunc : Bool) : RBTree α :=
  { root := none, size := 0, compFunc := compFunc, freeFunc := freeFunc,
    nodes := fun _ => none, next := 0, freed := [], destroyed := [] }

/-- Source `replaceWithChild`. -/
def replaceWithChild (t : RBTree α) (node : Nat) (child : Option Nat) : Option (RBTree α) :=
  match parentOf t node with
  | none => none
  | some par =>
    let r1 : Option (RBTree α) :=
      match par with
      | none => some { t with root := child }
      | some p =>
        match leftOf t p with
        | none => none
        | some pl => if some node = pl then setLeft t p child else setRight t p child
    match r1 with
    | none => none
    | some t1 =>
      match child with
      | none => some t1
      | some c =>
        match parentOf t1 node with
        | none => none
        | some par2 => setParent t1 c par2

/-- Source `findAndAdd`; `fuel` bounds the recursion depth. -/
def findAndAdd (comparator : α → α → Int) : Nat → RBTree α → Nat → Nat → Option (RBTree α)
  | 0, _, _, _ => none
  | fuel + 1, t, root, node =>
    match dataOf t node, dataOf t root with
    | some (some nd), some (some rd) =>
      if comparator nd rd < 0 then
        match leftOf t root with
        | none => none
        | some (some l) => findAndAdd comparator fuel t l node
        | some none =>
          match setLeft t root (some node) with
          | none => none
          | some t1 => setParent t1 node (some root)
      else
        match rightOf t root with
        | none => none
        | some (some r) => findAndAdd comparator fuel t r node
        | some none =>
          match setRight t root (some node) with
          | none => none
          | some t1 => setParent t1 node (some root)
    | _, _ => none

/-- Source `getColor`: a null pointer is a BLACK leaf. -/
def getColor (t : RBTree α) (node : Option Nat) : Option Color :=
  match node with
  | none => some Color.BLACK
  | some p => colorOf t p

/-- The `while` loop shared by `RBTreeContains` and `findNodeToDelete`: the
node holding an element equal to `data`, or `NULL`. -/
def searchLoop (comp : α → α → Int) (t : RBTree α) (data : α) :
    Nat → Option Nat → Option (Option Nat)
  | 0, _ => none
  | _ + 1, none => some none
  | fuel + 1, some p =>
    match dataOf t p with
    | some (some d) =>
      if comp d data = 0 then some (some p)
      else if comp d data < 0 then
        match rightOf t p with
        | none => none
        | some r => searchLoop comp t data fuel r
      else
        match leftOf t p with
        | none => none
        | some l => searchLoop comp t data fuel l
    | _ => none

/-- Source `RBTreeContains`. -/
def RBTreeContains (tree : Option (RBTree α)) (data : Option α) : Option Bool :=
  match tree, data with
  | none, _ => some false
  | some _, none => some false
  | some t, some d =>
    match t.compFunc, t.root with
    | none, _ => some false
    | some _, none => some false
    | some comp, some r =>
      match searchLoop comp t d t.fuel (some r) with
      | none => none
      | some found => some found.isSome

/-- Source `findNodeToDelete`. -/
def findNodeToDelete (tree : Option (RBTree α)) (data : Option α) : Option (Option Nat) :=
  match tree, data with
  | none, _ => some none
  | some _, none => some none
  | some t, some d =>
    match t.compFunc, t.root with
    | none, _ => some none
    | some _, none => some none
    | some comp, some r => searchLoop comp t d t.fuel (some r)

/-- Source `insertCase1`. -/
def insertCase1 (t : RBTree α) (node : Nat) : Option (RBTree α) :=
  setColor t node Color.BLACK

/-- Source `findUncle`. -/
def findUncle (t : RBTree α) (node : Nat) : Option (Option Nat) :=
  match parentOf t node with
  | some (some p) =>
    match parentOf t p with
    | some (some g) =>
      match leftOf t g, rightOf t g with
      | some gl, some gr =>
        if gl = some p then
          if gr ≠ none then some gr else some none
        else if gr = some p then
          if gl ≠ none then some gl else some none
        else some none
      | _, _ => none
    | _ => none
  | _ => none

/-- Source `insertCase3`; `fixRec` is the recursive call of `fix`. -/
def insertCase3 (fixRec : RBTree α → Nat → Option (RBTree α)) (t : RBTree α) (node : Nat) :
    Option (RBTree α) :=
  match findUncle t node, parentOf t node with
  | some uncle, some (some p) =>
    match setColor t p Color.BLACK, uncle with
    | some t1, some u =>
      match setColor t1 u Color.BLACK with
      | some t2 =>
        match parentOf t2 node with
        | some (some p2) =>
          match parentOf t2 p2 with
          | some (some g) =>
            match setColor t2 g Color.RED with
            | some t3 => fixRec t3 g
            | none => none
          | _ => none
        | _ => none
      | none => none
    | _, _ => none
  | _, _ => none

/-- Source `leftRotate`. -/
def leftRotate (t : RBTree α) (node : Nat) : Option (RBTree α) :=
  match rightOf t node with
  | some (some right) =>
    match replaceWithChild t node (some right) with
    | some t1 =>
      match leftOf t1 right with
      | some rl =>
        match setRight t1 node rl with
        | some t2 =>
          let r3 : Option (RBTree α) :=
            match rl with
            | some x => setParent t2 x (some node)
            | none => some t2
          match r3 with
          | some t3 =>
            match setLeft t3 right (some node) with
            | some t4 => setParent t4 node (some right)
            | none => none
          | none => none
        | none => none
      | none => none
    | none => none
  | _ => none

/-- Source `rightRotate`. -/
def rightRotate (t : RBTree α) (node : Nat) : Option (RBTree α) :=
  match leftOf t node with
  | some (some left) =>
    match replaceWithChild t node (some left) with
    | some t1 =>
      match rightOf t1 left with
      | some lr =>
        match setLeft t1 node lr with
        | some t2 =>
          let r3 : Option (RBTree α) :=
            match lr with
            | some x => setParent t2 x (some node)
            | none => some t2
          match r3 with
          | some t3 =>
            match setRight t3 left (some node) with
            | some t4 => setParent t4 node (some left)
            | none => none
          | none => none
        | none => none
      | none => none
    | none => none
  | _ => none

/-- Source `insertCase4b`. -/
def insertCase4b (t : RBTree α) (node : Nat) : Option (RBTree α) :=
  match parentOf t node with
  | some (some parentNode) =>
    match parentOf t parentNode with
    | some (some grandParentNode) =>
      match leftOf t parentNode with
      | some pl =>
        let r1 : Option (RBTree α) :=
          if some node = pl then rightRotate t grandParentNode
          else leftRotate t grandParentNode
        match r1 with
        | some t1 =>
          match setColor t1 parentNode Color.BLACK with
          | some t2 => setColor t2 grandParentNode Color.RED
          | none => none
        | none => none
      | none => none
    | _ => none
  | _ => none

/-- Source `insertCase4a`. -/
def insertCase4a (t : RBTree α) (node : Nat) : Option (RBTree α) :=
  match parentOf t node with
  | some (some parentNode) =>
    match parentOf t parentNode with
    | some (some grandParentNode) =>
      match rightOf t parentNode, leftOf t parentNode,
          leftOf t grandParentNode, rightOf t grandParentNode with
      | some pr, some pl, some gl, some gr =>
        if some node = pr ∧ some parentNode = gl then
          match leftRotate t parentNode with
          | some t1 =>
            match leftOf t1 node with
            | some (some n) => insertCase4b t1 n
            | _ => none
          | none => none
        else if some node = pl ∧ some parentNode = gr then
          match rightRotate t parentNode with
          | some t1 =>
            match rightOf t1 node with
            | some (some n) => insertCase4b t1 n
            | _ => none
          | none => none
        else insertCase4b t node
      | _, _, _, _ => none
    | _ => none
  | _ => none

/-- Source `fix`; `fuel` bounds the recursion through `insertCase3`. -/
def fix : Nat → RBTree α → Nat → Option (RBTree α)
  | 0, _, _ => none
  | fuel + 1, t, node =>
    match parentOf t node with
    | none => none
    | some none => insertCase1 t node
    | some (some p) =>
      match colorOf t p with
      | none => none
      | some Color.BLACK => some t
      | some Color.RED =>
        match findUncle t node with
        | none => none
        | some none => insertCase4a t node
        | some (some u) =>
          match colorOf t u with
          | none => none
          | some Color.RED => insertCase3 (fix fuel) t node
          | some Color.BLACK => insertCase4a t node

/-- The loop of `insertToRBTree` that walks from `temp` up to the node
without a parent. -/
def rootLoop (t : RBTree α) : Nat → Nat → Option Nat
  | 0, _ => none
  | fuel + 1, temp =>
    match parentOf t temp with
    | none => none
    | some none => some temp
    | some (some p) => rootLoop t fuel p

/-- Source `insertToRBTree`; the result is the returned flag and the tree
afterwards. -/
def insertToRBTree (tree : Option (RBTree α)) (data : Option α) :
    Option (Bool × Option (RBTree α)) :=
  match RBTreeContains tree data with
  | none => none
  | some true => some (false, tree)
  | some false =>
    match tree, data with
    | none, _ => some (false, tree)
    | some _, none => some (false, tree)
    | some t, some d =>
      match newNode t (some d) with
      | (toAdd, t0) =>
        match t0.root with
        | none =>
          match setColor t0 toAdd Color.BLACK with
          | none => none
          | some t1 => some (true, some { t1 with root := some toAdd, size := t1.size + 1 })
        | some r =>
          match t0.compFunc with
          | none => none
          | some comp =>
            match findAndAdd comp t0.fuel t0 r toAdd with
            | none => none
            | some t1 =>
              match fix t1.fuel t1 toAdd with
              | none => none
              | some t2 =>
                match rootLoop t2 t2.fuel toAdd with
                | none => none
                | some temp =>
                  some (true, some { t2 with root := some temp, size := t2.size + 1 })

/-- The loop of `minNode`: follow `left` links as long as there is one. -/
def minLoop (t : RBTree α) : Nat → Nat → Option Nat
  | 0, _ => none
  | fuel + 1, curr =>
    match leftOf t curr with
    | none => none
    | some none => some curr
    | some (some l) => minLoop t fuel l

/-- Source `minNode`. -/
def minNode (t : RBTree α) (node : Option Nat) : Option (Option Nat) :=
  match node with
  | none => some none
  | some p =>
    match minLoop t t.fuel p with
    | none => none
    | some m => some (some m)

/-- The loop of `successor`: climb while `node` is the right child of `ptr`. -/
def succLoop (t : RBTree α) : Nat → Nat → Option Nat → Option (Option Nat)
  | 0, _, _ => none
  | _ + 1, _, none => some none
  | fuel + 1, node, some p =>
    match rightOf t p with
    | none => none
    | some pr =>
      if some node = pr then
        match parentOf t p with
        | none => none
        | some pp => succLoop t fuel p pp
      else some (some p)

/-- Source `successor`. -/
def successor (t : RBTree α) (node : Nat) : Option (Option Nat) :=
  match rightOf t node with
  | none => none
  | some (some r) => minNode t (some r)
  | some none =>
    match parentOf t node with
    | none => none
    | some ptr => succLoop t t.fuel node ptr

/-- Source `forEachRBTreeHelper`. The visitor `func` gets the element and the
state behind `args` and returns its flag and the new state; the result is the
returned flag and the final state. -/
def forEachRBTreeHelper {σ : Type} (t : RBTree α) (func : α → σ → Bool × σ) :
    Nat → σ → Option Nat → Option (Bool × σ)
  | 0, _, _ => none
  | _ + 1, args, none => some (true, args)
  | fuel + 1, args, some m =>
    match dataOf t m with
    | none => none
    | some none => some (true, args)
    | some (some x) =>
      match func x args with
      | (false, args1) => some (false, args1)
      | (true, args1) =>
        match successor t m with
        | none => none
        | some none => some (true, args1)
        | some (some s) =>
          match forEachRBTreeHelper t func fuel args1 (some s) with
          | none => none
          | some (_, args2) => some (true, args2)

/-- Source `forEachRBTree`. -/
def forEachRBTree {σ : Type} (tree : Option (RBTree α)) (func : α → σ → Bool × σ) (args : σ) :
    Option (Bool × σ) :=
  match tree with
  | none => some (false, args)
  | some t =>
    match t.compFunc with
    | none => some (false, args)
    | some _ =>
      match minNode t t.root with
      | none => none
      | some m => forEachRBTreeHelper t func t.fuel args m

/-- Source `getSibling`. -/
def getSibling (t : RBTree α) (node : Nat) : Option (Option Nat) :=
  match parentOf t node with
  | none => none
  | some none => some none
  | some (some p) =>
    match leftOf t p with
    | none => none
    | some pl => if pl = some node then rightOf t p else leftOf t p

/-- Source `deleteCase6`. -/
def deleteCase6 (t : RBTree α) (node : Nat) : Option (RBTree α) :=
  match getSibling t node, parentOf t node with
  | some (some s), some par =>
    match getColor t par with
    | some pc =>
      match setColor t s pc with
      | some t1 =>
        match parentOf t1 node with
        | some (some p) =>
          match setColor t1 p Color.BLACK with
          | some t2 =>
            match parentOf t2 node with
            | some (some p2) =>
              match leftOf t2 p2, getSibling t2 node with
              | some pl, some (some s2) =>
                if some node = pl then
                  match rightOf t2 s2 with
                  | some (some sr) =>
                    match setColor t2 sr Color.BLACK with
                    | some t3 =>
                      match parentOf t3 node with
                      | some (some p3) => leftRotate t3 p3
                      | _ => none
                    | none => none
                  | _ => none
                else
                  match leftOf t2 s2 with
                  | some (some sl) =>
                    match setColor t2 sl Color.BLACK with
                    | some t3 =>
                      match parentOf t3 node with
                      | some (some p3) => rightRotate t3 p3
                      | _ => none
                    | none => none
                  | _ => none
              | _, _ => none
            | _ => none
          | none => none
        | _ => none
      | none => none
    | none => none
  | _, _ => none

/-- The guards of `deleteCase5`, with `&&` evaluated left to right: `node` is
the child of its parent on the side `onLeft`, the sibling is BLACK, the
sibling's child on that side is RED and its other child is BLACK. -/
def nearRedFarBlack (t : RBTree α) (node : Nat) (onLeft : Bool) : Option Bool :=
  match parentOf t node with
  | some (some p) =>
    match (if onLeft then leftOf t p else rightOf t p) with
    | none => none
    | some pc =>
      if some node = pc then
        match getSibling t node with
        | none => none
        | some s =>
          match getColor t s with
          | none => none
          | some Color.RED => some false
          | some Color.BLACK =>
            match s with
            | none => none
            | some s =>
              match leftOf t s, rightOf t s with
              | some sl, some sr =>
                let near := if onLeft then sl else sr
                let far := if onLeft then sr else sl
                match getColor t near with
                | none => none
                | some Color.BLACK => some false
                | some Color.RED =>
                  match getColor t far with
                  | none => none
                  | some c => some (decide (c = Color.BLACK))
              | _, _ => none
      else some false
  | _ => none

/-- Source `deleteCase5`. -/
def deleteCase5 (t : RBTree α) (node : Nat) : Option (RBTree α) :=
  match nearRedFarBlack t node true with
  | none => none
  | some true =>
    match getSibling t node with
    | some (some s) =>
      match setColor t s Color.RED with
      | some t1 =>
        match getSibling t1 node with
        | some (some s1) =>
          match leftOf t1 s1 with
          | some (some sl) =>
            match setColor t1 sl Color.BLACK with
            | some t2 =>
              match getSibling t2 node with
              | some (some s2) =>
                match rightRotate t2 s2 with
                | some t3 => deleteCase6 t3 node
                | none => none
              | _ => none
            | none => none
          | _ => none
        | _ => none
      | none => none
    | _ => none
  | some false =>
    match nearRedFarBlack t node false with
    | none => none
    | some true =>
      match getSibling t node with
      | some (some s) =>
        match setColor t s Color.RED with
        | some t1 =>
          match getSibling t1 node with
          | some (some s1) =>
            match rightOf t1 s1 with
            | some (some sr) =>
              match setColor t1 sr Color.BLACK with
              | some t2 =>
                match getSibling t2 node with
                | some (some s2) =>
                  match leftRotate t2 s2 with
                  | some t3 => deleteCase6 t3 node
                  | none => none
                | _ => none
              | none => none
            | _ => none
          | _ => none
        | none => none
      | _ => none
    | some false => deleteCase6 t node

/-- The guard shared by `deleteCase3` and `deleteCase4`, with `&&` evaluated
left to right: the parent has colour `pcol`, the sibling is BLACK and both
children of the sibling are BLACK. -/
def siblingAllBlack (t : RBTree α) (node : Nat) (pcol : Color) : Option Bool :=
  match parentOf t node with
  | none => none
  | some par =>
    match getColor t par with
    | none => none
    | some pc =>
      if pc = pcol then
        match getSibling t node with
        | none => none
        | some s =>
          match getColor t s with
          | none => none
          | some Color.RED => some false
          | some Color.BLACK =>
            match s with
            | none => none
            | some s =>
              match leftOf t s with
              | none => none
              | some sl =>
                match getColor t sl with
                | none => none
                | some Color.RED => some false
                | some Color.BLACK =>
                  match rightOf t s with
                  | none => none
                  | some sr =>
                    match getColor t sr with
                    | none => none
                    | some c => some (decide (c = Color.BLACK))
      else some false

/-- Source `deleteCase4`. -/
def deleteCase4 (t : RBTree α) (node : Nat) : Option (RBTree α) :=
  match siblingAllBlack t node Color.RED with
  | none => none
  | some true =>
    match getSibling t node with
    | some (some s) =>
      match setColor t s Color.RED with
      | some t1 =>
        match parentOf t1 node with
        | some (some p) => setColor t1 p Color.BLACK
        | _ => none
      | none => none
    | _ => none
  | some false => deleteCase5 t node

/-- Source `deleteCase3`; `case1Rec` is the recursive call of `deleteCase1`. -/
def deleteCase3 (case1Rec : RBTree α → Nat → Option (RBTree α)) (t : RBTree α) (node : Nat) :
    Option (RBTree α) :=
  match siblingAllBlack t node Color.BLACK with
  | none => none
  | some true =>
    match getSibling t node with
    | some (some s) =>
      match setColor t s Color.RED with
      | some t1 =>
        match parentOf t1 node with
        | some (some p) => case1Rec t1 p
        | _ => none
      | none => none
    | _ => none
  | some false => deleteCase4 t node

/-- Source `deleteCase2`. -/
def deleteCase2 (case1Rec : RBTree α → Nat → Option (RBTree α)) (t : RBTree α) (node : Nat) :
    Option (RBTree α) :=
  match getSibling t node with
  | none => none
  | some s =>
    match getColor t s with
    | none => none
    | some Color.BLACK => deleteCase3 case1Rec t node
    | some Color.RED =>
      match parentOf t node with
      | some (some p) =>
        match setColor t p Color.RED with
        | some t1 =>
          match getSibling t1 node with
          | some (some s1) =>
            match setColor t1 s1 Color.BLACK with
            | some t2 =>
              match parentOf t2 node with
              | some (some p2) =>
                match leftOf t2 p2 with
                | some pl =>
                  let r3 : Option (RBTree α) :=
                    if some node = pl then leftRotate t2 p2 else rightRotate t2 p2
                  match r3 with
                  | some t3 => deleteCase3 case1Rec t3 node
                  | none => none
                | none => none
              | _ => none
            | none => none
          | _ => none
        | none => none
      | _ => none

/-- Source `deleteCase1`; `fuel` bounds the recursion through `deleteCase3`. -/
def deleteCase1 : Nat → RBTree α → Nat → Option (RBTree α)
  | 0, _, _ => none
  | fuel + 1, t, node =>
    match parentOf t node with
    | none => none
    | some none => some t
    | some (some _) => deleteCase2 (deleteCase1 fuel) t node

/-- The second half of the body of `deleteFromRBTree`, from
`Node* child = ...` to `tree->size--`: the node `toDelete` has at most one
child; a BLACK node takes the colour of its child and goes through
`deleteCase1`, then the child is put in its place and the cell is freed. -/
def removeNode (t2 : RBTree α) (toDelete : Nat) : Option (RBTree α) :=
  match leftOf t2 toDelete, rightOf t2 toDelete with
  | some l2, some r2 =>
    if l2 = none ∨ r2 = none then
      let child := if r2 = none then l2 else r2
      let r3 : Option (RBTree α) :=
        match getColor t2 (some toDelete) with
        | none => none
        | some Color.RED => some t2
        | some Color.BLACK =>
          match getColor t2 child with
          | none => none
          | some cc =>
            match setColor t2 toDelete cc with
            | none => none
            | some ta => deleteCase1 ta.fuel ta toDelete
      match r3 with
      | none => none
      | some t3 =>
        match replaceWithChild t3 toDelete child with
        | none => none
        | some t4 =>
          match parentOf t4 toDelete with
          | none => none
          | some par =>
            let r5 : Option (RBTree α) :=
              match par, child with
              | none, some c => setColor t4 c Color.BLACK
              | _, _ => some t4
            match r5 with
            | none => none
            | some t5 =>
              match freeNode t5 toDelete with
              | none => none
              | some t6 => some { t6 with size := t6.size - 1 }
    else none
  | _, _ => none

/-- The part of `deleteFromRBTree` after the node has been found: releases the
element, retargets to the successor when `toDelete` has two children, runs the
fix-up and splices the node out. -/
def deleteNode (t : RBTree α) (toDelete : Nat) : Option (RBTree α) :=
  match leftOf t toDelete, rightOf t toDelete, dataOf t toDelete with
  | some l, some r, some d =>
    let t1 : RBTree α := if l = none ∨ r = none then freeData t d else t
    let r2 : Option (RBTree α × Nat) :=
      if l ≠ none ∧ r ≠ none then
        match successor t1 toDelete with
        | some (some successorNode) =>
          match dataOf t1 toDelete with
          | some d1 =>
            match dataOf (freeData t1 d1) successorNode with
            | some sd =>
              match setData (freeData t1 d1) toDelete sd with
              | some tb => some (tb, successorNode)
              | none => none
            | none => none
          | none => none
        | _ => none
      else some (t1, toDelete)
    match r2 with
    | none => none
    | some (t2, toDelete) => removeNode t2 toDelete
  | _, _, _ => none

/-- Source `deleteFromRBTree`; the result is the returned flag and the tree
afterwards. -/
def deleteFromRBTree (tree : Option (RBTree α)) (data : Option α) :
    Option (Bool × Option (RBTree α)) :=
  match RBTreeContains tree data with
  | none => none
  | some false => some (false, tree)
  | some true =>
    match tree, data with
    | none, _ => some (false, tree)
    | some _, none => some (false, tree)
    | some t, some _ =>
      match findNodeToDelete tree data with
      | some (some toDelete) =>
        match deleteNode t toDelete with
        | some t1 => some (true, some t1)
        | none => none
      | _ => none

/-- The shape a tree has in memory: every node carries its colour, its
address and its element. -/
inductive Tree (α : Type) where
  | nil
  | node (c : Color) (l : Tree α) (a : Nat) (x : α) (r : Tree α)

/-- The pointer to the root of a tree (`none` for the empty tree). -/
def Tree.ptr : Tree α → Option Nat
  | .nil => none
  | .node _ _ a _ _ => some a

/-- Colour of the root, a null leaf being BLACK. -/
def Tree.col : Tree α → Color
  | .nil => Color.BLACK
  | .node c _ _ _ _ => c

/-- The addresses of the nodes of a tree. -/
def Tree.addrs : Tree α → Multiset Nat
  | .nil => 0
  | .node _ l a _ r => {a} + (l.addrs + r.addrs)

/-- The elements of a tree in in-order. -/
def Tree.elems : Tree α → List α
  | .nil => []
  | .node _ l _ x r => l.elems ++ x :: r.elems

/-- One step of a path from a node up to the root: the parent with the
subtree on the other side. `L`: the hole is the left child. -/
inductive Frame (α : Type) where
  | L (c : Color) (a : Nat) (x : α) (r : Tree α)
  | R (c : Color) (l : Tree α) (a : Nat) (x : α)

/-- Address of the parent node a frame stands for. -/
def Frame.addr : Frame α → Nat
  | .L _ a _ _ => a
  | .R _ _ a _ => a

/-- Colour of the parent node a frame stands for. -/
def Frame.color : Frame α → Color
  | .L c _ _ _ => c
  | .R c _ _ _ => c

/-- The tree obtained by putting `t` in the hole of a frame. -/
def Frame.fill : Frame α → Tree α → Tree α
  | .L c a x r, t => .node c t a x r
  | .R c l a x, t => .node c l a x t

/-- Addresses of the parent node and of the other subtree. -/
def Frame.addrs : Frame α → Multiset Nat
  | .L _ a _ r => {a} + r.addrs
  | .R _ l a _ => {a} + l.addrs

/-- A path from a hole up to the root, innermost frame first. -/
abbrev Path (α : Type) := List (Frame α)

/-- The whole tree: the path around `t`. -/
def plug : Path α → Tree α → Tree α
  | [], t => t
  | f :: p, t => plug p (f.fill t)

/-- Addresses of all nodes on or hanging off a path. -/
def pathAddrs : Path α → Multiset Nat
  | [] => 0
  | f :: p => f.addrs + pathAddrs p

/-- The parent pointer of the node in the hole. -/
def pathPar : Path α → Option Nat
  | [] => none
  | f :: _ => some f.addr

/-- The root pointer of the whole tree, `hole` being the pointer in the hole. -/
def pathRoot : Path α → Option Nat → Option Nat
  | [], hole => hole
  | f :: p, _ => pathRoot p (some f.addr)

/-- The cells of `h` hold the tree `t` below a parent pointer `par`. -/
def Rep (h : Nat → Option (Node α)) : Tree α → Option Nat → Prop
  | .nil, _ => True
  | .node c l a x r, par =>
    h a = some ⟨l.ptr, r.ptr, par, c, some x⟩ ∧ Rep h l (some a) ∧ Rep h r (some a)

/-- The cells of `h` hold the path `p`, whose hole holds the pointer `hole`. -/
def RepP (h : Nat → Option (Node α)) : Path α → Option Nat → Prop
  | [], _ => True
  | .L c a x r :: p, hole =>
    h a = some ⟨hole, r.ptr, pathPar p, c, some x⟩ ∧ Rep h r (some a) ∧ RepP h p (some a)
  | .R c l a x :: p, hole =>
    h a = some ⟨l.ptr, hole, pathPar p, c, some x⟩ ∧ Rep h l (some a) ∧ RepP h p (some a)

/-- The memory of `t` holds the tree `plug p foc`, seen from the subtree `foc`:
every node is stored with the right links, no address is used twice, and all
addresses have been allocated. -/
structure ValidZ (t : RBTree α) (p : Path α) (foc : Tree α) : Prop where
  hroot : t.root = pathRoot p foc.ptr
  hfoc : Rep t.nodes foc (pathPar p)
  hpath : RepP t.nodes p foc.ptr
  nodup : (foc.addrs + pathAddrs p).Nodup
  lt : ∀ a ∈ foc.addrs + pathAddrs p, a < t.next

/-- The memory of `t` holds the tree `tr` at `t.root`. -/
def Valid (t : RBTree α) (tr : Tree α) : Prop := ValidZ t [] tr

/-- Two states that differ only in `root` and `nodes`. -/
structure SameMeta (t t' : RBTree α) : Prop where
  size : t'.size = t.size
  compFunc : t'.compFunc = t.compFunc
  freeFunc : t'.freeFunc = t.freeFunc
  next : t'.next = t.next
  freed : t'.freed = t.freed
  destroyed : t'.destroyed = t.destroyed

/-- Number of nodes on the longest path from the root to a leaf. -/
def Tree.height : Tree α → Nat
  | .nil => 0
  | .node _ l _ _ r => max l.height r.height + 1

/-- Number of nodes. -/
def Tree.size : Tree α → Nat
  | .nil => 0
  | .node _ l _ _ r => l.size + r.size + 1

/-- The path from the insertion slot of `x` in `t` up to the root: left when
`x` compares below the element of a node, right otherwise (`findAndAdd`). -/
def descend (cmp : α → α → Int) (x : α) : Tree α → Path α → Path α
  | .nil, p => p
  | .node c l a y r, p =>
    if cmp x y < 0 then descend cmp x l (.L c a y r :: p)
    else descend cmp x r (.R c l a y :: p)

/-- The whole tree after the insertion fix-up `fix` has run on the root of
`n`, a subtree with path `p` above it; `none` where `fix` dereferences a null
pointer. -/
def fixZ : Path α → Tree α → Option (Tree α)
  | _, .nil => none
  | [], .node _ l a x r => some (.node Color.BLACK l a x r)
  | [f], .node c l a x r =>
    if f.color = Color.BLACK then some (f.fill (.node c l a x r)) else none
  | .L cp ap xp S :: .L cg ag xg U :: p, .node c l a x r =>
    if cp = Color.BLACK then
      some (plug p (.node cg (.node cp (.node c l a x r) ap xp S) ag xg U))
    else
      match U with
      | .node Color.RED ul ua ux ur =>
        fixZ p (.node Color.RED (.node Color.BLACK (.node c l a x r) ap xp S) ag xg
          (.node Color.BLACK ul ua ux ur))
      | _ => some (plug p (.node Color.BLACK (.node c l a x r) ap xp (.node Color.RED S ag xg U)))
  | .R cp S ap xp :: .L cg ag xg U :: p, .node c l a x r =>
    if cp = Color.BLACK then
      some (plug p (.node cg (.node cp S ap xp (.node c l a x r)) ag xg U))
    else
      match U with
      | .node Color.RED ul ua ux ur =>
        fixZ p (.node Color.RED (.node Color.BLACK S ap xp (.node c l a x r)) ag xg
          (.node Color.BLACK ul ua ux ur))
      | _ => some (plug p (.node Color.BLACK (.node cp S ap xp l) a x (.node Color.RED r ag xg U)))
  | .L cp ap xp S :: .R cg U ag xg :: p, .node c l a x r =>
    if cp = Color.BLACK then
      some (plug p (.node cg U ag xg (.node cp (.node c l a x r) ap xp S)))
    else
      match U with
      | .node Color.RED ul ua ux ur =>
        fixZ p (.node Color.RED (.node Color.BLACK ul ua ux ur) ag xg
          (.node Color.BLACK (.node c l a x r) ap xp S))
      | _ => some (plug p (.node Color.BLACK (.node Color.RED U ag xg l) a x (.node cp r ap xp S)))
  | .R cp S ap xp :: .R cg U ag xg :: p, .node c l a x r =>
    if cp = Color.BLACK then
      some (plug p (.node cg U ag xg (.node cp S ap xp (.node c l a x r))))
    else
      match U with
      | .node Color.RED ul ua ux ur =>
        fixZ p (.node Color.RED (.node Color.BLACK ul ua ux ur) ag xg
          (.node Color.BLACK S ap xp (.node c l a x r)))
      | _ => some (plug p (.node Color.BLACK (.node Color.RED U ag xg S) ap xp (.node c l a x r)))

/-- The frame with another colour for its node. -/
def Frame.setColor : Frame α → Color → Frame α
  | .L _ a x r, c => .L c a x r
  | .R _ l a x, c => .R c l a x

/-- The frame with another subtree on the other side. -/
def Frame.setSib : Frame α → Tree α → Frame α
  | .L c a x _, s => .L c a x s
  | .R c _ a x, s => .R c s a x

/-- The subtree on the other side of the frame's node. -/
def Frame.sib : Frame α → Tree α
  | .L _ _ _ r => r
  | .R _ l _ _ => l

/-- The frame seen from the other side: `t` is the subtree that was in the
hole, the new hole is where the sibling was. -/
def Frame.swap : Frame α → Tree α → Frame α
  | .L c a x _, t => .R c t a x
  | .R c _ a x, t => .L c a x t

/-- The search of `RBTreeContains` and `findNodeToDelete` on a tree: the node
whose element compares equal to `x`, with the path above it. -/
def searchZ (cmp : α → α → Int) (x : α) : Tree α → Path α → Option (Path α × Tree α)
  | .nil, _ => none
  | .node c l a y r, p =>
    if cmp y x = 0 then some (p, .node c l a y r)
    else if cmp y x < 0 then searchZ cmp x r (.R c l a y :: p)
    else searchZ cmp x l (.L c a y r :: p)

/-- The pointer to the node a search ends at. -/
def foundPtr (z : Option (Path α × Tree α)) : Option Nat :=
  match z with
  | none => none
  | some (_, n) => n.ptr

/-- The tree after `insertToRBTree` has added `x` in a new node at address
`n`: the new node becomes the BLACK root of an empty tree, and otherwise is
attached RED at its slot and the fix-up runs. -/
def insertT (cmp : α → α → Int) (tr : Tree α) (n : Nat) (x : α) : Option (Tree α) :=
  match tr with
  | .nil => some (.node Color.BLACK .nil n x .nil)
  | .node c l a y r =>
    fixZ (descend cmp x (.node c l a y r) []) (.node Color.RED .nil n x .nil)

/-- No RED node has a RED child. -/
def Tree.noRedRed : Tree α → Prop
  | .nil => True
  | .node c l _ _ r => (c = Color.RED → l.col = Color.BLACK ∧ r.col = Color.BLACK) ∧
      l.noRedRed ∧ r.noRedRed

/-- Number of BLACK nodes on the leftmost path from the root to a null leaf. -/
def Tree.bh : Tree α → Nat
  | .nil => 0
  | .node c l _ _ _ => l.bh + (if c = Color.BLACK then 1 else 0)

/-- At every node both subtrees have the same black-height. -/
def Tree.balanced : Tree α → Prop
  | .nil => True
  | .node _ l _ _ r => l.balanced ∧ r.balanced ∧ l.bh = r.bh

/-- For every path from the root to a null leaf, the number of BLACK nodes on it. -/
def Tree.blackCounts : Tree α → List Nat
  | .nil => [0]
  | .node c l _ _ r =>
    (l.blackCounts ++ r.blackCounts).map (fun n => n + (if c = Color.BLACK then 1 else 0))

/-- The red-black conditions on a tree: BLACK root, no RED node with a RED
child, equal black-height on every path. -/
def Tree.isRB (tr : Tree α) : Prop :=
  tr.col = Color.BLACK ∧ tr.noRedRed ∧ tr.balanced

/-- Colour of the node right above the hole; BLACK above the root. -/
def pathCol : Path α → Color
  | [] => Color.BLACK
  | f :: _ => f.color

/-- The red-black conditions on everything around a hole of black-height `k`:
the subtrees hanging off the path are well coloured and of the right
black-height, a RED node on the path has a BLACK other child and a BLACK
parent, and the root is BLACK. -/
def PathRB : Path α → Nat → Prop
  | [], _ => True
  | f :: p, k => f.sib.noRedRed ∧ f.sib.balanced ∧ f.sib.bh = k ∧
      (f.color = Color.RED → f.sib.col = Color.BLACK ∧ pathCol p = Color.BLACK) ∧
      (p = [] → f.color = Color.BLACK) ∧
      PathRB p (k + (if f.color = Color.BLACK then 1 else 0))

/-- The outcome of the rotation cases of the fix-up. -/
def rotated : Frame α → Frame α → Tree α → Tree α
  | .L _ ap xp S, .L _ ag xg U, n => .node Color.BLACK n ap xp (.node Color.RED S ag xg U)
  | .R cp S ap xp, .L _ ag xg U, .node _ l a x r =>
    .node Color.BLACK (.node cp S ap xp l) a x (.node Color.RED r ag xg U)
  | .L cp ap xp S, .R _ U ag xg, .node _ l a x r =>
    .node Color.BLACK (.node Color.RED U ag xg l) a x (.node cp r ap xp S)
  | .R _ S ap xp, .R _ U ag xg, n => .node Color.BLACK (.node Color.RED U ag xg S) ap xp n
  | _, _, .nil => .nil

/-- Elements that come before the hole of a path in in-order. -/
def pathBefore : Path α → List α
  | [] => []
  | .L _ _ _ _ :: p => pathBefore p
  | .R _ l _ y :: p => pathBefore p ++ (l.elems ++ [y])

/-- Elements that come after the hole of a path in in-order. -/
def pathAfter : Path α → List α
  | [] => []
  | .L _ _ y r :: p => (y :: r.elems) ++ pathAfter p
  | .R _ _ _ _ :: p => pathAfter p

/-- The comparator contract: a three-way comparison of a strict total order. -/
structure StrictTotal (cmp : α → α → Int) : Prop where
  eq_iff : ∀ a b, cmp a b = 0 ↔ a = b
  anti : ∀ a b, cmp a b < 0 ↔ 0 < cmp b a
  trans : ∀ a b c, cmp a b < 0 → cmp b c < 0 → cmp a c < 0

/-- Binary-search ordering: the in-order sequence is strictly ascending. -/
def Tree.ordered (cmp : α → α → Int) (tr : Tree α) : Prop :=
  tr.elems.Pairwise (fun a b => cmp a b < 0)

/-- The leftmost node of a subtree, with the path above it (`minNode`). -/
def minZ : Tree α → Path α → Path α × Tree α
  | .nil, p => (p, .nil)
  | .node c l a x r, p =>
    match l with
    | .nil => (p, .node c .nil a x r)
    | .node _ _ _ _ _ => minZ l (.L c a x r :: p)

/-- The climb of `successor`: the first ancestor that is reached from its
left child, with the path above it; `n` is the subtree climbed out of. -/
def climbZ : Path α → Tree α → Option (Path α × Tree α)
  | [], _ => none
  | .L c a y r :: p, n => some (p, .node c n a y r)
  | .R c l a y :: p, n => climbZ p (.node c l a y n)

/-- The in-order successor of the root of `n` (`successor`). -/
def succZ (p : Path α) (n : Tree α) : Option (Path α × Tree α) :=
  match n with
  | .nil => none
  | .node c l a x .nil => climbZ p (.node c l a x .nil)
  | .node c l a x (.node cr lr ar xr rr) => some (minZ (.node cr lr ar xr rr) (.R c l a x :: p))

/-- Applying a visitor to the elements of a list in order until it reports
failure: the flag of the last call and the state reached. -/
def visitUntil {σ : Type} (func : α → σ → Bool × σ) : List α → σ → Bool × σ
  | [], s => (true, s)
  | x :: xs, s =>
    match func x s with
    | (false, s1) => (false, s1)
    | (true, s1) => visitUntil func xs s1

/-- The flag `forEachRBTree` returns on a tree with elements `es`: the flag of
the visitor's call on the first element. -/
def firstFlag {σ : Type} (func : α → σ → Bool × σ) (es : List α) (s : σ) : Bool :=
  match es with
  | [] => true
  | x :: _ => (func x s).1

/-- Cases 5 and 6 of the deletion fix-up for a node that is the left child of
a parent (colour `cp`, address `ap`, element `xp`) with a BLACK sibling
`.node BLACK Sl s xs Sr`; the result is the path above the node afterwards. -/
def delCase56L (cp : Color) (ap : Nat) (xp : α) (Sl : Tree α) (s : Nat) (xs : α) (Sr : Tree α)
    (p : Path α) : Option (Path α) :=
  if Sl.col = Color.RED ∧ Sr.col = Color.BLACK then
    match Sl with
    | .node _ Sll sl xsl Slr =>
      some (.L Color.BLACK ap xp Sll :: .L cp sl xsl (.node Color.BLACK Slr s xs Sr) :: p)
    | .nil => none
  else
    match Sr with
    | .node _ Srl sr xsr Srr =>
      some (.L Color.BLACK ap xp Sl :: .L cp s xs (.node Color.BLACK Srl sr xsr Srr) :: p)
    | .nil => none

/-- Cases 4 to 6 of the deletion fix-up for a left child with a BLACK sibling. -/
def delCase456L (cp : Color) (ap : Nat) (xp : α) (Sl : Tree α) (s : Nat) (xs : α) (Sr : Tree α)
    (p : Path α) : Option (Path α) :=
  if cp = Color.RED ∧ Sl.col = Color.BLACK ∧ Sr.col = Color.BLACK then
    some (.L Color.BLACK ap xp (.node Color.RED Sl s xs Sr) :: p)
  else delCase56L cp ap xp Sl s xs Sr p

/-- Cases 5 and 6 of the deletion fix-up for a node that is the right child of
its parent, with a BLACK sibling `.node BLACK Sl s xs Sr`. -/
def delCase56R (cp : Color) (ap : Nat) (xp : α) (Sl : Tree α) (s : Nat) (xs : α) (Sr : Tree α)
    (p : Path α) : Option (Path α) :=
  if Sr.col = Color.RED ∧ Sl.col = Color.BLACK then
    match Sr with
    | .node _ Srl sr xsr Srr =>
      some (.R Color.BLACK Srr ap xp :: .R cp (.node Color.BLACK Sl s xs Srl) sr xsr :: p)
    | .nil => none
  else
    match Sl with
    | .node _ Sll sl xsl Slr =>
      some (.R Color.BLACK Sr ap xp :: .R cp (.node Color.BLACK Sll sl xsl Slr) s xs :: p)
    | .nil => none

/-- Cases 4 to 6 of the deletion fix-up for a right child with a BLACK sibling. -/
def delCase456R (cp : Color) (ap : Nat) (xp : α) (Sl : Tree α) (s : Nat) (xs : α) (Sr : Tree α)
    (p : Path α) : Option (Path α) :=
  if cp = Color.RED ∧ Sl.col = Color.BLACK ∧ Sr.col = Color.BLACK then
    some (.R Color.BLACK (.node Color.RED Sl s xs Sr) ap xp :: p)
  else delCase56R cp ap xp Sl s xs Sr p

/-- The deletion fix-up `deleteCase1` run on a node with path `p` above it:
the path above the node afterwards; `none` where the code dereferences a null
pointer or leaves the shapes a red-black tree can have. -/
def delFix : Path α → Option (Path α)
  | [] => some []
  | .L cp ap xp S :: p =>
    match S with
    | .nil => none
    | .node Color.RED Sl s xs Sr =>
      match Sl with
      | .node Color.BLACK Sll sl xsl Slr =>
        delCase456L Color.RED ap xp Sll sl xsl Slr (.L Color.BLACK s xs Sr :: p)
      | _ => none
    | .node Color.BLACK Sl s xs Sr =>
      if cp = Color.BLACK ∧ Sl.col = Color.BLACK ∧ Sr.col = Color.BLACK then
        match delFix p with
        | some p' => some (.L Color.BLACK ap xp (.node Color.RED Sl s xs Sr) :: p')
        | none => none
      else delCase456L cp ap xp Sl s xs Sr p
  | .R cp S ap xp :: p =>
    match S with
    | .nil => none
    | .node Color.RED Sl s xs Sr =>
      match Sr with
      | .node Color.BLACK Srl sr xsr Srr =>
        delCase456R Color.RED ap xp Srl sr xsr Srr (.R Color.BLACK Sl s xs :: p)
      | _ => none
    | .node Color.BLACK Sl s xs Sr =>
      if cp = Color.BLACK ∧ Sl.col = Color.BLACK ∧ Sr.col = Color.BLACK then
        match delFix p with
        | some p' => some (.R Color.BLACK (.node Color.RED Sl s xs Sr) ap xp :: p')
        | none => none
      else delCase456R cp ap xp Sl s xs Sr p

/-- A tree with the colour of its root changed (`nil` stays `nil`). -/
def Tree.setCol (c : Color) : Tree α → Tree α
  | .nil => .nil
  | .node _ l a x r => .node c l a x r

/-- The tree left when a node with path `q` above it and the single child
`ch` is spliced out: the child takes its place, and is made BLACK when the
node was the root. -/
def spliceZ (q : Path α) (ch : Tree α) : Tree α :=
  match q with
  | [] => ch.setCol Color.BLACK
  | f :: q' => plug (f :: q') ch

/-- Removal of a node of colour `cd` with path `q` above it and at most one
child `ch`: a BLACK node is first run through the deletion fix-up. -/
def removeZ (q : Path α) (cd : Color) (ch : Tree α) : Option (Tree α) :=
  match cd with
  | Color.RED => some (spliceZ q ch)
  | Color.BLACK =>
    match delFix q with
    | some q' => some (spliceZ q' ch)
    | none => none

/-- The tree after `deleteFromRBTree` has removed the root of `n`, the node
found by the search with path `p` above it. A node with two children takes
the element of its in-order successor, and the successor is removed. -/
def deleteZ (p : Path α) (n : Tree α) : Option (Tree α) :=
  match n with
  | .nil => none
  | .node c .nil _ _ r => removeZ p c r
  | .node c (.node cl ll al xl rl) _ _ .nil => removeZ p c (.node cl ll al xl rl)
  | .node c (.node cl ll al xl rl) a _ (.node cr lr ar xr rr) =>
    match (minZ (.node cr lr ar xr rr) []).2 with
    | .node cm _ _ xm rm =>
      removeZ (minZ (.node cr lr ar xr rr) (.R c (.node cl ll al xl rl) a xm :: p)).1 cm rm
    | .nil => none

/-- The red-black invariants of the tree stored in memory: its nodes form a
tree below `root` with consistent links, the root is BLACK, no RED node has a
RED child, and all paths from the root to a null leaf hold the same number of
BLACK nodes. -/
def RBTree.redBlack (t : RBTree α) : Prop :=
  ∃ tr, Valid t tr ∧ tr.col = Color.BLACK ∧ tr.noRedRed ∧
    ∀ m ∈ tr.blackCounts, ∀ n ∈ tr.blackCounts, m = n

/-- The memory of `t` holds a red-black search tree for `cmp` whose elements
are, in ascending order, `es`, and `size` counts them. -/
def Holds (cmp : α → α → Int) (t : RBTree α) (es : List α) : Prop :=
  ∃ tr, Valid t tr ∧ tr.isRB ∧ tr.ordered cmp ∧ tr.elems = es ∧
    t.compFunc = some cmp ∧ t.size = tr.size

/-- A sequence of `insertToRBTree` calls; the result lists the tree after
each call. -/
def insertSeq : RBTree α → List α → Option (List (RBTree α))
  | _, [] => some []
  | t, x :: xs =>
    match insertToRBTree (some t) (some x) with
    | some (_, some t') =>
      match insertSeq t' xs with
      | some ts => some (t' :: ts)
      | none => none
    | _ => none

/-- The three-way comparison of integers by subtraction. -/
def intCmp : Int → Int → Int := fun a b => a - b

/-- A call of one of the two mutating functions of the interface. -/
inductive Op (α : Type) where
  | ins (x : α)
  | del (x : α)

/-- A sequence of `insertToRBTree` and `deleteFromRBTree` calls; the result is
the tree after the last call. -/
def runOps : RBTree α → List (Op α) → Option (RBTree α)
  | t, [] => some t
  | t, .ins x :: ops =>
    match insertToRBTree (some t) (some x) with
    | some (_, some t') => runOps t' ops
    | _ => none
  | t, .del x :: ops =>
    match deleteFromRBTree (some t) (some x) with
    | some (_, some t') => runOps t' ops
    | _ => none

/-- The element `e` was inserted and not deleted afterwards: some call of the
sequence inserts `e`, and no later call deletes it. -/
def liveAfter (e : α) (ops : List (Op α)) : Prop :=
  ∃ pre post, ops = pre ++ Op.ins e :: post ∧ Op.del e ∉ post

/-- A tree in memory with the elements 1, in the BLACK root at address 0, and
2, in its RED right child at address 1. -/
def twoTree : RBTree Int :=
  { root := some 0, size := 2, compFunc := some intCmp, freeFunc := true,
    nodes := fun p =>
      if p = 0 then some ⟨none, some 1, none, Color.BLACK, some 1⟩
      else if p = 1 then some ⟨none, none, some 0, Color.RED, some 2⟩
      else none,
    next := 2, freed := [], destroyed := [] }

/-- The shape of `twoTree`. -/
def twoShape : Tree Int :=
  .node Color.BLACK .nil 0 1 (.node Color.RED .nil 1 2 .nil)

/-- A visitor that records the element it is given and reports success. -/
def logVisit : Int → List Int → Bool × List Int := fun x s => (true, s ++ [x])

/-- A visitor that records the element it is given and reports failure on
the element `k`. -/
def logUntil (k : Int) : Int → List Int → Bool × List Int :=
  fun x s => (decide (x ≠ k), s ++ [x])

/-- The state after the visitor has been applied to all elements of a list in
order, once each. -/
def visitAll {σ : Type} (func : α → σ → Bool × σ) (es : List α) (s : σ) : σ :=
  es.foldl (fun s x => (func x s).2) s

/-- The number of nodes reachable from the pointer `node` through `left` and
`right` links; `none` when the walk meets an unallocated cell or does not
end within `fuel` levels. -/
def countFrom (t : RBTree α) : Nat → Option Nat → Option Nat
  | 0, _ => none
  | _ + 1, none => some 0
  | fuel + 1, some p =>
    match t.nodes p with
    | none => none
    | some n =>
      match countFrom t fuel n.left, countFrom t fuel n.right with
      | some a, some b => some (a + b + 1)
      | _, _ => none

/-- The number of nodes on the longest chain of `left` and `right` links that
starts at the pointer `node`. -/
def heightFrom (t : RBTree α) : Nat → Option Nat → Option Nat
  | 0, _ => none
  | _ + 1, none => some 0
  | fuel + 1, some p =>
    match t.nodes p with
    | none => none
    | some n =>
      match heightFrom t fuel n.left, heightFrom t fuel n.right with
      | some a, some b => some (max a b + 1)
      | _, _ => none

/-- The memory of `t` holds the red-black tree `tr`, `t` has the comparator
`cmp`, and `size` is the number of nodes of `tr`. No ordering is asked of
`cmp`. -/
def Shaped (cmp : α → α → Int) (t : RBTree α) (tr : Tree α) : Prop :=
  Valid t tr ∧ tr.isRB ∧ t.compFunc = some cmp ∧ t.size = tr.size

/-- The call `freeFunc(d)` of the tree's destructor on an element pointer:
the element is logged in `destroyed`; a call on a null pointer leaves no
entry. -/
def destroyData (t : RBTree α) (d : Option α) : RBTree α :=
  match d with
  | none => t
  | some x => { t with destroyed := t.destroyed ++ [x] }

/-- Source `freeSubTree`. The parameter `freeFunc` tells whether the function
pointer is non-null; the call of a null function pointer does not return. -/
def freeSubTree (freeFunc : Bool) : Nat → RBTree α → Option Nat → Option (RBTree α)
  | 0, _, _ => none
  | _ + 1, t, none => some t
  | fuel + 1, t, some p =>
    match leftOf t p with
    | none => none
    | some l =>
      match (if l ≠ none then freeSubTree freeFunc fuel t l else some t) with
      | none => none
      | some t1 =>
        match rightOf t1 p with
        | none => none
        | some r =>
          match (if r ≠ none then freeSubTree freeFunc fuel t1 r else some t1) with
          | none => none
          | some t2 =>
            match dataOf t2 p with
            | none => none
            | some d => if freeFunc then freeNode (destroyData t2 d) p else none

/-- Source `freeRBTree`, called with a non-null `RBTree **tree`; the argument
is the value of `*tree`. The result is the value of `*tree` afterwards and the
memory of the tree afterwards, from which the logs of the `free` and
destructor calls are read (`free(*tree)` releases the struct itself). -/
def freeRBTree (tree : Option (RBTree α)) : Option (Option (RBTree α) × Option (RBTree α)) :=
  match tree with
  | none => some (none, none)
  | some t =>
    if t.freeFunc = false then some (some t, some t)
    else
      match freeSubTree t.freeFunc t.fuel t t.root with
      | none => none
      | some t' => some (none, some t')

/-- The elements of a tree in post-order: left subtree, right subtree, node. -/
def Tree.postorder : Tree α → List α
  | .nil => []
  | .node _ l _ x r => l.postorder ++ r.postorder ++ [x]

/-- The fields of the struct and the `free` log that `freeSubTree` leaves
alone. -/
structure SameStruct (t t' : RBTree α) : Prop where
  root : t'.root = t.root
  size : t'.size = t.size
  compFunc : t'.compFunc = t.compFunc
  freeFunc : t'.freeFunc = t.freeFunc
  next : t'.next = t.next
  freed : t'.freed = t.freed

/-- Every cell holds the same colour and the same element in `t'` as in
`t`. -/
def SameLabels (t t' : RBTree α) : Prop :=
  ∀ q, colorOf t' q = colorOf t q ∧ dataOf t' q = dataOf t q

/-- A tree in memory with the elements 2, in the BLACK root at address 0, and
1, in its RED left child at address 1. -/
def leftTree : RBTree Int :=
  { root := some 0, size := 2, compFunc := some intCmp, freeFunc := true,
    nodes := fun p =>
      if p = 0 then some ⟨some 1, none, none, Color.BLACK, some 2⟩
      else if p = 1 then some ⟨none, none, some 0, Color.RED, some 1⟩
      else none,
    next := 2, freed := [], destroyed := [] }

/-- The shape of `leftTree`. -/
def leftShape : Tree Int :=
  .node Color.BLACK (.node Color.RED .nil 1 1 .nil) 0 2 .nil

/-- Consistency of the links among the cells `nodes` of the tree in the
memory `t`: a non-null child of a node has that node as its parent, the node
`root` points to has no parent, and a node without a parent is the one
`root` points to. -/
def LinksConsistent (t : RBTree α) (nodes : Multiset Nat) : Prop :=
  (∀ a ∈ nodes, ∀ c, (leftOf t a = some (some c) ∨ rightOf t a = some (some c)) →
    parentOf t c = some (some a)) ∧
  (∀ r, t.root = some r → parentOf t r = some none) ∧
  (∀ a ∈ nodes, parentOf t a = some none → t.root = some a)

/-- A memory with a zig-zag: the BLACK node G (address 0, element 3) has the
RED left child P (address 1, element 1), whose right child is the RED node N
(address 2, element 2). -/
def zigTree : RBTree Int :=
  { root := some 0, size := 3, compFunc := some intCmp, freeFunc := true,
    nodes := fun p =>
      if p = 0 then some ⟨some 1, none, none, Color.BLACK, some 3⟩
      else if p = 1 then some ⟨none, some 2, some 0, Color.RED, some 1⟩
      else if p = 2 then some ⟨none, none, some 1, Color.RED, some 2⟩
      else none,
    next := 3, freed := [], destroyed := [] }

/-- The mirror image of `zigTree`: G (address 0, element 1) has the RED right
child P (address 1, element 3), whose left child is the RED node N (address 2,
element 2). -/
def zagTree : RBTree Int :=
  { root := some 0, size := 3, compFunc := some intCmp, freeFunc := true,
    nodes := fun p =>
      if p = 0 then some ⟨none, some 1, none, Color.BLACK, some 1⟩
      else if p = 1 then some ⟨some 2, none, some 0, Color.RED, some 3⟩
      else if p = 2 then some ⟨none, none, some 1, Color.RED, some 2⟩
      else none,
    next := 3, freed := [], destroyed := [] }

/-- A memory with three BLACK nodes: the root (address 0, element 2) and its
children (address 1, element 1, and address 2, element 3). -/
def blackTree : RBTree Int :=
  { root := some 0, size := 3, compFunc := some intCmp, freeFunc := true,
    nodes := fun p =>
      if p = 0 then some ⟨some 1, some 2, none, Color.BLACK, some 2⟩
      else if p = 1 then some ⟨none, none, some 0, Color.BLACK, some 1⟩
      else if p = 2 then some ⟨none, none, some 0, Color.BLACK, some 3⟩
      else none,
    next := 3, freed := [], destroyed := [] }

/-- The shape of `blackTree`. -/
def blackShape : Tree Int :=
  .node Color.BLACK (.node Color.BLACK .nil 1 1 .nil) 0 2 (.node Color.BLACK .nil 2 3 .nil)

/-- A C `double` as the comparisons `<` and `>` see it: a NaN, or a number.
The numbers (the finite values and the two infinities; the two zeros are one
number, as they are for `==`) are taken from a linearly ordered type `β`. -/
inductive Double (β : Type) where
  | nan
  | num (v : β)

/-- The C comparison `x < y` of doubles: false when one side is a NaN. -/
def Double.lt {β : Type} [LinearOrder β] : Double β → Double β → Bool
  | .num u, .num v => decide (u < v)
  | _, _ => false

/-- The three-way lexicographic comparison of two sequences, a proper prefix
counting as smaller: negative, zero or positive. -/
def lexCmp {β : Type} [LinearOrder β] : List β → List β → Int
  | [], [] => 0
  | [], _ :: _ => -1
  | _ :: _, [] => 1
  | x :: xs, y :: ys => if x < y then -1 else if y < x then 1 else lexCmp xs ys

theorem SameMeta.refl (t : RBTree α) : SameMeta t t := ⟨rfl, rfl, rfl, rfl, rfl, rfl⟩

theorem SameMeta.trans {t t' t'' : RBTree α} (h : SameMeta t t') (h' : SameMeta t' t'') :
    SameMeta t t'' :=
  ⟨h'.size.trans h.size, h'.compFunc.trans h.compFunc, h'.freeFunc.trans h.freeFunc,
    h'.next.trans h.next, h'.freed.trans h.freed, h'.destroyed.trans h.destroyed⟩

/-- Two parts of a multiset without repetition have no address in common. -/
theorem disj_of_count {S T U : Multiset Nat} (h : U.Nodup)
    (hc : ∀ z, S.count z + T.count z ≤ U.count z) : ∀ z ∈ S, z ∉ T := by
  intro z hz hz'
  have h1 := Multiset.nodup_iff_count_le_one.1 h z
  have h2 := Multiset.one_le_count_iff_mem.2 hz
  have h3 := Multiset.one_le_count_iff_mem.2 hz'
  have h4 := hc z
  omega

theorem ne_of_count {U : Multiset Nat} {a b : Nat} (h : U.Nodup)
    (hc : ∀ z, Multiset.count z {a} + Multiset.count z {b} ≤ U.count z) : a ≠ b := by
  intro e
  have := disj_of_count h hc a (by simp)
  simp [e] at this

theorem not_mem_of_count {U S : Multiset Nat} {a : Nat} (h : U.Nodup)
    (hc : ∀ z, Multiset.count z {a} + S.count z ≤ U.count z) : a ∉ S :=
  disj_of_count h hc a (by simp)

@[simp] theorem write_nodes_same (t : RBTree α) (p : Nat) (n : Node α) :
    (t.write p n).nodes p = some n := by simp [RBTree.write]

theorem write_nodes_ne (t : RBTree α) {p q : Nat} (n : Node α) (h : q ≠ p) :
    (t.write p n).nodes q = t.nodes q := by simp [RBTree.write, h]

@[simp] theorem write_root (t : RBTree α) (p : Nat) (n : Node α) : (t.write p n).root = t.root := rfl

@[simp] theorem write_next (t : RBTree α) (p : Nat) (n : Node α) : (t.write p n).next = t.next := rfl

theorem sameMeta_write (t : RBTree α) (p : Nat) (n : Node α) : SameMeta t (t.write p n) :=
  ⟨rfl, rfl, rfl, rfl, rfl, rfl⟩

theorem SameMeta.write_m {t t' : RBTree α} (h : SameMeta t t') (p : Nat) (n : Node α) :
    SameMeta t (t'.write p n) := h.trans (sameMeta_write _ _ _)

@[simp] theorem Tree.ptr_nil : (Tree.nil : Tree α).ptr = none := rfl

@[simp] theorem Tree.ptr_node (c : Color) (l : Tree α) (a : Nat) (x : α) (r : Tree α) :
    (Tree.node c l a x r).ptr = some a := rfl

theorem ptr_mem {t : Tree α} {a : Nat} (h : t.ptr = some a) : a ∈ t.addrs := by
  cases t with
  | nil => simp at h
  | node c l b x r =>
    simp at h
    simp [Tree.addrs, h]

/-- Cells outside a tree do not matter for its representation. -/
theorem Rep.congr_r {h h' : Nat → Option (Node α)} {t : Tree α} {par : Option Nat}
    (H : Rep h t par) (e : ∀ a ∈ t.addrs, h' a = h a) : Rep h' t par := by
  induction t generalizing par with
  | nil => trivial
  | node c l a x r ihl ihr =>
    obtain ⟨h1, h2, h3⟩ := H
    refine ⟨?_, ihl h2 ?_, ihr h3 ?_⟩
    · rw [e a (by simp [Tree.addrs])]; exact h1
    · intro b hb; exact e b (by simp [Tree.addrs, hb])
    · intro b hb; exact e b (by simp [Tree.addrs, hb])

theorem RepP.congr_p {h h' : Nat → Option (Node α)} {p : Path α} {hole : Option Nat}
    (H : RepP h p hole) (e : ∀ a ∈ pathAddrs p, h' a = h a) : RepP h' p hole := by
  induction p generalizing hole with
  | nil => trivial
  | cons f p ih =>
    cases f with
    | L c a x r =>
      obtain ⟨h1, h2, h3⟩ := H
      refine ⟨?_, h2.congr_r ?_, ih h3 ?_⟩
      · rw [e a (by simp [pathAddrs, Frame.addrs])]; exact h1
      · intro b hb; exact e b (by simp [pathAddrs, Frame.addrs, hb])
      · intro b hb; exact e b (by simp [pathAddrs, Frame.addrs, hb])
    | R c l a x =>
      obtain ⟨h1, h2, h3⟩ := H
      refine ⟨?_, h2.congr_r ?_, ih h3 ?_⟩
      · rw [e a (by simp [pathAddrs, Frame.addrs])]; exact h1
      · intro b hb; exact e b (by simp [pathAddrs, Frame.addrs, hb])
      · intro b hb; exact e b (by simp [pathAddrs, Frame.addrs, hb])

/-- Frame rule: a tree none of whose addresses is among the `touched` ones is
represented after the update as before. -/
theorem Rep.frame_r {h h' : Nat → Option (Node α)} {t : Tree α} {par : Option Nat}
    (H : Rep h t par) (touched : Multiset Nat) (hf : ∀ z, z ∉ touched → h' z = h z)
    (hd : ∀ z ∈ t.addrs, z ∉ touched) : Rep h' t par :=
  H.congr_r fun z hz => hf z (hd z hz)

theorem RepP.frame_p {h h' : Nat → Option (Node α)} {p : Path α} {hole : Option Nat}
    (H : RepP h p hole) (touched : Multiset Nat) (hf : ∀ z, z ∉ touched → h' z = h z)
    (hd : ∀ z ∈ pathAddrs p, z ∉ touched) : RepP h' p hole :=
  H.congr_p fun z hz => hf z (hd z hz)

theorem Rep.write_r {t : RBTree α} {tr : Tree α} {par : Option Nat} (H : Rep t.nodes tr par)
    {p : Nat} (n : Node α) (hp : p ∉ tr.addrs) : Rep (t.write p n).nodes tr par :=
  H.congr_r fun a ha => write_nodes_ne t n (fun e => hp (e ▸ ha))

theorem RepP.write_p {t : RBTree α} {pa : Path α} {hole : Option Nat} (H : RepP t.nodes pa hole)
    {p : Nat} (n : Node α) (hp : p ∉ pathAddrs pa) : RepP (t.write p n).nodes pa hole :=
  H.congr_p fun a ha => write_nodes_ne t n (fun e => hp (e ▸ ha))

theorem validZ_up {t : RBTree α} {f : Frame α} {p : Path α} {foc : Tree α}
    (H : ValidZ t (f :: p) foc) : ValidZ t p (f.fill foc) := by
  obtain ⟨h1, h2, h3, h4, h5⟩ := H
  cases f with
  | L c a x r =>
    obtain ⟨c1, c2, c3⟩ := h3
    refine ⟨h1, ⟨c1, h2, c2⟩, c3, ?_, ?_⟩
    · have e : ((Frame.L c a x r).fill foc).addrs + pathAddrs p
          = foc.addrs + pathAddrs (Frame.L c a x r :: p) := by
        simp only [Frame.fill, Tree.addrs, pathAddrs, Frame.addrs]; abel
      rw [e]; exact h4
    · intro b hb
      apply h5
      simp only [Frame.fill, Tree.addrs, pathAddrs, Frame.addrs, Multiset.mem_add] at hb ⊢
      tauto
  | R c l a x =>
    obtain ⟨c1, c2, c3⟩ := h3
    refine ⟨h1, ⟨c1, c2, h2⟩, c3, ?_, ?_⟩
    · have e : ((Frame.R c l a x).fill foc).addrs + pathAddrs p
          = foc.addrs + pathAddrs (Frame.R c l a x :: p) := by
        simp only [Frame.fill, Tree.addrs, pathAddrs, Frame.addrs]; abel
      rw [e]; exact h4
    · intro b hb
      apply h5
      simp only [Frame.fill, Tree.addrs, pathAddrs, Frame.addrs, Multiset.mem_add] at hb ⊢
      tauto

theorem validZ_down {t : RBTree α} {f : Frame α} {p : Path α} {foc : Tree α}
    (H : ValidZ t p (f.fill foc)) : ValidZ t (f :: p) foc := by
  obtain ⟨h1, h2, h3, h4, h5⟩ := H
  cases f with
  | L c a x r =>
    obtain ⟨c1, c2, c3⟩ := h2
    refine ⟨h1, c2, ⟨c1, c3, h3⟩, ?_, ?_⟩
    · have e : ((Frame.L c a x r).fill foc).addrs + pathAddrs p
          = foc.addrs + pathAddrs (Frame.L c a x r :: p) := by
        simp only [Frame.fill, Tree.addrs, pathAddrs, Frame.addrs]; abel
      rw [← e]; exact h4
    · intro b hb
      apply h5
      simp only [Frame.fill, Tree.addrs, pathAddrs, Frame.addrs, Multiset.mem_add] at hb ⊢
      tauto
  | R c l a x =>
    obtain ⟨c1, c2, c3⟩ := h2
    refine ⟨h1, c3, ⟨c1, c2, h3⟩, ?_, ?_⟩
    · have e : ((Frame.R c l a x).fill foc).addrs + pathAddrs p
          = foc.addrs + pathAddrs (Frame.R c l a x :: p) := by
        simp only [Frame.fill, Tree.addrs, pathAddrs, Frame.addrs]; abel
      rw [← e]; exact h4
    · intro b hb
      apply h5
      simp only [Frame.fill, Tree.addrs, pathAddrs, Frame.addrs, Multiset.mem_add] at hb ⊢
      tauto

theorem validZ_nodes_foc {t : RBTree α} {p : Path α} {c : Color} {l r : Tree α} {a : Nat} {x : α}
    (H : ValidZ t p (.node c l a x r)) :
    t.nodes a = some ⟨l.ptr, r.ptr, pathPar p, c, some x⟩ := H.hfoc.1

/-- Rewriting one cell of the focus root (keeping its links) gives the focus
with the new colour and element. -/
theorem validZ_write_foc {t : RBTree α} {p : Path α} {c : Color} {l r : Tree α} {a : Nat} {x : α}
    (H : ValidZ t p (.node c l a x r)) (c' : Color) (x' : α) :
    ValidZ (t.write a ⟨l.ptr, r.ptr, pathPar p, c', some x'⟩) p (.node c' l a x' r) := by
  obtain ⟨h1, ⟨h2, h3, h4⟩, h5, h6, h7⟩ := H
  have nd := h6
  simp [Tree.addrs, Multiset.nodup_add, Multiset.disjoint_left] at nd
  refine ⟨h1, ⟨by simp, h3.write_r _ (by tauto), h4.write_r _ (by tauto)⟩, h5.write_p _ (by tauto), h6, h7⟩

theorem setColor_foc {t : RBTree α} {p : Path α} {c : Color} {l r : Tree α} {a : Nat} {x : α}
    (H : ValidZ t p (.node c l a x r)) (c' : Color) :
    ∃ t', setColor t a c' = some t' ∧ ValidZ t' p (.node c' l a x r) ∧ SameMeta t t' :=
  ⟨_, by simp [setColor, validZ_nodes_foc H], validZ_write_foc H c' x, sameMeta_write _ _ _⟩

theorem setData_foc {t : RBTree α} {p : Path α} {c : Color} {l r : Tree α} {a : Nat} {x : α}
    (H : ValidZ t p (.node c l a x r)) (x' : α) :
    ∃ t', setData t a (some x') = some t' ∧ ValidZ t' p (.node c l a x' r) ∧ SameMeta t t' :=
  ⟨_, by simp [setData, validZ_nodes_foc H], validZ_write_foc H c x', sameMeta_write _ _ _⟩

/-- What `replaceWithChild` does to the path above `node`: the link that
pointed to `node` (the parent's or the tree's root) now points to `child`. -/
theorem replaceWithChild_path {t : RBTree α} {p : Path α} {a : Nat} {na : Node α}
    (child : Option Nat)
    (hroot : t.root = pathRoot p (some a)) (hp : RepP t.nodes p (some a))
    (ha : t.nodes a = some na) (hpar : na.parent = pathPar p) (hap : a ∉ pathAddrs p)
    (hnd : (pathAddrs p).Nodup) :
    ∃ t1, replaceWithChild t a child = (match child with
        | none => some t1
        | some c => setParent t1 c (pathPar p))
      ∧ t1.root = pathRoot p child ∧ RepP t1.nodes p child
      ∧ (∀ q, q ∉ pathAddrs p → t1.nodes q = t.nodes q) ∧ SameMeta t t1 := by
  cases p with
  | nil =>
    refine ⟨{ t with root := child }, ?_, rfl, trivial, fun _ _ => rfl,
      ⟨rfl, rfl, rfl, rfl, rfl, rfl⟩⟩
    cases child <;> simp [replaceWithChild, parentOf, ha, hpar, pathPar]
  | cons f p =>
    cases f with
    | L c q y r =>
      obtain ⟨c1, c2, c3⟩ := hp
      simp [pathAddrs, Frame.addrs, Multiset.nodup_add, Multiset.disjoint_left] at hnd hap
      refine ⟨t.write q ⟨child, r.ptr, pathPar p, c, some y⟩, ?_, ?_, ⟨by simp, ?_, ?_⟩, ?_,
        sameMeta_write _ _ _⟩
      · have hqa : a ≠ q := by tauto
        cases child <;> simp [replaceWithChild, parentOf, ha, hpar, pathPar, Frame.addr, leftOf,
          c1, setLeft, write_nodes_ne, hqa]
      · simpa [pathRoot] using hroot
      · exact c2.write_r _ (by tauto)
      · exact c3.write_p _ (by tauto)
      · intro z hz
        simp [pathAddrs, Frame.addrs] at hz
        exact write_nodes_ne _ _ (by tauto)
    | R c l q y =>
      obtain ⟨c1, c2, c3⟩ := hp
      simp [pathAddrs, Frame.addrs, Multiset.nodup_add, Multiset.disjoint_left] at hnd hap
      have hl : ¬ (some a = l.ptr) := fun e => hap.2.1 (ptr_mem e.symm)
      refine ⟨t.write q ⟨l.ptr, child, pathPar p, c, some y⟩, ?_, ?_, ⟨by simp, ?_, ?_⟩, ?_,
        sameMeta_write _ _ _⟩
      · have hqa : a ≠ q := by tauto
        cases child <;> simp [replaceWithChild, parentOf, ha, hpar, pathPar, Frame.addr, leftOf,
          c1, setRight, hl, write_nodes_ne, hqa]
      · simpa [pathRoot] using hroot
      · exact c2.write_r _ (by tauto)
      · exact c3.write_p _ (by tauto)
      · intro z hz
        simp [pathAddrs, Frame.addrs] at hz
        exact write_nodes_ne _ _ (by tauto)

theorem leftRotate_foc {t : RBTree α} {p : Path α} {ca cb : Color} {A B C : Tree α} {a b : Nat}
    {xa xb : α} (H : ValidZ t p (.node ca A a xa (.node cb B b xb C))) :
    ∃ t', leftRotate t a = some t' ∧ ValidZ t' p (.node cb (.node ca A a xa B) b xb C)
      ∧ SameMeta t t' := by
  obtain ⟨h1, ⟨h2, h3, h4, h5, h6⟩, h7, h8, h9⟩ := H
  have hnd : ((Tree.node cb (.node ca A a xa B) b xb C).addrs + pathAddrs p).Nodup := by
    have e : (Tree.node cb (.node ca A a xa B) b xb C).addrs + pathAddrs p
        = (Tree.node ca A a xa (.node cb B b xb C)).addrs + pathAddrs p := by
      simp only [Tree.addrs]; abel
    rw [e]; exact h8
  have hlt : ∀ z ∈ (Tree.node cb (.node ca A a xa B) b xb C).addrs + pathAddrs p,
      z < t.next := by
    intro z hz
    apply h9
    simp only [Tree.addrs, Multiset.mem_add, Multiset.mem_singleton] at hz ⊢
    tauto
  simp only [Tree.ptr_node] at h1 h2 h7
  have hab : a ≠ b :=
    ne_of_count h8 (fun z => by simp only [Tree.addrs, Multiset.count_add]; omega)
  have hap : a ∉ pathAddrs p :=
    not_mem_of_count h8 (fun z => by simp only [Tree.addrs, Multiset.count_add]; omega)
  have hbp : b ∉ pathAddrs p :=
    not_mem_of_count h8 (fun z => by simp only [Tree.addrs, Multiset.count_add]; omega)
  obtain ⟨t1, e1, r1, p1, f1, m1⟩ := replaceWithChild_path (some b) h1 h7 h2 rfl hap
    (Multiset.nodup_add.1 h8).2.1
  have n1a : t1.nodes a = _ := (f1 a hap).trans h2
  have n1b : t1.nodes b = _ := (f1 b hbp).trans h4
  cases B with
  | nil =>
    cases hres : leftRotate t a with
    | none =>
      simp only [leftRotate, rightOf, h2, e1, setParent, n1b, n1a, leftOf,
        write_nodes_ne _ _ hab, write_nodes_ne _ _ hab.symm, write_nodes_same, Tree.ptr_nil,
        setRight, setLeft, Option.map_some', reduceCtorEq] at hres
    | some t' =>
      simp only [leftRotate, rightOf, h2, e1, setParent, n1b, n1a, leftOf,
        write_nodes_ne _ _ hab, write_nodes_ne _ _ hab.symm, write_nodes_same, Tree.ptr_nil,
        setRight, setLeft, Option.map_some', Option.some.injEq] at hres
      have ea : t'.nodes a = some ⟨A.ptr, none, some b, ca, some xa⟩ := by
        rw [← hres]; simp only [write_nodes_same]
      have eb : t'.nodes b = some ⟨some a, C.ptr, pathPar p, cb, some xb⟩ := by
        rw [← hres]; simp only [write_nodes_ne _ _ hab.symm, write_nodes_same]
      have hf : ∀ z, z ∉ ({a} + {b} + pathAddrs p : Multiset Nat) → t'.nodes z = t.nodes z := by
        intro z hz
        simp only [Multiset.mem_add, Multiset.mem_singleton, not_or] at hz
        rw [← hres, ← f1 z hz.2]
        simp only [write_nodes_ne _ _ hz.1.1, write_nodes_ne _ _ hz.1.2]
      have hf1 : ∀ z, z ∉ ({a} + {b} : Multiset Nat) → t'.nodes z = t1.nodes z := by
        intro z hz
        simp only [Multiset.mem_add, Multiset.mem_singleton, not_or] at hz
        rw [← hres]
        simp only [write_nodes_ne _ _ hz.1, write_nodes_ne _ _ hz.2]
      have hr : t'.root = t1.root := by rw [← hres]; simp only [write_root]
      have hm : SameMeta t1 t' := by
        rw [← hres]; exact ((((SameMeta.refl t1).write_m _ _).write_m _ _).write_m _ _).write_m _ _
      clear hres
      refine ⟨t', rfl, ⟨hr.trans r1, ⟨eb, ⟨ea, ?_, trivial⟩, ?_⟩, ?_, hnd, ?_⟩, m1.trans hm⟩
      · exact h3.frame_r _ hf (disj_of_count h8 (fun z => by
          simp only [Tree.addrs, Multiset.count_add]; omega))
      · exact h6.frame_r _ hf (disj_of_count h8 (fun z => by
          simp only [Tree.addrs, Multiset.count_add]; omega))
      · exact p1.frame_p _ hf1 (disj_of_count h8 (fun z => by
          simp only [Tree.addrs, Multiset.count_add]; omega))
      · rw [hm.next, m1.next]; exact hlt
  | node cB Bl b' xB Br =>
    obtain ⟨h5a, h5b, h5c⟩ := h5
    have hab' : a ≠ b' :=
      ne_of_count h8 (fun z => by simp only [Tree.addrs, Multiset.count_add]; omega)
    have hbb' : b ≠ b' :=
      ne_of_count h8 (fun z => by simp only [Tree.addrs, Multiset.count_add]; omega)
    have hb'p : b' ∉ pathAddrs p :=
      not_mem_of_count h8 (fun z => by simp only [Tree.addrs, Multiset.count_add]; omega)
    have n1b' : t1.nodes b' = _ := (f1 b' hb'p).trans h5a
    cases hres : leftRotate t a with
    | none =>
      simp only [leftRotate, rightOf, h2, e1, setParent, n1b, n1a, n1b', leftOf,
        write_nodes_ne _ _ hab, write_nodes_ne _ _ hab.symm, write_nodes_ne _ _ hab',
        write_nodes_ne _ _ hab'.symm, write_nodes_ne _ _ hbb', write_nodes_ne _ _ hbb'.symm,
        write_nodes_same, Tree.ptr_node, setRight, setLeft, Option.map_some', reduceCtorEq]
        at hres
    | some t' =>
      simp only [leftRotate, rightOf, h2, e1, setParent, n1b, n1a, n1b', leftOf,
        write_nodes_ne _ _ hab, write_nodes_ne _ _ hab.symm, write_nodes_ne _ _ hab',
        write_nodes_ne _ _ hab'.symm, write_nodes_ne _ _ hbb', write_nodes_ne _ _ hbb'.symm,
        write_nodes_same, Tree.ptr_node, setRight, setLeft, Option.map_some',
        Option.some.injEq] at hres
      have ea : t'.nodes a = some ⟨A.ptr, some b', some b, ca, some xa⟩ := by
        rw [← hres]; simp only [write_nodes_same]
      have eb : t'.nodes b = some ⟨some a, C.ptr, pathPar p, cb, some xb⟩ := by
        rw [← hres]; simp only [write_nodes_ne _ _ hab.symm, write_nodes_same]
      have eb' : t'.nodes b' = some ⟨Bl.ptr, Br.ptr, some a, cB, some xB⟩ := by
        rw [← hres]
        simp only [write_nodes_ne _ _ hab'.symm, write_nodes_ne _ _ hbb'.symm, write_nodes_same]
      have hf : ∀ z, z ∉ ({a} + {b} + {b'} + pathAddrs p : Multiset Nat) →
          t'.nodes z = t.nodes z := by
        intro z hz
        simp only [Multiset.mem_add, Multiset.mem_singleton, not_or] at hz
        rw [← hres, ← f1 z hz.2]
        simp only [write_nodes_ne _ _ hz.1.1.1, write_nodes_ne _ _ hz.1.1.2,
          write_nodes_ne _ _ hz.1.2]
      have hf1 : ∀ z, z ∉ ({a} + {b} + {b'} : Multiset Nat) → t'.nodes z = t1.nodes z := by
        intro z hz
        simp only [Multiset.mem_add, Multiset.mem_singleton, not_or] at hz
        rw [← hres]
        simp only [write_nodes_ne _ _ hz.1.1, write_nodes_ne _ _ hz.1.2,
          write_nodes_ne _ _ hz.2]
      have hr : t'.root = t1.root := by rw [← hres]; simp only [write_root]
      have hm : SameMeta t1 t' := by
        rw [← hres]
        exact (((((SameMeta.refl t1).write_m _ _).write_m _ _).write_m _ _).write_m _ _).write_m _ _
      clear hres
      refine ⟨t', rfl, ⟨hr.trans r1, ⟨eb, ⟨ea, ?_, eb', ?_, ?_⟩, ?_⟩, ?_, hnd, ?_⟩, m1.trans hm⟩
      · exact h3.frame_r _ hf (disj_of_count h8 (fun z => by
          simp only [Tree.addrs, Multiset.count_add]; omega))
      · exact h5b.frame_r _ hf (disj_of_count h8 (fun z => by
          simp only [Tree.addrs, Multiset.count_add]; omega))
      · exact h5c.frame_r _ hf (disj_of_count h8 (fun z => by
          simp only [Tree.addrs, Multiset.count_add]; omega))
      · exact h6.frame_r _ hf (disj_of_count h8 (fun z => by
          simp only [Tree.addrs, Multiset.count_add]; omega))
      · exact p1.frame_p _ hf1 (disj_of_count h8 (fun z => by
          simp only [Tree.addrs, Multiset.count_add]; omega))
      · rw [hm.next, m1.next]; exact hlt

theorem rightRotate_foc {t : RBTree α} {p : Path α} {ca cb : Color} {A B C : Tree α} {a b : Nat}
    {xa xb : α} (H : ValidZ t p (.node ca (.node cb A b xb B) a xa C)) :
    ∃ t', rightRotate t a = some t' ∧ ValidZ t' p (.node cb A b xb (.node ca B a xa C))
      ∧ SameMeta t t' := by
  obtain ⟨h1, ⟨h2, ⟨h4, h3, h5⟩, h6⟩, h7, h8, h9⟩ := H
  have hnd : ((Tree.node cb A b xb (.node ca B a xa C)).addrs + pathAddrs p).Nodup := by
    have e : (Tree.node cb A b xb (.node ca B a xa C)).addrs + pathAddrs p
        = (Tree.node ca (.node cb A b xb B) a xa C).addrs + pathAddrs p := by
      simp only [Tree.addrs]; abel
    rw [e]; exact h8
  have hlt : ∀ z ∈ (Tree.node cb A b xb (.node ca B a xa C)).addrs + pathAddrs p,
      z < t.next := by
    intro z hz
    apply h9
    simp only [Tree.addrs, Multiset.mem_add, Multiset.mem_singleton] at hz ⊢
    tauto
  simp only [Tree.ptr_node] at h1 h2 h7
  have hab : a ≠ b :=
    ne_of_count h8 (fun z => by simp only [Tree.addrs, Multiset.count_add]; omega)
  have hap : a ∉ pathAddrs p :=
    not_mem_of_count h8 (fun z => by simp only [Tree.addrs, Multiset.count_add]; omega)
  have hbp : b ∉ pathAddrs p :=
    not_mem_of_count h8 (fun z => by simp only [Tree.addrs, Multiset.count_add]; omega)
  obtain ⟨t1, e1, r1, p1, f1, m1⟩ := replaceWithChild_path (some b) h1 h7 h2 rfl hap
    (Multiset.nodup_add.1 h8).2.1
  have n1a : t1.nodes a = _ := (f1 a hap).trans h2
  have n1b : t1.nodes b = _ := (f1 b hbp).trans h4
  cases B with
  | nil =>
    cases hres : rightRotate t a with
    | none =>
      simp only [rightRotate, leftOf, h2, e1, setParent, n1b, n1a, rightOf,
        write_nodes_ne _ _ hab, write_nodes_ne _ _ hab.symm, write_nodes_same, Tree.ptr_nil,
        setLeft, setRight, Option.map_some', reduceCtorEq] at hres
    | some t' =>
      simp only [rightRotate, leftOf, h2, e1, setParent, n1b, n1a, rightOf,
        write_nodes_ne _ _ hab, write_nodes_ne _ _ hab.symm, write_nodes_same, Tree.ptr_nil,
        setLeft, setRight, Option.map_some', Option.some.injEq] at hres
      have ea : t'.nodes a = some ⟨none, C.ptr, some b, ca, some xa⟩ := by
        rw [← hres]; simp only [write_nodes_same]
      have eb : t'.nodes b = some ⟨A.ptr, some a, pathPar p, cb, some xb⟩ := by
        rw [← hres]; simp only [write_nodes_ne _ _ hab.symm, write_nodes_same]
      have hf : ∀ z, z ∉ ({a} + {b} + pathAddrs p : Multiset Nat) → t'.nodes z = t.nodes z := by
        intro z hz
        simp only [Multiset.mem_add, Multiset.mem_singleton, not_or] at hz
        rw [← hres, ← f1 z hz.2]
        simp only [write_nodes_ne _ _ hz.1.1, write_nodes_ne _ _ hz.1.2]
      have hf1 : ∀ z, z ∉ ({a} + {b} : Multiset Nat) → t'.nodes z = t1.nodes z := by
        intro z hz
        simp only [Multiset.mem_add, Multiset.mem_singleton, not_or] at hz
        rw [← hres]
        simp only [write_nodes_ne _ _ hz.1, write_nodes_ne _ _ hz.2]
      have hr : t'.root = t1.root := by rw [← hres]; simp only [write_root]
      have hm : SameMeta t1 t' := by
        rw [← hres]; exact ((((SameMeta.refl t1).write_m _ _).write_m _ _).write_m _ _).write_m _ _
      clear hres
      refine ⟨t', rfl, ⟨hr.trans r1, ⟨eb, ?_, ⟨ea, trivial, ?_⟩⟩, ?_, hnd, ?_⟩, m1.trans hm⟩
      · exact h3.frame_r _ hf (disj_of_count h8 (fun z => by
          simp only [Tree.addrs, Multiset.count_add]; omega))
      · exact h6.frame_r _ hf (disj_of_count h8 (fun z => by
          simp only [Tree.addrs, Multiset.count_add]; omega))
      · exact p1.frame_p _ hf1 (disj_of_count h8 (fun z => by
          simp only [Tree.addrs, Multiset.count_add]; omega))
      · rw [hm.next, m1.next]; exact hlt
  | node cB Bl b' xB Br =>
    obtain ⟨h5a, h5b, h5c⟩ := h5
    have hab' : a ≠ b' :=
      ne_of_count h8 (fun z => by simp only [Tree.addrs, Multiset.count_add]; omega)
    have hbb' : b ≠ b' :=
      ne_of_count h8 (fun z => by simp only [Tree.addrs, Multiset.count_add]; omega)
    have hb'p : b' ∉ pathAddrs p :=
      not_mem_of_count h8 (fun z => by simp only [Tree.addrs, Multiset.count_add]; omega)
    have n1b' : t1.nodes b' = _ := (f1 b' hb'p).trans h5a
    cases hres : rightRotate t a with
    | none =>
      simp only [rightRotate, leftOf, h2, e1, setParent, n1b, n1a, n1b', rightOf,
        write_nodes_ne _ _ hab, write_nodes_ne _ _ hab.symm, write_nodes_ne _ _ hab',
        write_nodes_ne _ _ hab'.symm, write_nodes_ne _ _ hbb', write_nodes_ne _ _ hbb'.symm,
        write_nodes_same, Tree.ptr_node, setLeft, setRight, Option.map_some', reduceCtorEq]
        at hres
    | some t' =>
      simp only [rightRotate, leftOf, h2, e1, setParent, n1b, n1a, n1b', rightOf,
        write_nodes_ne _ _ hab, write_nodes_ne _ _ hab.symm, write_nodes_ne _ _ hab',
        write_nodes_ne _ _ hab'.symm, write_nodes_ne _ _ hbb', write_nodes_ne _ _ hbb'.symm,
        write_nodes_same, Tree.ptr_node, setLeft, setRight, Option.map_some',
        Option.some.injEq] at hres
      have ea : t'.nodes a = some ⟨some b', C.ptr, some b, ca, some xa⟩ := by
        rw [← hres]; simp only [write_nodes_same]
      have eb : t'.nodes b = some ⟨A.ptr, some a, pathPar p, cb, some xb⟩ := by
        rw [← hres]; simp only [write_nodes_ne _ _ hab.symm, write_nodes_same]
      have eb' : t'.nodes b' = some ⟨Bl.ptr, Br.ptr, some a, cB, some xB⟩ := by
        rw [← hres]
        simp only [write_nodes_ne _ _ hab'.symm, write_nodes_ne _ _ hbb'.symm, write_nodes_same]
      have hf : ∀ z, z ∉ ({a} + {b} + {b'} + pathAddrs p : Multiset Nat) →
          t'.nodes z = t.nodes z := by
        intro z hz
        simp only [Multiset.mem_add, Multiset.mem_singleton, not_or] at hz
        rw [← hres, ← f1 z hz.2]
        simp only [write_nodes_ne _ _ hz.1.1.1, write_nodes_ne _ _ hz.1.1.2,
          write_nodes_ne _ _ hz.1.2]
      have hf1 : ∀ z, z ∉ ({a} + {b} + {b'} : Multiset Nat) → t'.nodes z = t1.nodes z := by
        intro z hz
        simp only [Multiset.mem_add, Multiset.mem_singleton, not_or] at hz
        rw [← hres]
        simp only [write_nodes_ne _ _ hz.1.1, write_nodes_ne _ _ hz.1.2,
          write_nodes_ne _ _ hz.2]
      have hr : t'.root = t1.root := by rw [← hres]; simp only [write_root]
      have hm : SameMeta t1 t' := by
        rw [← hres]
        exact (((((SameMeta.refl t1).write_m _ _).write_m _ _).write_m _ _).write_m _ _).write_m _ _
      clear hres
      refine ⟨t', rfl, ⟨hr.trans r1, ⟨eb, ?_, ⟨ea, ⟨eb', ?_, ?_⟩, ?_⟩⟩, ?_, hnd, ?_⟩, m1.trans hm⟩
      · exact h3.frame_r _ hf (disj_of_count h8 (fun z => by
          simp only [Tree.addrs, Multiset.count_add]; omega))
      · exact h5b.frame_r _ hf (disj_of_count h8 (fun z => by
          simp only [Tree.addrs, Multiset.count_add]; omega))
      · exact h5c.frame_r _ hf (disj_of_count h8 (fun z => by
          simp only [Tree.addrs, Multiset.count_add]; omega))
      · exact h6.frame_r _ hf (disj_of_count h8 (fun z => by
          simp only [Tree.addrs, Multiset.count_add]; omega))
      · exact p1.frame_p _ hf1 (disj_of_count h8 (fun z => by
          simp only [Tree.addrs, Multiset.count_add]; omega))
      · rw [hm.next, m1.next]; exact hlt

theorem findAndAdd_foc (cmp : α → α → Int) (x : α) (n : Nat) :
    ∀ (foc : Tree α) (p : Path α) (t : RBTree α) (fuel : Nat) (c : Color) (l r : Tree α)
      (a : Nat) (y : α), foc = .node c l a y r → ValidZ t p foc → foc.height ≤ fuel →
      t.nodes n = some ⟨none, none, none, Color.RED, some x⟩ → n < t.next →
      n ∉ foc.addrs + pathAddrs p →
      ∃ t', findAndAdd cmp fuel t a n = some t' ∧
        ValidZ t' (descend cmp x foc p) (.node Color.RED .nil n x .nil) ∧ SameMeta t t' := by
  intro foc
  induction foc with
  | nil => intro p t fuel c l r a y e; cases e
  | node c l a y r ihl ihr =>
    intro p t fuel c' l' r' a' y' e H hf hn hlt hnot
    cases e
    cases fuel with
    | zero => simp [Tree.height] at hf
    | succ fuel =>
      have hcell := validZ_nodes_foc H
      simp only [Tree.height, Nat.add_le_add_iff_right, max_le_iff] at hf
      have hna : n ≠ a := by
        intro e; apply hnot; simp [Tree.addrs, e]
      by_cases hc : cmp x y < 0
      · cases l with
        | nil =>
          refine ⟨(t.write a ⟨some n, r.ptr, pathPar p, c, some y⟩).write n
            ⟨none, none, some a, Color.RED, some x⟩, ?_, ?_, (sameMeta_write _ _ _).write_m _ _⟩
          · simp only [findAndAdd, dataOf, hn, hcell, Option.map_some', hc, if_true, leftOf,
              Tree.ptr_nil, setLeft, setParent, write_nodes_ne _ _ hna, write_nodes_same]
          · have H' := (validZ_down (f := .L c a y r) H : ValidZ t _ (.nil))
            obtain ⟨h1, h2, ⟨h3, h4, h5⟩, h6, h7⟩ := H'
            have hnr : n ∉ r.addrs := by
              intro e; apply hnot; simp [Tree.addrs, e]
            have hnp : n ∉ pathAddrs p := by
              intro e; apply hnot; simp [Tree.addrs, e]
            have har : a ∉ r.addrs := not_mem_of_count h6 (fun z => by
              simp only [Tree.addrs, pathAddrs, Frame.addrs, Multiset.count_add]; omega)
            have hap : a ∉ pathAddrs p := not_mem_of_count h6 (fun z => by
              simp only [Tree.addrs, pathAddrs, Frame.addrs, Multiset.count_add]; omega)
            simp only [descend, hc, if_true]
            refine ⟨?_, ⟨?_, trivial, trivial⟩, ⟨?_, ?_, ?_⟩, ?_, ?_⟩
            · simpa [pathRoot] using h1
            · simp only [write_nodes_same, Tree.ptr_nil, pathPar, Frame.addr]
            · simp only [write_nodes_ne _ _ hna.symm, write_nodes_same, Tree.ptr_node]
            · exact (h4.write_r _ har).write_r _ hnr
            · exact (h5.write_p _ hap).write_p _ hnp
            · simp only [Tree.addrs, pathAddrs, Frame.addrs, add_zero, zero_add] at h6 hnot ⊢
              rw [Multiset.singleton_add, Multiset.nodup_cons]
              exact ⟨hnot, h6⟩
            · intro z hz
              simp only [Tree.addrs, pathAddrs, Frame.addrs, add_zero, Multiset.mem_add,
                Multiset.mem_singleton] at hz h7
              rcases hz with rfl | hz
              · exact hlt
              · exact h7 z (by tauto)
        | node cl ll al yl rl =>
          have H' := (validZ_down (f := .L c a y r) H : ValidZ t _ (.node cl ll al yl rl))
          obtain ⟨t', e, hv, hm⟩ := ihl _ t fuel cl ll rl al yl rfl H' hf.1 hn hlt (by
            intro e; apply hnot
            simp only [Tree.addrs, pathAddrs, Frame.addrs, Multiset.mem_add] at e ⊢
            tauto)
          refine ⟨t', ?_, ?_, hm⟩
          · simp only [findAndAdd, dataOf, hn, hcell, Option.map_some', hc, if_true, leftOf,
              Tree.ptr_node]
            exact e
          · simpa only [descend, hc, if_true] using hv
      · cases r with
        | nil =>
          refine ⟨(t.write a ⟨l.ptr, some n, pathPar p, c, some y⟩).write n
            ⟨none, none, some a, Color.RED, some x⟩, ?_, ?_, (sameMeta_write _ _ _).write_m _ _⟩
          · simp only [findAndAdd, dataOf, hn, hcell, Option.map_some', hc, if_false, rightOf,
              Tree.ptr_nil, setRight, setParent, write_nodes_ne _ _ hna, write_nodes_same]
          · have H' := (validZ_down (f := .R c l a y) H : ValidZ t _ (.nil))
            obtain ⟨h1, h2, ⟨h3, h4, h5⟩, h6, h7⟩ := H'
            have hnr : n ∉ l.addrs := by
              intro e; apply hnot; simp [Tree.addrs, e]
            have hnp : n ∉ pathAddrs p := by
              intro e; apply hnot; simp [Tree.addrs, e]
            have har : a ∉ l.addrs := not_mem_of_count h6 (fun z => by
              simp only [Tree.addrs, pathAddrs, Frame.addrs, Multiset.count_add]; omega)
            have hap : a ∉ pathAddrs p := not_mem_of_count h6 (fun z => by
              simp only [Tree.addrs, pathAddrs, Frame.addrs, Multiset.count_add]; omega)
            simp only [descend, hc, if_false]
            refine ⟨?_, ⟨?_, trivial, trivial⟩, ⟨?_, ?_, ?_⟩, ?_, ?_⟩
            · simpa [pathRoot] using h1
            · simp only [write_nodes_same, Tree.ptr_nil, pathPar, Frame.addr]
            · simp only [write_nodes_ne _ _ hna.symm, write_nodes_same, Tree.ptr_node]
            · exact (h4.write_r _ har).write_r _ hnr
            · exact (h5.write_p _ hap).write_p _ hnp
            · simp only [Tree.addrs, pathAddrs, Frame.addrs, add_zero, zero_add] at h6 hnot ⊢
              rw [Multiset.singleton_add, Multiset.nodup_cons]
              exact ⟨hnot, h6⟩
            · intro z hz
              simp only [Tree.addrs, pathAddrs, Frame.addrs, add_zero, Multiset.mem_add,
                Multiset.mem_singleton] at hz h7
              rcases hz with rfl | hz
              · exact hlt
              · exact h7 z (by tauto)
        | node cr lr ar yr rr =>
          have H' := (validZ_down (f := .R c l a y) H : ValidZ t _ (.node cr lr ar yr rr))
          obtain ⟨t', e, hv, hm⟩ := ihr _ t fuel cr lr rr ar yr rfl H' hf.2 hn hlt (by
            intro e; apply hnot
            simp only [Tree.addrs, pathAddrs, Frame.addrs, Multiset.mem_add] at e ⊢
            tauto)
          refine ⟨t', ?_, ?_, hm⟩
          · simp only [findAndAdd, dataOf, hn, hcell, Option.map_some', hc, if_false, rightOf,
              Tree.ptr_node]
            exact e
          · simpa only [descend, hc, if_false] using hv

theorem parentOf_foc {t : RBTree α} {p : Path α} {c : Color} {l r : Tree α} {a : Nat} {x : α}
    (H : ValidZ t p (.node c l a x r)) : parentOf t a = some (pathPar p) := by
  simp only [parentOf, validZ_nodes_foc H, Option.map_some']

theorem leftOf_foc {t : RBTree α} {p : Path α} {c : Color} {l r : Tree α} {a : Nat} {x : α}
    (H : ValidZ t p (.node c l a x r)) : leftOf t a = some l.ptr := by
  simp only [leftOf, validZ_nodes_foc H, Option.map_some']

theorem rightOf_foc {t : RBTree α} {p : Path α} {c : Color} {l r : Tree α} {a : Nat} {x : α}
    (H : ValidZ t p (.node c l a x r)) : rightOf t a = some r.ptr := by
  simp only [rightOf, validZ_nodes_foc H, Option.map_some']

theorem colorOf_foc {t : RBTree α} {p : Path α} {c : Color} {l r : Tree α} {a : Nat} {x : α}
    (H : ValidZ t p (.node c l a x r)) : colorOf t a = some c := by
  simp only [colorOf, validZ_nodes_foc H, Option.map_some']

theorem dataOf_foc {t : RBTree α} {p : Path α} {c : Color} {l r : Tree α} {a : Nat} {x : α}
    (H : ValidZ t p (.node c l a x r)) : dataOf t a = some (some x) := by
  simp only [dataOf, validZ_nodes_foc H, Option.map_some']

/-- In a valid tree the left and the right child of a node are different
nodes. -/
theorem ptr_ne_of_validZ {t : RBTree α} {p : Path α} {c : Color} {l r : Tree α} {a : Nat} {x : α}
    (H : ValidZ t p (.node c l a x r)) {b : Nat} (hl : l.ptr = some b) : r.ptr ≠ some b := by
  intro hr
  have h1 := ptr_mem hl
  have h2 := ptr_mem hr
  exact disj_of_count H.nodup (S := l.addrs) (T := r.addrs) (fun z => by
    simp only [Tree.addrs, Multiset.count_add]; omega) b h1 h2

theorem findUncle_foc {t : RBTree α} {f g : Frame α} {p : Path α} {c : Color} {l r : Tree α}
    {a : Nat} {x : α} (H : ValidZ t (f :: g :: p) (.node c l a x r)) :
    findUncle t a = some g.sib.ptr := by
  have e1 := parentOf_foc H
  have H1 := validZ_up H
  have H2 := validZ_up H1
  cases f with
  | L cp ap xp S =>
    have e2 := parentOf_foc H1
    cases g with
    | L cg ag xg U =>
      have e3 := leftOf_foc H2
      have e4 := rightOf_foc H2
      simp only [findUncle, e1, e2, e3, e4, pathPar, Frame.addr, Frame.fill, Tree.ptr_node,
        if_true, Frame.sib]
      cases U.ptr <;> simp
    | R cg U ag xg =>
      have e3 := leftOf_foc H2
      have e4 := rightOf_foc H2
      have hne : U.ptr ≠ some ap := fun h => ptr_ne_of_validZ H2 h rfl
      simp only [findUncle, e1, e2, e3, e4, pathPar, Frame.addr, Frame.fill, Tree.ptr_node,
        if_true, Frame.sib, hne, if_false]
      cases U.ptr <;> simp
  | R cp S ap xp =>
    have e2 := parentOf_foc H1
    cases g with
    | L cg ag xg U =>
      have e3 := leftOf_foc H2
      have e4 := rightOf_foc H2
      simp only [findUncle, e1, e2, e3, e4, pathPar, Frame.addr, Frame.fill, Tree.ptr_node,
        if_true, Frame.sib]
      cases U.ptr <;> simp
    | R cg U ag xg =>
      have e3 := leftOf_foc H2
      have e4 := rightOf_foc H2
      have hne : U.ptr ≠ some ap := fun h => ptr_ne_of_validZ H2 h rfl
      simp only [findUncle, e1, e2, e3, e4, pathPar, Frame.addr, Frame.fill, Tree.ptr_node,
        if_true, Frame.sib, hne, if_false]
      cases U.ptr <;> simp

/-- `insertCase4b` on a left-left line. -/
theorem insertCase4b_LL {t : RBTree α} {p : Path α} {cp cg c : Color} {S U l r : Tree α}
    {ap ag a : Nat} {xp xg x : α}
    (H : ValidZ t (.L cp ap xp S :: .L cg ag xg U :: p) (.node c l a x r)) :
    ∃ t', insertCase4b t a = some t' ∧
      ValidZ t' p (.node Color.BLACK (.node c l a x r) ap xp (.node Color.RED S ag xg U)) ∧
      SameMeta t t' := by
  have e1 := parentOf_foc H
  have H1 := validZ_up H
  have e2 := parentOf_foc H1
  have e3 := leftOf_foc H1
  have H2 := validZ_up H1
  obtain ⟨t1, r1, V1, m1⟩ := rightRotate_foc H2
  obtain ⟨t2, r2, V2, m2⟩ := setColor_foc V1 Color.BLACK
  obtain ⟨t3, r3, V3, m3⟩ := setColor_foc (validZ_down (f := .R _ _ _ _) V2) Color.RED
  refine ⟨t3, ?_, validZ_up V3, (m1.trans m2).trans m3⟩
  simp only [insertCase4b, e1, e2, e3, pathPar, Frame.addr, Tree.ptr_node, if_true, r1, r2, r3]

/-- `insertCase4b` on a right-right line. -/
theorem insertCase4b_RR {t : RBTree α} {p : Path α} {cp cg c : Color} {S U l r : Tree α}
    {ap ag a : Nat} {xp xg x : α}
    (H : ValidZ t (.R cp S ap xp :: .R cg U ag xg :: p) (.node c l a x r)) :
    ∃ t', insertCase4b t a = some t' ∧
      ValidZ t' p (.node Color.BLACK (.node Color.RED U ag xg S) ap xp (.node c l a x r)) ∧
      SameMeta t t' := by
  have e1 := parentOf_foc H
  have H1 := validZ_up H
  have e2 := parentOf_foc H1
  have e3 := leftOf_foc H1
  have H2 := validZ_up H1
  have hne : ¬ (some a = S.ptr) := fun h => ptr_ne_of_validZ H1 h.symm rfl
  obtain ⟨t1, r1, V1, m1⟩ := leftRotate_foc H2
  obtain ⟨t2, r2, V2, m2⟩ := setColor_foc V1 Color.BLACK
  obtain ⟨t3, r3, V3, m3⟩ := setColor_foc (validZ_down (f := .L _ _ _ _) V2) Color.RED
  refine ⟨t3, ?_, validZ_up V3, (m1.trans m2).trans m3⟩
  simp only [insertCase4b, e1, e2, e3, pathPar, Frame.addr, hne, if_false, r1, r2, r3]

theorem insertCase4a_LL {t : RBTree α} {p : Path α} {cp cg c : Color} {S U l r : Tree α}
    {ap ag a : Nat} {xp xg x : α}
    (H : ValidZ t (.L cp ap xp S :: .L cg ag xg U :: p) (.node c l a x r)) :
    ∃ t', insertCase4a t a = some t' ∧
      ValidZ t' p (.node Color.BLACK (.node c l a x r) ap xp (.node Color.RED S ag xg U)) ∧
      SameMeta t t' := by
  have e1 := parentOf_foc H
  have H1 := validZ_up H
  have e2 := parentOf_foc H1
  have e3 := leftOf_foc H1
  have e4 := rightOf_foc H1
  have H2 := validZ_up H1
  have e5 := leftOf_foc H2
  have e6 := rightOf_foc H2
  have hne : ¬ (some a = S.ptr) := fun h => ptr_ne_of_validZ H1 rfl h.symm
  have hne2 : ¬ (some ap = U.ptr) := fun h => ptr_ne_of_validZ H2 rfl h.symm
  obtain ⟨t', r1, V1, m1⟩ := insertCase4b_LL H
  refine ⟨t', ?_, V1, m1⟩
  simp only [insertCase4a, e1, e2, e3, e4, e5, e6, pathPar, Frame.addr, Frame.fill,
    Tree.ptr_node, hne, hne2, false_and, and_false, if_false, r1]

theorem insertCase4a_RR {t : RBTree α} {p : Path α} {cp cg c : Color} {S U l r : Tree α}
    {ap ag a : Nat} {xp xg x : α}
    (H : ValidZ t (.R cp S ap xp :: .R cg U ag xg :: p) (.node c l a x r)) :
    ∃ t', insertCase4a t a = some t' ∧
      ValidZ t' p (.node Color.BLACK (.node Color.RED U ag xg S) ap xp (.node c l a x r)) ∧
      SameMeta t t' := by
  have e1 := parentOf_foc H
  have H1 := validZ_up H
  have e2 := parentOf_foc H1
  have e3 := leftOf_foc H1
  have e4 := rightOf_foc H1
  have H2 := validZ_up H1
  have e5 := leftOf_foc H2
  have e6 := rightOf_foc H2
  have hne : ¬ (some a = S.ptr) := fun h => ptr_ne_of_validZ H1 h.symm rfl
  have hne2 : ¬ (some ap = U.ptr) := fun h => ptr_ne_of_validZ H2 h.symm rfl
  obtain ⟨t', r1, V1, m1⟩ := insertCase4b_RR H
  refine ⟨t', ?_, V1, m1⟩
  simp only [insertCase4a, e1, e2, e3, e4, e5, e6, pathPar, Frame.addr, Frame.fill,
    Tree.ptr_node, hne, hne2, false_and, and_false, if_false, r1]

theorem insertCase4a_LR {t : RBTree α} {p : Path α} {cp cg c : Color} {S U l r : Tree α}
    {ap ag a : Nat} {xp xg x : α}
    (H : ValidZ t (.R cp S ap xp :: .L cg ag xg U :: p) (.node c l a x r)) :
    ∃ t', insertCase4a t a = some t' ∧
      ValidZ t' p (.node Color.BLACK (.node cp S ap xp l) a x (.node Color.RED r ag xg U)) ∧
      SameMeta t t' := by
  have e1 := parentOf_foc H
  have H1 := validZ_up H
  have e2 := parentOf_foc H1
  have e3 := leftOf_foc H1
  have e4 := rightOf_foc H1
  have H2 := validZ_up H1
  have e5 := leftOf_foc H2
  have e6 := rightOf_foc H2
  obtain ⟨t1, r1, V1, m1⟩ := leftRotate_foc H1
  have e7 := leftOf_foc V1
  obtain ⟨t', r2, V2, m2⟩ := insertCase4b_LL (validZ_down (f := .L _ _ _ _) V1)
  refine ⟨t', ?_, V2, m1.trans m2⟩
  simp only [insertCase4a, e1, e2, e3, e4, e5, e6, pathPar, Frame.addr, Frame.fill,
    Tree.ptr_node, and_self, if_true, r1, e7, r2]

theorem insertCase4a_RL {t : RBTree α} {p : Path α} {cp cg c : Color} {S U l r : Tree α}
    {ap ag a : Nat} {xp xg x : α}
    (H : ValidZ t (.L cp ap xp S :: .R cg U ag xg :: p) (.node c l a x r)) :
    ∃ t', insertCase4a t a = some t' ∧
      ValidZ t' p (.node Color.BLACK (.node Color.RED U ag xg l) a x (.node cp r ap xp S)) ∧
      SameMeta t t' := by
  have e1 := parentOf_foc H
  have H1 := validZ_up H
  have e2 := parentOf_foc H1
  have e3 := leftOf_foc H1
  have e4 := rightOf_foc H1
  have H2 := validZ_up H1
  have e5 := leftOf_foc H2
  have e6 := rightOf_foc H2
  have hne : ¬ (some a = S.ptr) := fun h => ptr_ne_of_validZ H1 rfl h.symm
  obtain ⟨t1, r1, V1, m1⟩ := rightRotate_foc H1
  have e7 := rightOf_foc V1
  obtain ⟨t', r2, V2, m2⟩ := insertCase4b_RR (validZ_down (f := .R _ _ _ _) V1)
  refine ⟨t', ?_, V2, m1.trans m2⟩
  simp only [insertCase4a, e1, e2, e3, e4, e5, e6, pathPar, Frame.addr, Frame.fill,
    Tree.ptr_node, hne, false_and, and_self, if_false, if_true, r1, e7, r2]

theorem validZ_swap {t : RBTree α} {f : Frame α} {p : Path α} {n : Tree α}
    (H : ValidZ t (f :: p) n) : ValidZ t (f.swap n :: p) f.sib := by
  cases f with
  | L c a x r => exact validZ_down (f := .R c n a x) (validZ_up (f := .L c a x r) H)
  | R c l a x => exact validZ_down (f := .L c a x n) (validZ_up (f := .R c l a x) H)

theorem validZ_unswap {t : RBTree α} {f : Frame α} {p : Path α} {n s : Tree α}
    (H : ValidZ t (f.swap n :: p) s) : ValidZ t (f.setSib s :: p) n := by
  cases f with
  | L c a x r => exact validZ_down (f := .L c a x s) (validZ_up (f := .R c n a x) H)
  | R c l a x => exact validZ_down (f := .R c s a x) (validZ_up (f := .L c a x n) H)

theorem setColor_fill {t : RBTree α} {f : Frame α} {p : Path α} {n : Tree α}
    (H : ValidZ t p (f.fill n)) (c' : Color) :
    ∃ t', setColor t f.addr c' = some t' ∧ ValidZ t' p ((f.setColor c').fill n) ∧
      SameMeta t t' := by
  cases f with
  | L c a x r => exact setColor_foc H c'
  | R c l a x => exact setColor_foc H c'

theorem parentOf_fill {t : RBTree α} {f : Frame α} {p : Path α} {n : Tree α}
    (H : ValidZ t p (f.fill n)) : parentOf t f.addr = some (pathPar p) := by
  cases f with
  | L c a x r => exact parentOf_foc H
  | R c l a x => exact parentOf_foc H

theorem colorOf_fill {t : RBTree α} {f : Frame α} {p : Path α} {n : Tree α}
    (H : ValidZ t p (f.fill n)) : colorOf t f.addr = some f.color := by
  cases f with
  | L c a x r => exact colorOf_foc H
  | R c l a x => exact colorOf_foc H

@[simp] theorem Frame.setColor_addr (f : Frame α) (c : Color) : (f.setColor c).addr = f.addr := by
  cases f <;> rfl

@[simp] theorem Frame.setSib_addr (f : Frame α) (s : Tree α) : (f.setSib s).addr = f.addr := by
  cases f <;> rfl

theorem Frame.setSib_setColor (f : Frame α) (s : Tree α) (c : Color) :
    (f.setSib s).setColor c = (f.setColor c).setSib s := by
  cases f <;> rfl

/-- The whole tree is stored at the root. -/
theorem validZ_plug {t : RBTree α} {p : Path α} {foc : Tree α} (H : ValidZ t p foc) :
    Valid t (plug p foc) := by
  induction p generalizing foc with
  | nil => exact H
  | cons f p ih => exact ih (validZ_up H)

/-- `insertCase3`: parent and uncle become BLACK, the grandparent RED, and the
fix-up continues at the grandparent. -/
theorem insertCase3_foc {t : RBTree α} {f g : Frame α} {p : Path α} {c cu : Color}
    {l r ul ur : Tree α} {a ua : Nat} {x ux : α}
    (fixRec : RBTree α → Nat → Option (RBTree α))
    (H : ValidZ t (f :: g :: p) (.node c l a x r)) (hU : g.sib = .node cu ul ua ux ur) :
    ∃ t3, insertCase3 fixRec t a = fixRec t3 g.addr ∧ SameMeta t t3 ∧
      ValidZ t3 p (((g.setColor Color.RED).setSib (.node Color.BLACK ul ua ux ur)).fill
        ((f.setColor Color.BLACK).fill (.node c l a x r))) := by
  have e0 := findUncle_foc H
  rw [hU, Tree.ptr_node] at e0
  have e1 := parentOf_foc H
  obtain ⟨t1, r1, V1, m1⟩ := setColor_fill (validZ_up H) Color.BLACK
  have V1' := validZ_swap V1
  rw [hU] at V1'
  obtain ⟨t2, r2, V2, m2⟩ := setColor_foc V1' Color.BLACK
  have V2' := validZ_unswap V2
  have e2 := parentOf_foc (validZ_down V2')
  have e3 := parentOf_fill V2'
  obtain ⟨t3, r3, V3, m3⟩ := setColor_fill (validZ_up V2') Color.RED
  simp only [Frame.setColor_addr, Frame.setSib_addr, pathPar] at e1 e2 e3 r3
  refine ⟨t3, ?_, (m1.trans m2).trans m3, ?_⟩
  · simp only [insertCase3, e0, e1, r1, r2, e2, e3, r3]
  · rw [Frame.setSib_setColor] at V3
    exact V3

/-- `insertCase4a` when the parent is RED and the uncle is BLACK or absent. -/
theorem insertCase4a_foc {t : RBTree α} {f g : Frame α} {p : Path α} {c : Color}
    {l r : Tree α} {a : Nat} {x : α} {tr' : Tree α}
    (H : ValidZ t (f :: g :: p) (.node c l a x r)) (hr : f.color = Color.RED)
    (hU : g.sib.col = Color.BLACK) (hfix : fixZ (f :: g :: p) (.node c l a x r) = some tr') :
    ∃ t', insertCase4a t a = some t' ∧ Valid t' tr' ∧ SameMeta t t' := by
  cases f with
  | L cp ap xp S =>
    cases g with
    | L cg ag xg U =>
      simp only [Frame.color, Frame.sib] at hr hU
      subst hr
      obtain ⟨t', r1, V1, m1⟩ := insertCase4a_LL H
      refine ⟨t', r1, ?_, m1⟩
      cases U with
      | nil =>
        simp only [fixZ, reduceCtorEq, if_false, Option.some.injEq] at hfix
        subst hfix; exact (validZ_plug V1 :)
      | node cu ul ua ux ur =>
        simp only [Tree.col] at hU
        subst hU
        simp only [fixZ, reduceCtorEq, if_false, Option.some.injEq] at hfix
        subst hfix; exact (validZ_plug V1 :)
    | R cg U ag xg =>
      simp only [Frame.color, Frame.sib] at hr hU
      subst hr
      obtain ⟨t', r1, V1, m1⟩ := insertCase4a_RL H
      refine ⟨t', r1, ?_, m1⟩
      cases U with
      | nil =>
        simp only [fixZ, reduceCtorEq, if_false, Option.some.injEq] at hfix
        subst hfix; exact (validZ_plug V1 :)
      | node cu ul ua ux ur =>
        simp only [Tree.col] at hU
        subst hU
        simp only [fixZ, reduceCtorEq, if_false, Option.some.injEq] at hfix
        subst hfix; exact (validZ_plug V1 :)
  | R cp S ap xp =>
    cases g with
    | L cg ag xg U =>
      simp only [Frame.color, Frame.sib] at hr hU
      subst hr
      obtain ⟨t', r1, V1, m1⟩ := insertCase4a_LR H
      refine ⟨t', r1, ?_, m1⟩
      cases U with
      | nil =>
        simp only [fixZ, reduceCtorEq, if_false, Option.some.injEq] at hfix
        subst hfix; exact (validZ_plug V1 :)
      | node cu ul ua ux ur =>
        simp only [Tree.col] at hU
        subst hU
        simp only [fixZ, reduceCtorEq, if_false, Option.some.injEq] at hfix
        subst hfix; exact (validZ_plug V1 :)
    | R cg U ag xg =>
      simp only [Frame.color, Frame.sib] at hr hU
      subst hr
      obtain ⟨t', r1, V1, m1⟩ := insertCase4a_RR H
      refine ⟨t', r1, ?_, m1⟩
      cases U with
      | nil =>
        simp only [fixZ, reduceCtorEq, if_false, Option.some.injEq] at hfix
        subst hfix; exact (validZ_plug V1 :)
      | node cu ul ua ux ur =>
        simp only [Tree.col] at hU
        subst hU
        simp only [fixZ, reduceCtorEq, if_false, Option.some.injEq] at hfix
        subst hfix; exact (validZ_plug V1 :)

/-- The recursive call of `fixZ` when parent and uncle are RED. -/
theorem fixZ_red_uncle {f g : Frame α} {p : Path α} {c : Color} {l r ul ur : Tree α}
    {a ua : Nat} {x ux : α} (hr : f.color = Color.RED)
    (hU : g.sib = .node Color.RED ul ua ux ur) :
    fixZ (f :: g :: p) (.node c l a x r) =
      fixZ p (((g.setColor Color.RED).setSib (.node Color.BLACK ul ua ux ur)).fill
        ((f.setColor Color.BLACK).fill (.node c l a x r))) := by
  cases f <;> cases g <;> simp only [Frame.color, Frame.sib] at hr hU <;> subst hr <;>
    subst hU <;> simp only [fixZ, reduceCtorEq, if_false, Frame.setColor, Frame.setSib,
      Frame.fill]

/-- The tree a frame is filled into is a node at the frame's address. -/
theorem Frame.fill_eq_node (f : Frame α) (n : Tree α) :
    ∃ l r x, f.fill n = .node f.color l f.addr x r := by
  cases f with
  | L c a x r => exact ⟨n, r, x, rfl⟩
  | R c l a x => exact ⟨l, n, x, rfl⟩

theorem fix_foc : ∀ (fuel : Nat) (p : Path α) (t : RBTree α) (c : Color) (l r : Tree α) (a : Nat)
    (x : α) (tr' : Tree α), ValidZ t p (.node c l a x r) → p.length < fuel →
    fixZ p (.node c l a x r) = some tr' →
    ∃ t', fix fuel t a = some t' ∧ Valid t' tr' ∧ SameMeta t t' := by
  intro fuel
  induction fuel using Nat.strong_induction_on with
  | _ fuel ih =>
    intro p t c l r a x tr' H hlen hfix
    cases fuel with
    | zero => omega
    | succ fuel =>
      have e1 := parentOf_foc H
      cases p with
      | nil =>
        obtain ⟨t', r1, V1, m1⟩ := setColor_foc H Color.BLACK
        simp only [fixZ, Option.some.injEq] at hfix
        subst hfix
        exact ⟨t', by simp only [fix, e1, pathPar, insertCase1, r1], V1, m1⟩
      | cons f p =>
        have e2 := colorOf_fill (validZ_up H)
        cases p with
        | nil =>
          have hb : f.color = Color.BLACK := by
            by_contra hb
            simp [fixZ, hb] at hfix
          simp only [fixZ, hb, if_true, Option.some.injEq] at hfix
          subst hfix
          exact ⟨t, by simp only [fix, e1, pathPar, e2, hb], validZ_up H, SameMeta.refl t⟩
        | cons g p =>
          by_cases hb : f.color = Color.BLACK
          · refine ⟨t, by simp only [fix, e1, pathPar, e2, hb], ?_, SameMeta.refl t⟩
            cases f <;> cases g <;>
              simp only [Frame.color] at hb <;>
              subst hb <;>
              simp only [fixZ, if_true, Option.some.injEq] at hfix <;>
              subst hfix <;>
              exact (validZ_plug H :)
          · have hr : f.color = Color.RED := by
              cases hc : f.color with
              | RED => rfl
              | BLACK => exact absurd hc hb
            have e3 := findUncle_foc H
            cases hU : g.sib with
            | nil =>
              obtain ⟨t', r1, V1, m1⟩ := insertCase4a_foc H hr (by rw [hU]; rfl) hfix
              refine ⟨t', ?_, V1, m1⟩
              simp only [fix, e1, pathPar, e2, hr, e3, hU, Tree.ptr_nil, r1]
            | node cu ul ua ux ur =>
              have V' := validZ_swap (validZ_up H)
              rw [hU] at V'
              have e4 := colorOf_foc V'
              cases cu with
              | BLACK =>
                obtain ⟨t', r1, V1, m1⟩ := insertCase4a_foc H hr (by rw [hU]; rfl) hfix
                refine ⟨t', ?_, V1, m1⟩
                simp only [fix, e1, pathPar, e2, hr, e3, hU, Tree.ptr_node, e4, r1]
              | RED =>
                obtain ⟨t3, r3, m3, V3⟩ := insertCase3_foc (fix fuel) H hU
                rw [fixZ_red_uncle hr hU] at hfix
                obtain ⟨l', r', x', hn⟩ := Frame.fill_eq_node
                  ((g.setColor Color.RED).setSib (.node Color.BLACK ul ua ux ur))
                  ((f.setColor Color.BLACK).fill (.node c l a x r))
                rw [hn] at V3 hfix
                simp only [Frame.setSib_addr, Frame.setColor_addr] at V3 hfix
                obtain ⟨t', r4, V4, m4⟩ := ih fuel (Nat.lt_succ_self _) p t3 _ _ _ _ _ tr' V3
                  (by simp only [List.length_cons] at hlen; omega) hfix
                refine ⟨t', ?_, V4, m3.trans m4⟩
                simp only [fix, e1, pathPar, e2, hr, e3, hU, Tree.ptr_node, e4, r3, r4]

theorem searchLoop_foc (cmp : α → α → Int) (x : α) (t : RBTree α) :
    ∀ (foc : Tree α) (p : Path α) (fuel : Nat), ValidZ t p foc → foc.height < fuel →
      searchLoop cmp t x fuel foc.ptr = some (foundPtr (searchZ cmp x foc p)) := by
  intro foc
  induction foc with
  | nil =>
    intro p fuel _ hf
    cases fuel with
    | zero => omega
    | succ fuel => rfl
  | node c l a y r ihl ihr =>
    intro p fuel H hf
    cases fuel with
    | zero => omega
    | succ fuel =>
      simp only [Tree.height, Nat.add_lt_add_iff_right, max_lt_iff] at hf
      have e1 := dataOf_foc H
      have e2 := leftOf_foc H
      have e3 := rightOf_foc H
      simp only [Tree.ptr_node, searchLoop, e1, e2, e3, searchZ]
      by_cases h0 : cmp y x = 0
      · simp only [h0, if_true, foundPtr, Tree.ptr_node]
      · simp only [h0, if_false]
        by_cases h1 : cmp y x < 0
        · simp only [h1, if_true]
          exact ihr _ fuel (validZ_down (f := .R c l a y) H) hf.2
        · simp only [h1, if_false]
          exact ihl _ fuel (validZ_down (f := .L c a y r) H) hf.1

theorem plug_addrs (p : Path α) (foc : Tree α) :
    (plug p foc).addrs = foc.addrs + pathAddrs p := by
  induction p generalizing foc with
  | nil => simp only [plug, pathAddrs, add_zero]
  | cons f p ih =>
    rw [plug, ih]
    cases f <;> simp only [Frame.fill, Tree.addrs, pathAddrs, Frame.addrs] <;> abel

theorem validZ_unplug {t : RBTree α} {p : Path α} {foc : Tree α} (H : Valid t (plug p foc)) :
    ValidZ t p foc := by
  induction p generalizing foc with
  | nil => exact H
  | cons f p ih => exact validZ_down (ih H)

/-- Every node of a tree is the root of a subtree in the hole of some path. -/
theorem exists_zipper {tr : Tree α} {a : Nat} (h : a ∈ tr.addrs) :
    ∃ p c l x r, tr = plug p (.node c l a x r) := by
  suffices H : ∀ (foc : Tree α) (p : Path α), a ∈ foc.addrs →
      ∃ p' c l x r, plug p foc = plug p' (.node c l a x r) from by
    obtain ⟨p', c, l, x, r, e⟩ := H tr [] h
    exact ⟨p', c, l, x, r, e⟩
  intro foc
  induction foc with
  | nil => intro p h; simp [Tree.addrs] at h
  | node c l b y r ihl ihr =>
    intro p h
    simp only [Tree.addrs, Multiset.mem_add, Multiset.mem_singleton] at h
    rcases h with rfl | h | h
    · exact ⟨p, c, l, y, r, rfl⟩
    · exact ihl (.L c b y r :: p) h
    · exact ihr (.R c l b y :: p) h

theorem card_le_next {s : Multiset Nat} {n : Nat} (hs : s.Nodup) (h : ∀ a ∈ s, a < n) :
    Multiset.card s ≤ n := by
  have h1 : s.toFinset ⊆ Finset.range n := by
    intro a ha
    simp only [Multiset.mem_toFinset] at ha
    simpa using h a ha
  have h2 := Finset.card_le_card h1
  rw [Multiset.toFinset_card_of_nodup hs] at h2
  simpa using h2

theorem height_le_card (tr : Tree α) : tr.height ≤ Multiset.card tr.addrs := by
  induction tr with
  | nil => simp [Tree.height]
  | node c l a x r ihl ihr =>
    simp only [Tree.height, Tree.addrs, Multiset.card_add, Multiset.card_singleton]
    omega

theorem length_le_card (p : Path α) : p.length ≤ Multiset.card (pathAddrs p) := by
  induction p with
  | nil => simp
  | cons f p ih =>
    cases f <;>
      simp only [List.length_cons, pathAddrs, Frame.addrs, Multiset.card_add,
        Multiset.card_singleton] <;> omega

theorem validZ_card {t : RBTree α} {p : Path α} {foc : Tree α} (H : ValidZ t p foc) :
    foc.height + p.length ≤ t.next := by
  have h1 := card_le_next H.nodup H.lt
  have h2 := height_le_card foc
  have h3 := length_le_card p
  simp only [Multiset.card_add] at h1
  omega

theorem rootLoop_foc {t : RBTree α} : ∀ (p : Path α) (c : Color) (l r : Tree α) (a : Nat) (x : α)
    (fuel : Nat), ValidZ t p (.node c l a x r) → p.length < fuel →
    (rootLoop t fuel a).map some = some t.root := by
  intro p
  induction p with
  | nil =>
    intro c l r a x fuel H hf
    cases fuel with
    | zero => omega
    | succ fuel =>
      have e1 := parentOf_foc H
      have e2 := H.hroot
      simp only [rootLoop, e1, pathPar, Option.map_some', e2, pathRoot, Tree.ptr_node]
  | cons f p ih =>
    intro c l r a x fuel H hf
    cases fuel with
    | zero => omega
    | succ fuel =>
      have e1 := parentOf_foc H
      obtain ⟨l', r', x', hn⟩ := Frame.fill_eq_node f (.node c l a x r)
      have H1 := validZ_up H
      rw [hn] at H1
      simp only [rootLoop, e1, pathPar]
      exact ih _ _ _ _ _ fuel H1 (by simp only [List.length_cons] at hf; omega)

/-- The fix-up moves nodes around but keeps the set of nodes. -/
theorem fixZ_addrs : ∀ (n : Nat) (p : Path α) (foc tr' : Tree α), p.length ≤ n →
    fixZ p foc = some tr' → tr'.addrs = foc.addrs + pathAddrs p := by
  intro n
  induction n using Nat.strong_induction_on with
  | _ n ih =>
    intro p foc tr' hlen h
    cases foc with
    | nil => cases p <;> simp [fixZ] at h
    | node c l a x r =>
      match p, hlen, h with
      | [], _, h =>
        simp only [fixZ, Option.some.injEq] at h
        subst h
        simp only [Tree.addrs, pathAddrs, add_zero]
      | [f], _, h =>
        simp only [fixZ] at h
        split at h
        · simp only [Option.some.injEq] at h
          subst h
          cases f <;> simp only [Frame.fill, Tree.addrs, pathAddrs, Frame.addrs] <;> abel
        · cases h
      | .L cp ap xp S :: .L cg ag xg U :: p, hlen, h =>
        simp only [fixZ] at h
        split at h
        · simp only [Option.some.injEq] at h
          subst h
          rw [plug_addrs]
          simp only [Tree.addrs, pathAddrs, Frame.addrs]; abel
        · split at h
          · have := ih p.length (by simp only [List.length_cons] at hlen; omega) p _ _
              (le_refl _) h
            rw [this]
            simp only [Tree.addrs, pathAddrs, Frame.addrs]; abel
          · simp only [Option.some.injEq] at h
            subst h
            rw [plug_addrs]
            simp only [Tree.addrs, pathAddrs, Frame.addrs]; abel
      | .R cp S ap xp :: .L cg ag xg U :: p, hlen, h =>
        simp only [fixZ] at h
        split at h
        · simp only [Option.some.injEq] at h
          subst h
          rw [plug_addrs]
          simp only [Tree.addrs, pathAddrs, Frame.addrs]; abel
        · split at h
          · have := ih p.length (by simp only [List.length_cons] at hlen; omega) p _ _
              (le_refl _) h
            rw [this]
            simp only [Tree.addrs, pathAddrs, Frame.addrs]; abel
          · simp only [Option.some.injEq] at h
            subst h
            rw [plug_addrs]
            simp only [Tree.addrs, pathAddrs, Frame.addrs]; abel
      | .L cp ap xp S :: .R cg U ag xg :: p, hlen, h =>
        simp only [fixZ] at h
        split at h
        · simp only [Option.some.injEq] at h
          subst h
          rw [plug_addrs]
          simp only [Tree.addrs, pathAddrs, Frame.addrs]; abel
        · split at h
          · have := ih p.length (by simp only [List.length_cons] at hlen; omega) p _ _
              (le_refl _) h
            rw [this]
            simp only [Tree.addrs, pathAddrs, Frame.addrs]; abel
          · simp only [Option.some.injEq] at h
            subst h
            rw [plug_addrs]
            simp only [Tree.addrs, pathAddrs, Frame.addrs]; abel
      | .R cp S ap xp :: .R cg U ag xg :: p, hlen, h =>
        simp only [fixZ] at h
        split at h
        · simp only [Option.some.injEq] at h
          subst h
          rw [plug_addrs]
          simp only [Tree.addrs, pathAddrs, Frame.addrs]; abel
        · split at h
          · have := ih p.length (by simp only [List.length_cons] at hlen; omega) p _ _
              (le_refl _) h
            rw [this]
            simp only [Tree.addrs, pathAddrs, Frame.addrs]; abel
          · simp only [Option.some.injEq] at h
            subst h
            rw [plug_addrs]
            simp only [Tree.addrs, pathAddrs, Frame.addrs]; abel

theorem descend_addrs (cmp : α → α → Int) (x : α) (foc : Tree α) (p : Path α) :
    pathAddrs (descend cmp x foc p) = foc.addrs + pathAddrs p := by
  induction foc generalizing p with
  | nil => simp only [descend, Tree.addrs, zero_add]
  | node c l a y r ihl ihr =>
    simp only [descend]
    split
    · rw [ihl]; simp only [Tree.addrs, pathAddrs, Frame.addrs]; abel
    · rw [ihr]; simp only [Tree.addrs, pathAddrs, Frame.addrs]; abel

theorem descend_length (cmp : α → α → Int) (x : α) (foc : Tree α) (p : Path α) :
    (descend cmp x foc p).length ≤ foc.height + p.length := by
  induction foc generalizing p with
  | nil => simp only [descend, Tree.height, zero_add, le_refl]
  | node c l a y r ihl ihr =>
    simp only [descend, Tree.height]
    split
    · have := ihl (.L c a y r :: p)
      simp only [List.length_cons] at this
      omega
    · have := ihr (.R c l a y :: p)
      simp only [List.length_cons] at this
      omega

/-- `newNode` leaves the stored tree alone. -/
theorem validZ_newNode {t : RBTree α} {p : Path α} {foc : Tree α} (H : ValidZ t p foc)
    (d : Option α) : ValidZ (newNode t d).2 p foc := by
  obtain ⟨h1, h2, h3, h4, h5⟩ := H
  have hn : t.next ∉ foc.addrs + pathAddrs p := fun h => Nat.lt_irrefl _ (h5 _ h)
  simp only [Multiset.mem_add, not_or] at hn
  refine ⟨h1, ?_, ?_, h4, ?_⟩
  · exact h2.congr_r fun a ha => by
      show (if a = t.next then _ else t.nodes a) = _
      rw [if_neg (fun (e : a = t.next) => hn.1 (e ▸ ha))]
  · exact h3.congr_p fun a ha => by
      show (if a = t.next then _ else t.nodes a) = _
      rw [if_neg (fun (e : a = t.next) => hn.2 (e ▸ ha))]
  · intro a ha
    exact Nat.lt_succ_of_lt (h5 a ha)

/-- A successful search ends at a node whose element compares equal to `x`,
and the path found leads to that node. -/
theorem searchZ_some (cmp : α → α → Int) (x : α) :
    ∀ (foc : Tree α) (p p' : Path α) (n : Tree α), searchZ cmp x foc p = some (p', n) →
      (∃ c l a y r, n = .node c l a y r ∧ cmp y x = 0) ∧ plug p' n = plug p foc := by
  intro foc
  induction foc with
  | nil => intro p p' n h; simp [searchZ] at h
  | node c l a y r ihl ihr =>
    intro p p' n h
    simp only [searchZ] at h
    split at h
    · simp only [Option.some.injEq, Prod.mk.injEq] at h
      obtain ⟨rfl, rfl⟩ := h
      exact ⟨⟨c, l, a, y, r, rfl, by assumption⟩, rfl⟩
    · split at h
      · exact ihr _ _ _ h
      · exact ihl _ _ _ h

theorem RBTreeContains_valid {t : RBTree α} {tr : Tree α} {cmp : α → α → Int} (H : Valid t tr)
    (hc : t.compFunc = some cmp) (x : α) :
    RBTreeContains (some t) (some x) = some (searchZ cmp x tr []).isSome := by
  have hr := H.hroot
  simp only [pathRoot] at hr
  cases tr with
  | nil =>
    simp only [Tree.ptr_nil] at hr
    simp only [RBTreeContains, hc, hr, searchZ, Option.isSome_none]
  | node c l a y r =>
    simp only [Tree.ptr_node] at hr
    have hh := validZ_card H
    have := searchLoop_foc cmp x t _ [] t.fuel H (by
      simp only [RBTree.fuel, List.length_nil] at hh ⊢; omega)
    simp only [Tree.ptr_node] at this
    simp only [RBTreeContains, hc, hr, this]
    cases hs : searchZ cmp x (.node c l a y r) [] with
    | none => rfl
    | some z =>
      obtain ⟨p', n⟩ := z
      obtain ⟨⟨c', l', a', y', r', rfl, -⟩, -⟩ := searchZ_some cmp x _ _ _ _ hs
      rfl

theorem validZ_congr {t t' : RBTree α} {p : Path α} {foc : Tree α} (H : ValidZ t p foc)
    (hr : t'.root = t.root) (hn : t'.nodes = t.nodes) (hx : t'.next = t.next) :
    ValidZ t' p foc :=
  ⟨hr.trans H.hroot, hn ▸ H.hfoc, hn ▸ H.hpath, H.nodup, hx ▸ H.lt⟩

/-- Refinement of a successful `insertToRBTree`: when the element is not
found and the abstract insertion yields `tr'`, the call succeeds and the
memory holds `tr'`. -/
theorem insertToRBTree_valid {t : RBTree α} {tr tr' : Tree α} {cmp : α → α → Int}
    (H : Valid t tr) (hc : t.compFunc = some cmp) (x : α)
    (hs : searchZ cmp x tr [] = none) (hi : insertT cmp tr t.next x = some tr') :
    ∃ t', insertToRBTree (some t) (some x) = some (true, some t') ∧ Valid t' tr' ∧
      t'.size = t.size + 1 ∧ t'.compFunc = t.compFunc ∧ t'.freeFunc = t.freeFunc ∧
      t'.next = t.next + 1 ∧ t'.freed = t.freed ∧ t'.destroyed = t.destroyed := by
  have e0 := RBTreeContains_valid H hc x
  rw [hs] at e0
  have V0 := validZ_newNode H (some x)
  have hnew : (newNode t (some x)).2.nodes t.next
      = some ⟨none, none, none, Color.RED, some x⟩ := by
    show (if t.next = t.next then _ else _) = _
    rw [if_pos rfl]
  have hfresh : t.next ∉ tr.addrs + pathAddrs ([] : Path α) :=
    fun h => Nat.lt_irrefl _ (H.lt _ h)
  obtain ⟨t0, ht0⟩ : ∃ t0, t0 = (newNode t (some x)).2 := ⟨_, rfl⟩
  have en : newNode t (some x) = (t.next, t0) := by rw [ht0]; rfl
  have m0 : t0.root = t.root ∧ t0.size = t.size ∧ t0.compFunc = t.compFunc ∧
      t0.freeFunc = t.freeFunc ∧ t0.next = t.next + 1 ∧ t0.freed = t.freed ∧
      t0.destroyed = t.destroyed := by
    rw [ht0]; exact ⟨rfl, rfl, rfl, rfl, rfl, rfl, rfl⟩
  rw [← ht0] at V0 hnew
  obtain ⟨m01, m02, m03, m04, m05, m06, m07⟩ := m0
  clear ht0
  cases tr with
  | nil =>
    simp only [insertT, Option.some.injEq] at hi
    subst hi
    have hr := H.hroot
    simp only [pathRoot, Tree.ptr_nil] at hr
    refine ⟨{ (t0.write t.next ⟨none, none, none, Color.BLACK, some x⟩) with
      root := some t.next, size := t0.size + 1 }, ?_, ⟨rfl, ⟨write_nodes_same _ _ _, trivial,
      trivial⟩, trivial, ?_, ?_⟩, ?_, m03, m04, m05, m06, m07⟩
    · simp only [insertToRBTree, e0, Option.isSome_none, en, m01, hr, setColor, hnew,
        Option.map_some']
      rfl
    · simp [Tree.addrs, pathAddrs]
    · intro z hz
      simp only [Tree.addrs, pathAddrs, add_zero, Multiset.mem_singleton] at hz
      rw [hz]
      show t.next < t0.next
      omega
    · show t0.size + 1 = t.size + 1
      rw [m02]
  | node c l a y r =>
    have hr := H.hroot
    simp only [pathRoot, Tree.ptr_node] at hr
    simp only [insertT] at hi
    have hh := validZ_card V0
    simp only [List.length_nil, add_zero] at hh
    obtain ⟨t1, r1, V1, m1⟩ := findAndAdd_foc cmp x t.next _ [] t0 t0.fuel c l r a y rfl V0
      (by simp only [RBTree.fuel]; omega) hnew (by omega) hfresh
    have hl := descend_length cmp x (.node c l a y r) []
    simp only [List.length_nil, add_zero] at hl
    obtain ⟨t2, r2, V2, m2⟩ := fix_foc t1.fuel _ t1 _ _ _ _ _ tr' V1
      (by simp only [RBTree.fuel, m1.next]; omega) hi
    have ha := fixZ_addrs _ _ _ _ (le_refl _) hi
    have hmem : t.next ∈ tr'.addrs := by
      rw [ha]; simp [Tree.addrs]
    obtain ⟨p', c', l', x', r', hz⟩ := exists_zipper hmem
    rw [hz] at V2
    have V2' := validZ_unplug V2
    have hh2 := validZ_card V2'
    have r3 := rootLoop_foc p' c' l' r' t.next x' t2.fuel V2' (by
      simp only [RBTree.fuel]; omega)
    cases hrl : rootLoop t2 t2.fuel t.next with
    | none => rw [hrl] at r3; simp at r3
    | some temp =>
      rw [hrl] at r3
      simp only [Option.map_some', Option.some.injEq] at r3
      rw [← hz] at V2
      refine ⟨{ t2 with root := some temp, size := t2.size + 1 }, ?_,
        validZ_congr V2 r3 rfl rfl, ?_, ?_, ?_, ?_, ?_, ?_⟩
      · simp only [insertToRBTree, e0, Option.isSome_none, en, m01, hr, m03, hc, r1, r2, hrl]
      · show t2.size + 1 = t.size + 1
        rw [m2.size, m1.size, m02]
      · show t2.compFunc = _
        rw [m2.compFunc, m1.compFunc, m03]
      · show t2.freeFunc = _
        rw [m2.freeFunc, m1.freeFunc, m04]
      · show t2.next = _
        rw [m2.next, m1.next, m05]
      · show t2.freed = _
        rw [m2.freed, m1.freed, m06]
      · show t2.destroyed = _
        rw [m2.destroyed, m1.destroyed, m07]

theorem Tree.bh_mem_blackCounts (tr : Tree α) : tr.bh ∈ tr.blackCounts := by
  induction tr with
  | nil => simp [Tree.bh, Tree.blackCounts]
  | node c l a x r ihl ihr =>
    simp only [Tree.bh, Tree.blackCounts, List.mem_map, List.mem_append]
    exact ⟨l.bh, Or.inl ihl, rfl⟩

/-- The subtrees agree on their black-height everywhere exactly when all
paths from the root to a null leaf hold the same number of BLACK nodes. -/
theorem Tree.balanced_iff (tr : Tree α) :
    tr.balanced ↔ ∀ m ∈ tr.blackCounts, ∀ n ∈ tr.blackCounts, m = n := by
  have key : ∀ tr : Tree α, tr.balanced ↔ ∀ m ∈ tr.blackCounts, m = tr.bh := by
    intro tr
    induction tr with
    | nil => simp [Tree.balanced, Tree.blackCounts, Tree.bh]
    | node c l a x r ihl ihr =>
      simp only [Tree.balanced, Tree.blackCounts, Tree.bh, List.mem_map, List.mem_append, ihl,
        ihr]
      constructor
      · rintro ⟨h1, h2, h3⟩ m ⟨n, hn | hn, rfl⟩
        · rw [h1 n hn]
        · rw [h2 n hn, h3]
      · intro h
        have hr : ∀ m ∈ r.blackCounts, m = l.bh := by
          intro m hm
          have := h _ ⟨m, Or.inr hm, rfl⟩
          omega
        refine ⟨?_, ?_, ?_⟩
        · intro m hm
          have := h _ ⟨m, Or.inl hm, rfl⟩
          omega
        · intro m hm
          rw [hr m hm, hr _ r.bh_mem_blackCounts]
        · exact (hr _ r.bh_mem_blackCounts).symm
  rw [key]
  constructor
  · intro h m hm n hn
    rw [h m hm, h n hn]
  · intro h m hm
    exact h m hm _ tr.bh_mem_blackCounts

theorem color_cases (c : Color) : c = Color.RED ∨ c = Color.BLACK := by
  cases c
  · exact Or.inl rfl
  · exact Or.inr rfl

/-- Filling a well-formed subtree of the right black-height into the hole of
a well-formed path gives a red-black tree. -/
theorem PathRB.plug : ∀ (p : Path α) (k : Nat) (n : Tree α), PathRB p k → n.noRedRed →
    n.balanced → n.bh = k → (pathCol p = Color.RED → n.col = Color.BLACK) →
    (p = [] → n.col = Color.BLACK) → (plug p n).isRB := by
  intro p
  induction p with
  | nil =>
    intro k n _ h1 h2 _ _ h5
    exact ⟨h5 rfl, h1, h2⟩
  | cons f p ih =>
    intro k n hp h1 h2 h3 h4 _
    obtain ⟨q1, q2, q3, q4, q5, q6⟩ := hp
    rw [RBT.plug]
    refine ih _ (f.fill n) q6 ?_ ?_ ?_ ?_ ?_
    · cases f with
      | L c a x r =>
        simp only [Frame.sib, Frame.color, pathCol] at *
        exact ⟨fun hc => ⟨h4 hc, (q4 hc).1⟩, h1, q1⟩
      | R c l a x =>
        simp only [Frame.sib, Frame.color, pathCol] at *
        exact ⟨fun hc => ⟨(q4 hc).1, h4 hc⟩, q1, h1⟩
    · cases f with
      | L c a x r =>
        simp only [Frame.sib] at *
        exact ⟨h2, q2, by omega⟩
      | R c l a x =>
        simp only [Frame.sib] at *
        exact ⟨q2, h2, by omega⟩
    · cases f with
      | L c a x r =>
        simp only [Frame.fill, Tree.bh, Frame.color, h3]
      | R c l a x =>
        simp only [Frame.fill, Tree.bh, Frame.color, Frame.sib] at *
        rw [q3]
    · intro hc
      cases f with
      | L c a x r =>
        simp only [Frame.fill, Tree.col, Frame.color] at *
        rcases color_cases c with h | h
        · rw [(q4 h).2] at hc; cases hc
        · exact h
      | R c l a x =>
        simp only [Frame.fill, Tree.col, Frame.color] at *
        rcases color_cases c with h | h
        · rw [(q4 h).2] at hc; cases hc
        · exact h
    · intro hp
      cases f with
      | L c a x r => exact q5 hp
      | R c l a x => exact q5 hp

theorem Tree.col_red_node {tr : Tree α} (h : tr.col = Color.RED) :
    ∃ l a x r, tr = .node Color.RED l a x r := by
  cases tr with
  | nil => cases h
  | node c l a x r => simp only [Tree.col] at h; subst h; exact ⟨l, a, x, r, rfl⟩

theorem fixZ_black_parent {f g : Frame α} {p : Path α} {c : Color} {l r : Tree α} {a : Nat}
    {x : α} (hb : f.color = Color.BLACK) :
    fixZ (f :: g :: p) (.node c l a x r) = some (plug (f :: g :: p) (.node c l a x r)) := by
  cases f <;> cases g <;> simp only [Frame.color] at hb <;> subst hb <;>
    simp only [fixZ, if_true, plug, Frame.fill]

theorem fixZ_rotate {f g : Frame α} {p : Path α} {c : Color} {l r : Tree α} {a : Nat}
    {x : α} (hr : f.color = Color.RED) (hu : g.sib.col = Color.BLACK) :
    fixZ (f :: g :: p) (.node c l a x r) = some (plug p (rotated f g (.node c l a x r))) := by
  cases f with
  | L cp ap xp S =>
    cases g with
    | L cg ag xg U =>
      simp only [Frame.color, Frame.sib] at hr hu
      subst hr
      cases U with
      | nil => simp only [fixZ, reduceCtorEq, if_false, rotated]
      | node cu ul ua ux ur =>
        simp only [Tree.col] at hu
        subst hu
        simp only [fixZ, reduceCtorEq, if_false, rotated]
    | R cg U ag xg =>
      simp only [Frame.color, Frame.sib] at hr hu
      subst hr
      cases U with
      | nil => simp only [fixZ, reduceCtorEq, if_false, rotated]
      | node cu ul ua ux ur =>
        simp only [Tree.col] at hu
        subst hu
        simp only [fixZ, reduceCtorEq, if_false, rotated]
  | R cp S ap xp =>
    cases g with
    | L cg ag xg U =>
      simp only [Frame.color, Frame.sib] at hr hu
      subst hr
      cases U with
      | nil => simp only [fixZ, reduceCtorEq, if_false, rotated]
      | node cu ul ua ux ur =>
        simp only [Tree.col] at hu
        subst hu
        simp only [fixZ, reduceCtorEq, if_false, rotated]
    | R cg U ag xg =>
      simp only [Frame.color, Frame.sib] at hr hu
      subst hr
      cases U with
      | nil => simp only [fixZ, reduceCtorEq, if_false, rotated]
      | node cu ul ua ux ur =>
        simp only [Tree.col] at hu
        subst hu
        simp only [fixZ, reduceCtorEq, if_false, rotated]

/-- The insertion fix-up restores the red-black conditions: started on a RED
node whose subtrees are well formed, in a well-formed path, it does not fail
and yields a red-black tree. -/
theorem fixZ_rb : ∀ (m : Nat) (p : Path α) (k : Nat) (l r : Tree α) (a : Nat) (x : α),
    p.length ≤ m → PathRB p k → l.noRedRed → r.noRedRed → l.col = Color.BLACK →
    r.col = Color.BLACK → l.balanced → r.balanced → l.bh = k → r.bh = k →
    ∃ tr', fixZ p (.node Color.RED l a x r) = some tr' ∧ tr'.isRB := by
  intro m
  induction m using Nat.strong_induction_on with
  | _ m ih =>
    intro p k l r a x hlen hp hl hr cl cr bl br kl kr
    have hn1 : (Tree.node Color.RED l a x r).noRedRed := ⟨fun _ => ⟨cl, cr⟩, hl, hr⟩
    have hn2 : (Tree.node Color.RED l a x r).balanced := ⟨bl, br, by omega⟩
    have hn3 : (Tree.node Color.RED l a x r).bh = k := by
      simp only [Tree.bh, reduceCtorEq, if_false, add_zero, kl]
    match p, hlen, hp with
    | [], _, _ =>
      exact ⟨_, rfl, rfl, ⟨(fun h => nomatch h), hl, hr⟩, ⟨bl, br, by omega⟩⟩
    | [f], _, hp =>
      obtain ⟨q1, q2, q3, q4, q5, q6⟩ := hp
      have hb := q5 rfl
      refine ⟨f.fill (.node Color.RED l a x r), by simp only [fixZ, hb, if_true], ?_⟩
      exact PathRB.plug [f] k _ ⟨q1, q2, q3, q4, q5, q6⟩ hn1 hn2 hn3
        (fun h => by rw [pathCol, hb] at h; cases h) (fun h => by cases h)
    | f :: g :: p, hlen, hp =>
      rcases color_cases f.color with hf | hf
      · -- RED parent
        obtain ⟨q1, q2, q3, q4, q5, q6⟩ := hp
        obtain ⟨q41, q42⟩ := q4 hf
        simp only [pathCol] at q42
        obtain ⟨g1, g2, g3, g4, g5, g6⟩ := q6
        simp only [hf, reduceCtorEq, if_false, add_zero] at g3 g6
        simp only [q42, if_true] at g6
        rcases color_cases g.sib.col with hu | hu
        · -- RED uncle: recolour and continue at the grandparent
          obtain ⟨ul, ua, ux, ur, hU⟩ := Tree.col_red_node hu
          rw [fixZ_red_uncle hf hU]
          rw [hU] at g1 g2 g3
          obtain ⟨⟨-, u1, u2⟩, v1, v2, v3⟩ := And.intro g1 g2
          simp only [Tree.bh, reduceCtorEq, if_false, add_zero] at g3
          have hu12 := g1.1 rfl
          cases f with
          | L cp ap xp S =>
            cases g with
            | L cg ag xg U =>
              simp only [Frame.sib, Frame.color] at *
              exact ih p.length (by simp only [List.length_cons] at hlen; omega) p (k + 1) _ _ _ _
                (le_refl _) g6 ⟨(fun h => nomatch h), hn1, q1⟩ ⟨(fun h => nomatch h), u1, u2⟩
                rfl rfl ⟨hn2, q2, by omega⟩ ⟨v1, v2, v3⟩
                (by simp only [Tree.bh, if_true, reduceCtorEq, if_false, add_zero, kl])
                (by simp only [Tree.bh, if_true, g3])
            | R cg U ag xg =>
              simp only [Frame.sib, Frame.color] at *
              exact ih p.length (by simp only [List.length_cons] at hlen; omega) p (k + 1) _ _ _ _
                (le_refl _) g6 ⟨(fun h => nomatch h), u1, u2⟩ ⟨(fun h => nomatch h), hn1, q1⟩
                rfl rfl ⟨v1, v2, v3⟩ ⟨hn2, q2, by omega⟩
                (by simp only [Tree.bh, if_true, g3])
                (by simp only [Tree.bh, if_true, reduceCtorEq, if_false, add_zero, kl])
          | R cp S ap xp =>
            cases g with
            | L cg ag xg U =>
              simp only [Frame.sib, Frame.color] at *
              exact ih p.length (by simp only [List.length_cons] at hlen; omega) p (k + 1) _ _ _ _
                (le_refl _) g6 ⟨(fun h => nomatch h), q1, hn1⟩ ⟨(fun h => nomatch h), u1, u2⟩
                rfl rfl ⟨q2, hn2, by omega⟩ ⟨v1, v2, v3⟩
                (by simp only [Tree.bh, if_true, q3])
                (by simp only [Tree.bh, if_true, g3])
            | R cg U ag xg =>
              simp only [Frame.sib, Frame.color] at *
              exact ih p.length (by simp only [List.length_cons] at hlen; omega) p (k + 1) _ _ _ _
                (le_refl _) g6 ⟨(fun h => nomatch h), u1, u2⟩ ⟨(fun h => nomatch h), q1, hn1⟩
                rfl rfl ⟨v1, v2, v3⟩ ⟨q2, hn2, by omega⟩
                (by simp only [Tree.bh, if_true, g3])
                (by simp only [Tree.bh, if_true, q3])
        · -- BLACK or absent uncle: rotate
          refine ⟨_, fixZ_rotate hf hu, ?_⟩
          cases f with
          | L cp ap xp S =>
            cases g with
            | L cg ag xg U =>
              simp only [Frame.sib, Frame.color] at *
              exact PathRB.plug p (k + 1) _ g6
                ⟨(fun h => nomatch h), hn1, (fun _ => ⟨q41, hu⟩), q1, g1⟩
                ⟨hn2, ⟨q2, g2, by omega⟩, by
                  simp only [Tree.bh, reduceCtorEq, if_false, add_zero]; omega⟩
                (by simp only [rotated, Tree.bh, reduceCtorEq, if_false, if_true, add_zero, kl])
                (fun _ => rfl) (fun _ => rfl)
            | R cg U ag xg =>
              simp only [Frame.sib, Frame.color] at *
              subst hf
              exact PathRB.plug p (k + 1) _ g6
                ⟨(fun h => nomatch h), ⟨(fun _ => ⟨hu, cl⟩), g1, hl⟩,
                  (fun _ => ⟨cr, q41⟩), hr, q1⟩
                ⟨⟨g2, bl, by omega⟩, ⟨br, q2, by omega⟩, by
                  simp only [Tree.bh, reduceCtorEq, if_false, add_zero]; omega⟩
                (by simp only [rotated, Tree.bh, reduceCtorEq, if_false, if_true, add_zero, g3])
                (fun _ => rfl) (fun _ => rfl)
          | R cp S ap xp =>
            cases g with
            | L cg ag xg U =>
              simp only [Frame.sib, Frame.color] at *
              subst hf
              exact PathRB.plug p (k + 1) _ g6
                ⟨(fun h => nomatch h), ⟨(fun _ => ⟨q41, cl⟩), q1, hl⟩,
                  (fun _ => ⟨cr, hu⟩), hr, g1⟩
                ⟨⟨q2, bl, by omega⟩, ⟨br, g2, by omega⟩, by
                  simp only [Tree.bh, reduceCtorEq, if_false, add_zero]; omega⟩
                (by simp only [rotated, Tree.bh, reduceCtorEq, if_false, if_true, add_zero, q3])
                (fun _ => rfl) (fun _ => rfl)
            | R cg U ag xg =>
              simp only [Frame.sib, Frame.color] at *
              exact PathRB.plug p (k + 1) _ g6
                ⟨(fun h => nomatch h), ⟨(fun _ => ⟨hu, q41⟩), g1, q1⟩, hn1⟩
                ⟨⟨g2, q2, by omega⟩, hn2, by
                  simp only [Tree.bh, reduceCtorEq, if_false, add_zero]; omega⟩
                (by simp only [rotated, Tree.bh, reduceCtorEq, if_false, if_true, add_zero, g3])
                (fun _ => rfl) (fun _ => rfl)
      · -- BLACK parent: nothing to do
        refine ⟨_, fixZ_black_parent hf, ?_⟩
        exact PathRB.plug _ k _ hp hn1 hn2 hn3
          (fun h => by rw [pathCol, hf] at h; cases h) (fun h => by cases h)

theorem descend_rb (cmp : α → α → Int) (x : α) : ∀ (foc : Tree α) (p : Path α) (k : Nat),
    PathRB p k → foc.noRedRed → foc.balanced → foc.bh = k →
    (pathCol p = Color.RED → foc.col = Color.BLACK) → (p = [] → foc.col = Color.BLACK) →
    PathRB (descend cmp x foc p) 0 := by
  intro foc
  induction foc with
  | nil =>
    intro p k hp _ _ hk _ _
    simp only [Tree.bh] at hk
    subst hk
    exact hp
  | node c l a y r ihl ihr =>
    intro p k hp hn hb hk hc hroot
    obtain ⟨n1, n2, n3⟩ := hn
    obtain ⟨b1, b2, b3⟩ := hb
    simp only [Tree.bh] at hk
    simp only [Tree.col] at hc hroot
    have hpc : c = Color.RED → pathCol p = Color.BLACK := by
      intro h
      rcases color_cases (pathCol p) with h' | h'
      · rw [hc h'] at h; cases h
      · exact h'
    simp only [descend]
    split
    · exact ihl (.L c a y r :: p) l.bh
        ⟨n3, b2, b3.symm, fun h => ⟨(n1 h).2, hpc h⟩, hroot, by
          simp only [Frame.color]; rw [hk]; exact hp⟩
        n2 b1 rfl (fun h => (n1 h).1) (fun h => by cases h)
    · exact ihr (.R c l a y :: p) r.bh
        ⟨n2, b1, b3, fun h => ⟨(n1 h).1, hpc h⟩, hroot, by
          simp only [Frame.color]; rw [← b3, hk]; exact hp⟩
        n3 b2 rfl (fun h => (n1 h).2) (fun h => by cases h)

/-- Insertion keeps the red-black conditions. -/
theorem insertT_rb (cmp : α → α → Int) (tr : Tree α) (n : Nat) (x : α) (h : tr.isRB) :
    ∃ tr', insertT cmp tr n x = some tr' ∧ tr'.isRB := by
  cases tr with
  | nil =>
    exact ⟨_, rfl, rfl, ⟨(fun h => nomatch h), trivial, trivial⟩, trivial, trivial, rfl⟩
  | node c l a y r =>
    obtain ⟨h1, h2, h3⟩ := h
    have hp := descend_rb cmp x (.node c l a y r) [] _ trivial h2 h3 rfl (fun h => nomatch h)
      (fun _ => h1)
    exact fixZ_rb _ _ 0 .nil .nil n x (le_refl _) hp trivial trivial rfl rfl trivial trivial
      rfl rfl

theorem plug_elems (p : Path α) (foc : Tree α) :
    (plug p foc).elems = pathBefore p ++ foc.elems ++ pathAfter p := by
  induction p generalizing foc with
  | nil => simp only [plug, pathBefore, pathAfter, List.nil_append, List.append_nil]
  | cons f p ih =>
    rw [plug, ih]
    cases f <;>
      simp only [Frame.fill, Tree.elems, pathBefore, pathAfter, List.append_assoc,
        List.cons_append, List.nil_append]

/-- The fix-up keeps the in-order sequence of the elements. -/
theorem fixZ_elems : ∀ (n : Nat) (p : Path α) (foc tr' : Tree α), p.length ≤ n →
    fixZ p foc = some tr' → tr'.elems = pathBefore p ++ foc.elems ++ pathAfter p := by
  intro n
  induction n using Nat.strong_induction_on with
  | _ n ih =>
    intro p foc tr' hlen h
    cases foc with
    | nil => cases p <;> simp [fixZ] at h
    | node c l a x r =>
      match p, hlen, h with
      | [], _, h =>
        simp only [fixZ, Option.some.injEq] at h
        subst h
        simp only [Tree.elems, pathBefore, pathAfter, List.nil_append, List.append_nil]
      | [f], _, h =>
        simp only [fixZ] at h
        split at h
        · simp only [Option.some.injEq] at h
          subst h
          exact plug_elems [f] _
        · cases h
      | f :: g :: p, hlen, h =>
        rcases color_cases f.color with hf | hf
        · rcases color_cases g.sib.col with hu | hu
          · obtain ⟨ul, ua, ux, ur, hU⟩ := Tree.col_red_node hu
            rw [fixZ_red_uncle hf hU] at h
            have := ih p.length (by simp only [List.length_cons] at hlen; omega) p _ _
              (le_refl _) h
            rw [this]
            cases f <;> cases g <;> simp only [Frame.sib] at hU <;> subst hU <;>
              simp only [Frame.fill, Frame.setColor, Frame.setSib, Tree.elems, pathBefore,
                pathAfter, List.append_assoc, List.cons_append, List.nil_append]
          · rw [fixZ_rotate hf hu, Option.some.injEq] at h
            subst h
            rw [plug_elems]
            cases f <;> cases g <;>
              simp only [rotated, Tree.elems, pathBefore, pathAfter, List.append_assoc,
                List.cons_append, List.nil_append]
        · rw [fixZ_black_parent hf, Option.some.injEq] at h
          subst h
          exact plug_elems _ _

theorem StrictTotal.lt_of_not {cmp : α → α → Int} (hc : StrictTotal cmp) {a b : α}
    (h1 : ¬ cmp a b < 0) (h2 : a ≠ b) : cmp b a < 0 := by
  have h3 : cmp a b ≠ 0 := fun h => h2 ((hc.eq_iff a b).1 h)
  rw [hc.anti]
  omega

theorem StrictTotal.irrefl {cmp : α → α → Int} (hc : StrictTotal cmp) (a : α) :
    ¬ cmp a a < 0 := by
  have := (hc.eq_iff a a).2 rfl
  omega

theorem StrictTotal.ne_of_lt {cmp : α → α → Int} (hc : StrictTotal cmp) {a b : α}
    (h : cmp a b < 0) : a ≠ b := by
  intro e
  subst e
  exact hc.irrefl a h

theorem Tree.size_eq_length (tr : Tree α) : tr.size = tr.elems.length := by
  induction tr with
  | nil => rfl
  | node c l a x r ihl ihr =>
    simp only [Tree.size, Tree.elems, List.length_append, List.length_cons, ihl, ihr]
    omega

/-- On an ordered tree the search fails exactly when the element is absent. -/
theorem searchZ_none_iff {cmp : α → α → Int} (hc : StrictTotal cmp) (x : α) :
    ∀ (tr : Tree α) (p : Path α), tr.ordered cmp →
      (searchZ cmp x tr p = none ↔ x ∉ tr.elems) := by
  intro tr
  induction tr with
  | nil => intro p _; simp [searchZ, Tree.elems]
  | node c l a y r ihl ihr =>
    intro p ho
    simp only [Tree.ordered, Tree.elems, List.pairwise_append, List.pairwise_cons,
      List.mem_cons] at ho
    obtain ⟨ol, ⟨oyr, or_⟩, olr⟩ := ho
    simp only [searchZ, Tree.elems, List.mem_append, List.mem_cons, not_or]
    by_cases h0 : cmp y x = 0
    · have := (hc.eq_iff y x).1 h0
      simp only [h0, if_true, reduceCtorEq, false_iff, not_and, not_not]
      intro _ h
      exact absurd this.symm h
    · have hne : x ≠ y := fun e => h0 ((hc.eq_iff y x).2 e.symm)
      simp only [h0, if_false]
      by_cases h1 : cmp y x < 0
      · simp only [h1, if_true, ihr _ or_]
        constructor
        · intro h
          refine ⟨?_, hne, h⟩
          intro hx
          have := olr x hx y (Or.inl rfl)
          exact hc.irrefl _ (hc.trans _ _ _ this h1)
        · exact fun h => h.2.2
      · simp only [h1, if_false, ihl _ ol]
        constructor
        · intro h
          refine ⟨h, hne, ?_⟩
          intro hx
          have h2 := oyr x hx
          exact h1 h2
        · exact fun h => h.1

/-- A search that succeeds ends at a node holding the element itself. -/
theorem searchZ_some_elem {cmp : α → α → Int} (hc : StrictTotal cmp) (x : α)
    {foc : Tree α} {p p' : Path α} {n : Tree α} (h : searchZ cmp x foc p = some (p', n)) :
    ∃ c l a r, n = .node c l a x r := by
  obtain ⟨⟨c, l, a, y, r, rfl, h0⟩, -⟩ := searchZ_some cmp x foc p p' n h
  have := (hc.eq_iff y x).1 h0
  subst this
  exact ⟨c, l, a, r, rfl⟩

/-- Where the descent of `findAndAdd` ends: everything before the slot is
below `x`, everything after it is above `x`. -/
theorem descend_bounds {cmp : α → α → Int} (hc : StrictTotal cmp) (x : α) :
    ∀ (foc : Tree α) (p : Path α), foc.ordered cmp → x ∉ foc.elems →
      (∀ y ∈ pathBefore p, cmp y x < 0) → (∀ y ∈ pathAfter p, cmp x y < 0) →
      (∀ y ∈ pathBefore (descend cmp x foc p), cmp y x < 0) ∧
      (∀ y ∈ pathAfter (descend cmp x foc p), cmp x y < 0) ∧
      pathBefore (descend cmp x foc p) ++ pathAfter (descend cmp x foc p)
        = pathBefore p ++ foc.elems ++ pathAfter p := by
  intro foc
  induction foc with
  | nil =>
    intro p _ _ hb ha
    exact ⟨hb, ha, by simp only [descend, Tree.elems, List.append_nil]⟩
  | node c l a y r ihl ihr =>
    intro p ho hx hb ha
    simp only [Tree.ordered, Tree.elems, List.pairwise_append, List.pairwise_cons,
      List.mem_cons] at ho
    obtain ⟨ol, ⟨oyr, or_⟩, olr⟩ := ho
    simp only [Tree.elems, List.mem_append, List.mem_cons, not_or] at hx
    obtain ⟨hxl, hxy, hxr⟩ := hx
    simp only [descend]
    split
    · rename_i hlt
      obtain ⟨r1, r2, r3⟩ := ihl (.L c a y r :: p) ol hxl hb (by
        intro z hz
        simp only [pathAfter, List.mem_append, List.mem_cons] at hz
        rcases hz with (rfl | hz) | hz
        · exact hlt
        · exact hc.trans _ _ _ hlt (oyr z hz)
        · exact ha z hz)
      refine ⟨r1, r2, ?_⟩
      rw [r3]
      simp only [pathBefore, pathAfter, Tree.elems, List.append_assoc, List.cons_append]
    · rename_i hlt
      have hyx : cmp y x < 0 := hc.lt_of_not hlt hxy
      obtain ⟨r1, r2, r3⟩ := ihr (.R c l a y :: p) or_ hxr (by
        intro z hz
        simp only [pathBefore, List.mem_append, List.mem_cons, List.mem_singleton,
          List.not_mem_nil, or_false] at hz
        rcases hz with hz | hz | rfl
        · exact hb z hz
        · exact hc.trans _ _ _ (olr z hz y (Or.inl rfl)) hyx
        · exact hyx) ha
      refine ⟨r1, r2, ?_⟩
      rw [r3]
      simp only [pathBefore, pathAfter, Tree.elems, List.append_assoc, List.cons_append,
        List.nil_append]

/-- Insertion puts `x` at its place in the in-order sequence. -/
theorem insertT_elems {cmp : α → α → Int} (hc : StrictTotal cmp) {tr tr' : Tree α} {n : Nat}
    {x : α} (ho : tr.ordered cmp) (hx : x ∉ tr.elems) (h : insertT cmp tr n x = some tr') :
    ∃ l1 l2, tr.elems = l1 ++ l2 ∧ tr'.elems = l1 ++ x :: l2 ∧
      (∀ y ∈ l1, cmp y x < 0) ∧ (∀ y ∈ l2, cmp x y < 0) := by
  cases tr with
  | nil =>
    simp only [insertT, Option.some.injEq] at h
    subst h
    exact ⟨[], [], rfl, rfl, (fun _ h => absurd h (List.not_mem_nil _)),
      (fun _ h => absurd h (List.not_mem_nil _))⟩
  | node c l a y r =>
    simp only [insertT] at h
    have he := fixZ_elems _ _ _ _ (le_refl _) h
    obtain ⟨r1, r2, r3⟩ := descend_bounds hc x (.node c l a y r) [] ho hx
      (fun _ h => absurd h (List.not_mem_nil _)) (fun _ h => absurd h (List.not_mem_nil _))
    refine ⟨_, _, ?_, ?_, r1, r2⟩
    · rw [r3]; simp only [pathBefore, pathAfter, List.nil_append, List.append_nil]
    · rw [he]; simp only [Tree.elems, List.nil_append, List.append_assoc, List.cons_append]

theorem insertT_ordered {cmp : α → α → Int} (hc : StrictTotal cmp) {tr tr' : Tree α} {n : Nat}
    {x : α} (ho : tr.ordered cmp) (hx : x ∉ tr.elems) (h : insertT cmp tr n x = some tr') :
    tr'.ordered cmp ∧ (∀ y, y ∈ tr'.elems ↔ y = x ∨ y ∈ tr.elems) ∧
      tr'.size = tr.size + 1 := by
  obtain ⟨l1, l2, e1, e2, b1, b2⟩ := insertT_elems hc ho hx h
  simp only [Tree.ordered, e1, List.pairwise_append] at ho
  obtain ⟨o1, o2, o3⟩ := ho
  refine ⟨?_, ?_, ?_⟩
  · simp only [Tree.ordered, e2, List.pairwise_append, List.pairwise_cons, List.mem_cons]
    refine ⟨o1, ⟨b2, o2⟩, ?_⟩
    intro a ha b hb
    rcases hb with rfl | hb
    · exact b1 a ha
    · exact o3 a ha b hb
  · intro y
    simp only [e1, e2, List.mem_append, List.mem_cons]
    tauto
  · simp only [Tree.size_eq_length, e1, e2, List.length_append, List.length_cons]
    omega

theorem visitUntil_cons_true {σ : Type} {func : α → σ → Bool × σ} {x : α} {s s1 : σ}
    (h : func x s = (true, s1)) (xs : List α) :
    visitUntil func (x :: xs) s = visitUntil func xs s1 := by
  simp only [visitUntil, h]

theorem visitUntil_cons_false {σ : Type} {func : α → σ → Bool × σ} {x : α} {s s1 : σ}
    (h : func x s = (false, s1)) (xs : List α) :
    visitUntil func (x :: xs) s = (false, s1) := by
  simp only [visitUntil, h]

theorem minZ_spec : ∀ (foc : Tree α) (p : Path α) (c : Color) (l r : Tree α) (a : Nat) (x : α),
    foc = .node c l a x r →
    ∃ pm cm m xm rm, minZ foc p = (pm, .node cm .nil m xm rm) ∧
      plug pm (.node cm .nil m xm rm) = plug p foc ∧
      xm :: rm.elems ++ pathAfter pm = foc.elems ++ pathAfter p ∧
      pathBefore pm = pathBefore p ∧ pm.length ≤ foc.height + p.length := by
  intro foc
  induction foc with
  | nil => intro p c l r a x e; cases e
  | node c l a x r ihl _ =>
    intro p c' l' r' a' x' e
    cases e
    cases l with
    | nil =>
      exact ⟨p, c, a, x, r, rfl, rfl, by simp only [Tree.elems, List.nil_append,
        List.cons_append], rfl, by omega⟩
    | node cl ll al xl rl =>
      obtain ⟨pm, cm, m, xm, rm, e1, e2, e3, e4, e5⟩ := ihl (.L c a x r :: p) cl ll rl al xl rfl
      refine ⟨pm, cm, m, xm, rm, e1, e2, ?_, e4, ?_⟩
      · rw [e3]
        simp only [Tree.elems, pathAfter, List.append_assoc, List.cons_append]
      · simp only [Tree.height, List.length_cons] at e5 ⊢
        omega

theorem minLoop_foc {t : RBTree α} : ∀ (foc : Tree α) (p : Path α) (c : Color) (l r : Tree α)
    (a : Nat) (x : α) (fuel : Nat), foc = .node c l a x r → ValidZ t p foc →
    foc.height ≤ fuel → (minLoop t fuel a).map some = some (minZ foc p).2.ptr := by
  intro foc
  induction foc with
  | nil => intro p c l r a x fuel e; cases e
  | node c l a x r ihl _ =>
    intro p c' l' r' a' x' fuel e H hf
    cases e
    cases fuel with
    | zero => simp [Tree.height] at hf
    | succ fuel =>
      have e1 := leftOf_foc H
      cases l with
      | nil =>
        simp only [minLoop, e1, Tree.ptr_nil, Option.map_some', minZ, Tree.ptr_node]
      | node cl ll al xl rl =>
        simp only [minLoop, e1, Tree.ptr_node]
        refine ihl _ cl ll rl al xl fuel rfl (validZ_down (f := .L c a x r) H) ?_
        simp only [Tree.height] at hf ⊢
        omega

theorem climbZ_spec : ∀ (p : Path α) (n : Tree α),
    (climbZ p n = none ∧ pathAfter p = []) ∨
    (∃ p' c' l' a' x' r', climbZ p n = some (p', .node c' l' a' x' r') ∧
      plug p' (.node c' l' a' x' r') = plug p n ∧
      x' :: r'.elems ++ pathAfter p' = pathAfter p ∧ p'.length ≤ p.length) := by
  intro p
  induction p with
  | nil => intro n; exact Or.inl ⟨rfl, rfl⟩
  | cons f p ih =>
    intro n
    cases f with
    | L c a y r =>
      exact Or.inr ⟨p, c, n, a, y, r, rfl, rfl, by simp only [pathAfter, List.cons_append],
        by simp only [List.length_cons]; omega⟩
    | R c l a y =>
      rcases ih (.node c l a y n) with ⟨h1, h2⟩ | ⟨p', c', l', a', x', r', h1, h2, h3, h4⟩
      · exact Or.inl ⟨by simp only [climbZ, h1], by simp only [pathAfter, h2]⟩
      · exact Or.inr ⟨p', c', l', a', x', r', by simp only [climbZ, h1], h2,
          by simp only [pathAfter, h3], by simp only [List.length_cons]; omega⟩

theorem succLoop_foc {t : RBTree α} : ∀ (p : Path α) (c : Color) (l r : Tree α) (a : Nat) (x : α)
    (fuel : Nat), ValidZ t p (.node c l a x r) → p.length < fuel →
    succLoop t fuel a (pathPar p) = some (foundPtr (climbZ p (.node c l a x r))) := by
  intro p
  induction p with
  | nil =>
    intro c l r a x fuel _ hf
    cases fuel with
    | zero => omega
    | succ fuel => rfl
  | cons f p ih =>
    intro c l r a x fuel H hf
    cases fuel with
    | zero => omega
    | succ fuel =>
      have H1 := validZ_up H
      cases f with
      | L cp ap xp S =>
        have e1 := rightOf_foc H1
        have hne : ¬ (some a = S.ptr) := fun h => ptr_ne_of_validZ H1 rfl h.symm
        simp only [succLoop, pathPar, Frame.addr, e1, hne, if_false, climbZ, foundPtr,
          Tree.ptr_node]
      | R cp S ap xp =>
        have e1 := rightOf_foc H1
        have e2 := parentOf_foc H1
        simp only [succLoop, pathPar, Frame.addr, e1, Tree.ptr_node, if_true, e2, climbZ]
        exact ih _ _ _ _ _ fuel H1 (by simp only [List.length_cons] at hf; omega)

theorem succZ_spec (p : Path α) (c : Color) (l r : Tree α) (a : Nat) (x : α) :
    (succZ p (.node c l a x r) = none ∧ r.elems ++ pathAfter p = []) ∨
    (∃ p' c' l' a' x' r', succZ p (.node c l a x r) = some (p', .node c' l' a' x' r') ∧
      plug p' (.node c' l' a' x' r') = plug p (.node c l a x r) ∧
      x' :: r'.elems ++ pathAfter p' = r.elems ++ pathAfter p) := by
  cases r with
  | nil =>
    rcases climbZ_spec p (.node c l a x .nil) with ⟨h1, h2⟩ | ⟨p', c', l', a', x', r', h1, h2, h3, -⟩
    · exact Or.inl ⟨h1, by simp only [Tree.elems, List.nil_append, h2]⟩
    · exact Or.inr ⟨p', c', l', a', x', r', h1, h2, by simp only [Tree.elems, List.nil_append, h3]⟩
  | node cr lr ar xr rr =>
    obtain ⟨pm, cm, m, xm, rm, e1, e2, e3, -, -⟩ :=
      minZ_spec (.node cr lr ar xr rr) (.R c l a x :: p) cr lr rr ar xr rfl
    exact Or.inr ⟨pm, cm, .nil, m, xm, rm, by simp only [succZ, e1], e2, by
      rw [e3]; simp only [pathAfter]⟩

theorem successor_foc {t : RBTree α} {p : Path α} {c : Color} {l r : Tree α} {a : Nat} {x : α}
    (H : ValidZ t p (.node c l a x r)) :
    successor t a = some (foundPtr (succZ p (.node c l a x r))) := by
  have e1 := rightOf_foc H
  have hh := validZ_card H
  cases r with
  | nil =>
    have e2 := parentOf_foc H
    simp only [successor, e1, Tree.ptr_nil, e2, succZ]
    exact succLoop_foc p c l .nil a x t.fuel H (by simp only [RBTree.fuel]; omega)
  | node cr lr ar xr rr =>
    have H1 := validZ_down (f := .R c l a x) H
    have := minLoop_foc (.node cr lr ar xr rr) (.R c l a x :: p) cr lr rr ar xr t.fuel rfl H1 (by
      simp only [RBTree.fuel, Tree.height] at hh ⊢; omega)
    cases hm : minLoop t t.fuel ar with
    | none => rw [hm] at this; simp at this
    | some m =>
      rw [hm] at this
      simp only [Option.map_some', Option.some.injEq] at this
      simp only [successor, e1, Tree.ptr_node, minNode, hm, succZ, foundPtr, ← this]

theorem size_eq_card (tr : Tree α) : tr.size = Multiset.card tr.addrs := by
  induction tr with
  | nil => rfl
  | node c l a x r ihl ihr =>
    simp only [Tree.size, Tree.addrs, Multiset.card_add, Multiset.card_singleton, ihl, ihr]
    omega

/-- `forEachRBTreeHelper` started at a node visits that node and everything
after it in in-order until the visitor reports failure; the flag it returns
is the flag of the first call. -/
theorem forEachRBTreeHelper_foc {σ : Type} {t : RBTree α} (func : α → σ → Bool × σ) :
    ∀ (k : Nat) (p : Path α) (c : Color) (l r : Tree α) (a : Nat) (x : α) (fuel : Nat) (s : σ),
      ValidZ t p (.node c l a x r) → (x :: r.elems ++ pathAfter p).length ≤ k → k ≤ fuel →
      forEachRBTreeHelper t func fuel s (some a) =
        some ((func x s).1, (visitUntil func (x :: r.elems ++ pathAfter p) s).2) := by
  intro k
  induction k with
  | zero => intro p c l r a x fuel s _ hk; simp at hk
  | succ k ih =>
    intro p c l r a x fuel s H hk hf
    cases fuel with
    | zero => omega
    | succ fuel =>
      have e1 := dataOf_foc H
      have e2 := successor_foc H
      cases hfx : func x s with
      | mk ok s1 =>
        cases ok with
        | false =>
          rw [List.cons_append, visitUntil_cons_false hfx]
          simp only [forEachRBTreeHelper, e1, hfx]
        | true =>
          rcases succZ_spec p c l r a x with ⟨h1, h2⟩ | ⟨p', c', l', a', x', r', h1, h2, h3⟩
          · rw [List.cons_append, visitUntil_cons_true hfx, h2]
            simp only [forEachRBTreeHelper, e1, hfx, e2, h1, foundPtr, visitUntil]
          · have H' : ValidZ t p' (.node c' l' a' x' r') := by
              apply validZ_unplug
              rw [h2]
              exact validZ_plug H
            have hl : (x' :: r'.elems ++ pathAfter p').length ≤ k := by
              rw [h3]
              simp only [List.cons_append, List.length_cons] at hk
              omega
            have := ih p' c' l' r' a' x' fuel s1 H' hl (by omega)
            rw [List.cons_append, visitUntil_cons_true hfx, ← h3]
            simp only [forEachRBTreeHelper, e1, hfx, e2, h1, foundPtr, Tree.ptr_node, this]

/-- What `forEachRBTree` computes on a valid tree: the visitor runs over the
elements in in-order until it reports failure. -/
theorem forEachRBTree_valid {σ : Type} {t : RBTree α} {tr : Tree α} {cmp : α → α → Int}
    (H : Valid t tr) (hc : t.compFunc = some cmp) (func : α → σ → Bool × σ) (s : σ) :
    forEachRBTree (some t) func s =
      some (firstFlag func tr.elems s, (visitUntil func tr.elems s).2) := by
  have hr := H.hroot
  simp only [pathRoot] at hr
  have hh := validZ_card H
  cases tr with
  | nil =>
    simp only [Tree.ptr_nil] at hr
    simp only [forEachRBTree, hc, hr, minNode, RBTree.fuel, forEachRBTreeHelper, Tree.elems,
      firstFlag, visitUntil]
  | node c l a x r =>
    simp only [Tree.ptr_node] at hr
    obtain ⟨pm, cm, m, xm, rm, e1, e2, e3, e4, e5⟩ :=
      minZ_spec (.node c l a x r) [] c l r a x rfl
    have hm := minLoop_foc (.node c l a x r) [] c l r a x t.fuel rfl H (by
      simp only [RBTree.fuel]; omega)
    rw [e1] at hm
    cases hml : minLoop t t.fuel a with
    | none => rw [hml] at hm; simp at hm
    | some m' =>
      rw [hml] at hm
      simp only [Option.map_some', Option.some.injEq, Tree.ptr_node] at hm
      subst hm
      have H' : ValidZ t pm (.node cm .nil m' xm rm) := by
        apply validZ_unplug
        rw [e2]
        exact H
      simp only [pathAfter, List.append_nil] at e3
      have hlen : (xm :: rm.elems ++ pathAfter pm).length ≤ t.next := by
        rw [e3, ← Tree.size_eq_length]
        have h1 := card_le_next H.nodup H.lt
        have h2 := size_eq_card (.node c l a x r)
        simp only [Multiset.card_add, pathAddrs, Multiset.card_zero, add_zero] at h1
        omega
      have := forEachRBTreeHelper_foc func t.next pm cm .nil rm m' xm t.fuel s H' hlen (by
        simp only [RBTree.fuel]; omega)
      simp only [forEachRBTree, hc, hr, minNode, hml, this, e3]
      cases he : (Tree.node c l a x r).elems with
      | nil => rw [he] at e3; cases e3
      | cons y ys =>
        rw [he] at e3
        simp only [List.cons_append, List.cons.injEq] at e3
        simp only [firstFlag, e3.1]

theorem getSibling_foc {t : RBTree α} {f : Frame α} {p : Path α} {c : Color} {l r : Tree α}
    {a : Nat} {x : α} (H : ValidZ t (f :: p) (.node c l a x r)) :
    getSibling t a = some f.sib.ptr := by
  have e1 := parentOf_foc H
  have H1 := validZ_up H
  cases f with
  | L cp ap xp S =>
    have e2 := leftOf_foc H1
    have e3 := rightOf_foc H1
    simp only [getSibling, e1, pathPar, Frame.addr, e2, Tree.ptr_node, if_true, e3, Frame.sib]
  | R cp S ap xp =>
    have e2 := leftOf_foc H1
    have hne : ¬ (S.ptr = some a) := fun h => ptr_ne_of_validZ H1 h rfl
    simp only [getSibling, e1, pathPar, Frame.addr, e2, hne, if_false, Frame.sib]

theorem getColor_ptr {t : RBTree α} {p : Path α} {n : Tree α} (H : ValidZ t p n) :
    getColor t n.ptr = some n.col := by
  cases n with
  | nil => rfl
  | node c l a x r => simp only [Tree.ptr_node, getColor, colorOf_foc H, Tree.col]

@[simp] theorem Frame.fill_ptr (f : Frame α) (n : Tree α) : (f.fill n).ptr = some f.addr := by
  cases f <;> rfl

@[simp] theorem Frame.fill_col (f : Frame α) (n : Tree α) : (f.fill n).col = f.color := by
  cases f <;> rfl

theorem getColor_fill {t : RBTree α} {f : Frame α} {p : Path α} {n : Tree α}
    (H : ValidZ t p (f.fill n)) : getColor t (some f.addr) = some f.color := by
  have := getColor_ptr H
  simpa only [Frame.fill_ptr, Frame.fill_col] using this

theorem getColor_node {t : RBTree α} {p : Path α} {c : Color} {l r : Tree α} {a : Nat} {x : α}
    (H : ValidZ t p (.node c l a x r)) : getColor t (some a) = some c :=
  getColor_ptr H

theorem deleteCase6_L {t : RBTree α} {p : Path α} {cp cs csr c : Color}
    {Sl Srl Srr l r : Tree α} {ap s sr d : Nat} {xp xs xsr x : α}
    (H : ValidZ t (.L cp ap xp (.node cs Sl s xs (.node csr Srl sr xsr Srr)) :: p)
      (.node c l d x r)) :
    ∃ t', deleteCase6 t d = some t' ∧
      ValidZ t' (.L Color.BLACK ap xp Sl :: .L cp s xs (.node Color.BLACK Srl sr xsr Srr) :: p)
        (.node c l d x r) ∧ SameMeta t t' := by
  have e1 := getSibling_foc H
  have e2 := parentOf_foc H
  have e3 := colorOf_fill (validZ_up H)
  obtain ⟨t1, r1, V1, m1⟩ := setColor_foc (validZ_swap H) cp
  have V1n : ValidZ t1 (.L cp ap xp (.node cp Sl s xs (.node csr Srl sr xsr Srr)) :: p)
      (.node c l d x r) := validZ_unswap V1
  have e4 := parentOf_foc V1n
  obtain ⟨t2, r2, V2, m2⟩ := setColor_foc (validZ_up V1n) Color.BLACK
  have V2n : ValidZ t2 (.L Color.BLACK ap xp (.node cp Sl s xs (.node csr Srl sr xsr Srr)) :: p)
      (.node c l d x r) := validZ_down (f := .L _ _ _ _) V2
  have e5 := parentOf_foc V2n
  have e6 := leftOf_foc V2
  have e7 := getSibling_foc V2n
  have V2s := validZ_swap V2n
  have e8 := rightOf_foc V2s
  obtain ⟨t3, r3, V3, m3⟩ := setColor_foc (validZ_down (f := .R cp Sl s xs) V2s) Color.BLACK
  have V3p : ValidZ t3 p (.node Color.BLACK (.node c l d x r) ap xp
      (.node cp Sl s xs (.node Color.BLACK Srl sr xsr Srr))) := validZ_up (validZ_up V3)
  have e9 := parentOf_foc (validZ_down (f := .L _ _ _ _) V3p)
  obtain ⟨t4, r4, V4, m4⟩ := leftRotate_foc V3p
  refine ⟨t4, ?_, validZ_down (f := .L _ _ _ _) (validZ_down (f := .L _ _ _ _) V4),
    ((m1.trans m2).trans m3).trans m4⟩
  simp only [pathPar, Frame.addr, Frame.sib, Frame.color, Tree.ptr_node] at e1 e2 e3 e4 e5
  simp only [pathPar, Frame.addr, Frame.sib, Frame.color, Tree.ptr_node] at e6 e7 e8 e9
  simp only [deleteCase6, e1, e2, getColor, e3, r1, e4, r2, e5, e6, e7, if_true, e8, r3, e9, r4]

theorem deleteCase6_R {t : RBTree α} {p : Path α} {cp cs csl c : Color}
    {Sll Slr Sr l r : Tree α} {ap s sl d : Nat} {xp xs xsl x : α}
    (H : ValidZ t (.R cp (.node cs (.node csl Sll sl xsl Slr) s xs Sr) ap xp :: p)
      (.node c l d x r)) :
    ∃ t', deleteCase6 t d = some t' ∧
      ValidZ t' (.R Color.BLACK Sr ap xp :: .R cp (.node Color.BLACK Sll sl xsl Slr) s xs :: p)
        (.node c l d x r) ∧ SameMeta t t' := by
  have e1 := getSibling_foc H
  have e2 := parentOf_foc H
  have e3 := colorOf_fill (validZ_up H)
  obtain ⟨t1, r1, V1, m1⟩ := setColor_foc (validZ_swap H) cp
  have V1n : ValidZ t1 (.R cp (.node cp (.node csl Sll sl xsl Slr) s xs Sr) ap xp :: p)
      (.node c l d x r) := validZ_unswap V1
  have e4 := parentOf_foc V1n
  obtain ⟨t2, r2, V2, m2⟩ := setColor_foc (validZ_up V1n) Color.BLACK
  have V2n : ValidZ t2 (.R Color.BLACK (.node cp (.node csl Sll sl xsl Slr) s xs Sr) ap xp :: p)
      (.node c l d x r) := validZ_down (f := .R _ _ _ _) V2
  have e5 := parentOf_foc V2n
  have e6 := leftOf_foc V2
  have e7 := getSibling_foc V2n
  have V2s := validZ_swap V2n
  have e8 := leftOf_foc V2s
  have hne : ¬ (some d = some s) := by
    intro h
    exact ptr_ne_of_validZ V2 (b := d) (by rw [Tree.ptr_node, ← h]) rfl
  obtain ⟨t3, r3, V3, m3⟩ := setColor_foc (validZ_down (f := .L cp s xs Sr) V2s) Color.BLACK
  have V3p : ValidZ t3 p (.node Color.BLACK
      (.node cp (.node Color.BLACK Sll sl xsl Slr) s xs Sr) ap xp (.node c l d x r)) :=
    validZ_up (validZ_up V3)
  have e9 := parentOf_foc (validZ_down (f := .R _ _ _ _) V3p)
  obtain ⟨t4, r4, V4, m4⟩ := rightRotate_foc V3p
  refine ⟨t4, ?_, validZ_down (f := .R _ _ _ _) (validZ_down (f := .R _ _ _ _) V4),
    ((m1.trans m2).trans m3).trans m4⟩
  simp only [pathPar, Frame.addr, Frame.sib, Frame.color, Tree.ptr_node] at e1 e2 e3 e4 e5
  simp only [pathPar, Frame.addr, Frame.sib, Frame.color, Tree.ptr_node] at e6 e7 e8 e9
  simp only [deleteCase6, e1, e2, getColor, e3, r1, e4, r2, e5, e6, e7, hne, if_false, e8, r3,
    e9, r4]

theorem nearRedFarBlack_L {t : RBTree α} {p : Path α} {cp cs c : Color} {Sl Sr l r : Tree α}
    {ap s d : Nat} {xp xs x : α}
    (H : ValidZ t (.L cp ap xp (.node cs Sl s xs Sr) :: p) (.node c l d x r)) :
    nearRedFarBlack t d true
        = some (decide (cs = Color.BLACK ∧ Sl.col = Color.RED ∧ Sr.col = Color.BLACK)) ∧
      nearRedFarBlack t d false = some false := by
  have e1 := parentOf_foc H
  have H1 := validZ_up H
  have e2 := leftOf_foc H1
  have e3 := rightOf_foc H1
  have e4 := getSibling_foc H
  have Hs := validZ_swap H
  have e5 := getColor_node Hs
  have e6 := leftOf_foc Hs
  have e7 := rightOf_foc Hs
  have e8 := getColor_ptr (validZ_down (f := .L cs s xs Sr) Hs)
  have e9 := getColor_ptr (validZ_down (f := .R cs Sl s xs) Hs)
  have hne : ¬ (some d = some s) := by
    intro h
    exact ptr_ne_of_validZ H1 (b := d) rfl (by rw [Tree.ptr_node, ← h])
  simp only [pathPar, Frame.addr, Frame.sib, Tree.ptr_node] at e1 e2 e3 e4 e5 e6 e7
  constructor
  · simp only [nearRedFarBlack, e1, if_true, e2, e4, e5]
    cases cs with
    | RED => simp only [reduceCtorEq, false_and, decide_False]
    | BLACK =>
      simp only [e6, e7, if_true, e8, true_and]
      rcases color_cases Sl.col with h | h
      · simp only [h, e9, true_and]
      · simp only [h, reduceCtorEq, false_and, decide_False]
  · simp only [nearRedFarBlack, e1, Bool.false_eq_true, if_false, e3, hne]

theorem nearRedFarBlack_R {t : RBTree α} {p : Path α} {cp cs c : Color} {Sl Sr l r : Tree α}
    {ap s d : Nat} {xp xs x : α}
    (H : ValidZ t (.R cp (.node cs Sl s xs Sr) ap xp :: p) (.node c l d x r)) :
    nearRedFarBlack t d true = some false ∧
      nearRedFarBlack t d false
        = some (decide (cs = Color.BLACK ∧ Sr.col = Color.RED ∧ Sl.col = Color.BLACK)) := by
  have e1 := parentOf_foc H
  have H1 := validZ_up H
  have e2 := leftOf_foc H1
  have e3 := rightOf_foc H1
  have e4 := getSibling_foc H
  have Hs := validZ_swap H
  have e5 := getColor_node Hs
  have e6 := leftOf_foc Hs
  have e7 := rightOf_foc Hs
  have e8 := getColor_ptr (validZ_down (f := .L cs s xs Sr) Hs)
  have e9 := getColor_ptr (validZ_down (f := .R cs Sl s xs) Hs)
  have hne : ¬ (some d = some s) := by
    intro h
    exact ptr_ne_of_validZ H1 (b := d) (by rw [Tree.ptr_node, ← h]) rfl
  simp only [pathPar, Frame.addr, Frame.sib, Tree.ptr_node] at e1 e2 e3 e4 e5 e6 e7
  constructor
  · simp only [nearRedFarBlack, e1, if_true, e2, hne, if_false]
  · simp only [nearRedFarBlack, e1, Bool.false_eq_true, if_false, e3, if_true, e4, e5]
    cases cs with
    | RED => simp only [reduceCtorEq, false_and, decide_False]
    | BLACK =>
      simp only [e6, e7, if_false, Bool.false_eq_true, e9, true_and]
      rcases color_cases Sr.col with h | h
      · simp only [h, e8, true_and]
      · simp only [h, reduceCtorEq, false_and, decide_False]

theorem siblingAllBlack_foc {t : RBTree α} {f : Frame α} {p : Path α} {cs c : Color}
    {Sl Sr l r : Tree α} {s d : Nat} {xs x : α} (pcol : Color)
    (H : ValidZ t (f :: p) (.node c l d x r)) (hS : f.sib = .node cs Sl s xs Sr) :
    siblingAllBlack t d pcol = some (decide (f.color = pcol ∧ cs = Color.BLACK ∧
      Sl.col = Color.BLACK ∧ Sr.col = Color.BLACK)) := by
  have e1 := parentOf_foc H
  have e2 := getColor_fill (validZ_up H)
  have e4 := getSibling_foc H
  have Hs := validZ_swap H
  rw [hS] at Hs e4
  have e5 := getColor_node Hs
  have e6 := leftOf_foc Hs
  have e7 := rightOf_foc Hs
  have e8 := getColor_ptr (validZ_down (f := .L cs s xs Sr) Hs)
  have e9 := getColor_ptr (validZ_down (f := .R cs Sl s xs) Hs)
  simp only [pathPar, Tree.ptr_node] at e1 e4
  simp only [siblingAllBlack, e1, e2]
  by_cases hp : f.color = pcol
  · simp only [hp, if_true, e4, e5, true_and]
    cases cs with
    | RED => simp only [reduceCtorEq, false_and, decide_False]
    | BLACK =>
      simp only [e6, e8, true_and]
      rcases color_cases Sl.col with h | h
      · simp only [h, reduceCtorEq, false_and, decide_False]
      · simp only [h, e7, e9, true_and]
  · simp only [hp, if_false, false_and, decide_False]

theorem deleteCase5_L {t : RBTree α} {p p' : Path α} {cp c : Color} {Sl Sr l r : Tree α}
    {ap s d : Nat} {xp xs x : α}
    (H : ValidZ t (.L cp ap xp (.node Color.BLACK Sl s xs Sr) :: p) (.node c l d x r))
    (hq : delCase56L cp ap xp Sl s xs Sr p = some p') :
    ∃ t', deleteCase5 t d = some t' ∧ ValidZ t' p' (.node c l d x r) ∧ SameMeta t t' := by
  obtain ⟨n1, n2⟩ := nearRedFarBlack_L H
  simp only [true_and] at n1
  by_cases h5 : Sl.col = Color.RED ∧ Sr.col = Color.BLACK
  · obtain ⟨Sll, sl, xsl, Slr, rfl⟩ := Tree.col_red_node h5.1
    simp only [delCase56L, h5, and_self, if_true, Option.some.injEq] at hq
    subst hq
    have e1 := getSibling_foc H
    obtain ⟨t1, r1, V1, m1⟩ := setColor_foc (validZ_swap H) Color.RED
    have V1n : ValidZ t1 (.L cp ap xp (.node Color.RED (.node Color.RED Sll sl xsl Slr) s xs Sr)
        :: p) (.node c l d x r) := validZ_unswap V1
    have e2 := getSibling_foc V1n
    have e3 := leftOf_foc V1
    obtain ⟨t2, r2, V2, m2⟩ := setColor_foc (validZ_down (f := .L Color.RED s xs Sr) V1)
      Color.BLACK
    have V2s := validZ_up V2
    have V2n : ValidZ t2 (.L cp ap xp (.node Color.RED (.node Color.BLACK Sll sl xsl Slr) s xs
        Sr) :: p) (.node c l d x r) := validZ_unswap V2s
    have e4 := getSibling_foc V2n
    obtain ⟨t3, r3, V3, m3⟩ := rightRotate_foc V2s
    have V3n : ValidZ t3 (.L cp ap xp (.node Color.BLACK Sll sl xsl (.node Color.RED Slr s xs
        Sr)) :: p) (.node c l d x r) := validZ_unswap V3
    obtain ⟨t4, r4, V4, m4⟩ := deleteCase6_L V3n
    refine ⟨t4, ?_, V4, ((m1.trans m2).trans m3).trans m4⟩
    simp only [Frame.sib, Tree.ptr_node] at e1 e2 e3 e4
    simp only [deleteCase5, n1, h5, and_self, decide_True, e1, r1, e2, e3, r2, e4, r3, r4]
  · cases Sr with
    | nil =>
      simp only [delCase56L, h5, if_false] at hq
      cases hq
    | node csr Srl sr xsr Srr =>
      simp only [delCase56L, h5, if_false, Option.some.injEq] at hq
      subst hq
      obtain ⟨t4, r4, V4, m4⟩ := deleteCase6_L H
      refine ⟨t4, ?_, V4, m4⟩
      simp only [deleteCase5, n1, h5, decide_False, n2, r4]

theorem deleteCase4_L {t : RBTree α} {p p' : Path α} {cp c : Color} {Sl Sr l r : Tree α}
    {ap s d : Nat} {xp xs x : α}
    (H : ValidZ t (.L cp ap xp (.node Color.BLACK Sl s xs Sr) :: p) (.node c l d x r))
    (hq : delCase456L cp ap xp Sl s xs Sr p = some p') :
    ∃ t', deleteCase4 t d = some t' ∧ ValidZ t' p' (.node c l d x r) ∧ SameMeta t t' := by
  have e0 := siblingAllBlack_foc Color.RED H rfl
  simp only [Frame.color, true_and] at e0
  by_cases h4 : cp = Color.RED ∧ Sl.col = Color.BLACK ∧ Sr.col = Color.BLACK
  · simp only [delCase456L, h4, and_self, if_true, Option.some.injEq] at hq
    subst hq
    have e1 := getSibling_foc H
    obtain ⟨t1, r1, V1, m1⟩ := setColor_foc (validZ_swap H) Color.RED
    have V1n : ValidZ t1 (.L cp ap xp (.node Color.RED Sl s xs Sr) :: p) (.node c l d x r) :=
      validZ_unswap V1
    have e2 := parentOf_foc V1n
    obtain ⟨t2, r2, V2, m2⟩ := setColor_foc (validZ_up V1n) Color.BLACK
    refine ⟨t2, ?_, validZ_down (f := .L _ _ _ _) V2, m1.trans m2⟩
    simp only [Frame.sib, Tree.ptr_node, pathPar, Frame.addr] at e1 e2
    simp only [deleteCase4, e0, h4, and_self, decide_True, e1, r1, e2, r2]
  · simp only [delCase456L, h4, if_false] at hq
    obtain ⟨t', r1, V1, m1⟩ := deleteCase5_L H hq
    refine ⟨t', ?_, V1, m1⟩
    simp only [deleteCase4, e0, h4, decide_False, r1]

theorem deleteCase5_R {t : RBTree α} {p p' : Path α} {cp c : Color} {Sl Sr l r : Tree α}
    {ap s d : Nat} {xp xs x : α}
    (H : ValidZ t (.R cp (.node Color.BLACK Sl s xs Sr) ap xp :: p) (.node c l d x r))
    (hq : delCase56R cp ap xp Sl s xs Sr p = some p') :
    ∃ t', deleteCase5 t d = some t' ∧ ValidZ t' p' (.node c l d x r) ∧ SameMeta t t' := by
  obtain ⟨n1, n2⟩ := nearRedFarBlack_R H
  simp only [true_and] at n2
  by_cases h5 : Sr.col = Color.RED ∧ Sl.col = Color.BLACK
  · obtain ⟨Srl, sr, xsr, Srr, rfl⟩ := Tree.col_red_node h5.1
    simp only [delCase56R, h5, and_self, if_true, Option.some.injEq] at hq
    subst hq
    have e1 := getSibling_foc H
    obtain ⟨t1, r1, V1, m1⟩ := setColor_foc (validZ_swap H) Color.RED
    have V1n : ValidZ t1 (.R cp (.node Color.RED Sl s xs (.node Color.RED Srl sr xsr Srr)) ap xp
        :: p) (.node c l d x r) := validZ_unswap V1
    have e2 := getSibling_foc V1n
    have e3 := rightOf_foc V1
    obtain ⟨t2, r2, V2, m2⟩ := setColor_foc (validZ_down (f := .R Color.RED Sl s xs) V1)
      Color.BLACK
    have V2s := validZ_up V2
    have V2n : ValidZ t2 (.R cp (.node Color.RED Sl s xs (.node Color.BLACK Srl sr xsr Srr))
        ap xp :: p) (.node c l d x r) := validZ_unswap V2s
    have e4 := getSibling_foc V2n
    obtain ⟨t3, r3, V3, m3⟩ := leftRotate_foc V2s
    have V3n : ValidZ t3 (.R cp (.node Color.BLACK (.node Color.RED Sl s xs Srl) sr xsr Srr)
        ap xp :: p) (.node c l d x r) := validZ_unswap V3
    obtain ⟨t4, r4, V4, m4⟩ := deleteCase6_R V3n
    refine ⟨t4, ?_, V4, ((m1.trans m2).trans m3).trans m4⟩
    simp only [Frame.sib, Tree.ptr_node] at e1 e2 e3 e4
    simp only [deleteCase5, n1, n2, h5, and_self, decide_True, e1, r1, e2, e3, r2, e4, r3, r4]
  · cases Sl with
    | nil =>
      simp only [delCase56R, h5, if_false] at hq
      cases hq
    | node csl Sll sl xsl Slr =>
      simp only [delCase56R, h5, if_false, Option.some.injEq] at hq
      subst hq
      obtain ⟨t4, r4, V4, m4⟩ := deleteCase6_R H
      refine ⟨t4, ?_, V4, m4⟩
      simp only [deleteCase5, n1, n2, h5, decide_False, r4]

theorem deleteCase4_R {t : RBTree α} {p p' : Path α} {cp c : Color} {Sl Sr l r : Tree α}
    {ap s d : Nat} {xp xs x : α}
    (H : ValidZ t (.R cp (.node Color.BLACK Sl s xs Sr) ap xp :: p) (.node c l d x r))
    (hq : delCase456R cp ap xp Sl s xs Sr p = some p') :
    ∃ t', deleteCase4 t d = some t' ∧ ValidZ t' p' (.node c l d x r) ∧ SameMeta t t' := by
  have e0 := siblingAllBlack_foc Color.RED H rfl
  simp only [Frame.color, true_and] at e0
  by_cases h4 : cp = Color.RED ∧ Sl.col = Color.BLACK ∧ Sr.col = Color.BLACK
  · simp only [delCase456R, h4, and_self, if_true, Option.some.injEq] at hq
    subst hq
    have e1 := getSibling_foc H
    obtain ⟨t1, r1, V1, m1⟩ := setColor_foc (validZ_swap H) Color.RED
    have V1n : ValidZ t1 (.R cp (.node Color.RED Sl s xs Sr) ap xp :: p) (.node c l d x r) :=
      validZ_unswap V1
    have e2 := parentOf_foc V1n
    obtain ⟨t2, r2, V2, m2⟩ := setColor_foc (validZ_up V1n) Color.BLACK
    refine ⟨t2, ?_, validZ_down (f := .R _ _ _ _) V2, m1.trans m2⟩
    simp only [Frame.sib, Tree.ptr_node, pathPar, Frame.addr] at e1 e2
    simp only [deleteCase4, e0, h4, and_self, decide_True, e1, r1, e2, r2]
  · simp only [delCase456R, h4, if_false] at hq
    obtain ⟨t', r1, V1, m1⟩ := deleteCase5_R H hq
    refine ⟨t', ?_, V1, m1⟩
    simp only [deleteCase4, e0, h4, decide_False, r1]

/-- The deletion fix-up `deleteCase1` follows `delFix`: it returns, and the
node it was started on has the path `delFix` computes above it. -/
theorem deleteCase1_foc : ∀ (fuel : Nat) (p p' : Path α) (t : RBTree α) (c : Color)
    (l r : Tree α) (d : Nat) (x : α), ValidZ t p (.node c l d x r) → p.length < fuel →
    delFix p = some p' →
    ∃ t', deleteCase1 fuel t d = some t' ∧ ValidZ t' p' (.node c l d x r) ∧ SameMeta t t' := by
  intro fuel
  induction fuel with
  | zero => intro p p' t c l r d x _ h; omega
  | succ fuel ih =>
    intro p p' t c l r d x H hlen hq
    have e1 := parentOf_foc H
    cases p with
    | nil =>
      simp only [delFix, Option.some.injEq] at hq
      subst hq
      exact ⟨t, by simp only [deleteCase1, e1, pathPar], H, SameMeta.refl t⟩
    | cons f p =>
      have e2 := getSibling_foc H
      have e3 := getColor_ptr (validZ_swap H)
      simp only [List.length_cons] at hlen
      cases f with
      | L cp ap xp S =>
        cases S with
        | nil => simp only [delFix] at hq; cases hq
        | node cs Sl s xs Sr =>
          simp only [Frame.sib, Tree.ptr_node, Tree.col, pathPar, Frame.addr] at e1 e2 e3
          cases cs with
          | RED =>
            cases Sl with
            | nil => simp only [delFix] at hq; cases hq
            | node csl Sll sl xsl Slr =>
              cases csl with
              | RED => simp only [delFix] at hq; cases hq
              | BLACK =>
                simp only [delFix] at hq
                obtain ⟨t1, r1, V1, m1⟩ := setColor_foc (validZ_up H) Color.RED
                have V1n : ValidZ t1 (.L Color.RED ap xp (.node Color.RED
                    (.node Color.BLACK Sll sl xsl Slr) s xs Sr) :: p) (.node c l d x r) :=
                  validZ_down (f := .L _ _ _ _) V1
                have e4 := getSibling_foc V1n
                obtain ⟨t2, r2, V2, m2⟩ := setColor_foc (validZ_swap V1n) Color.BLACK
                have V2n : ValidZ t2 (.L Color.RED ap xp (.node Color.BLACK
                    (.node Color.BLACK Sll sl xsl Slr) s xs Sr) :: p) (.node c l d x r) :=
                  validZ_unswap V2
                have e5 := parentOf_foc V2n
                have V2p := validZ_up V2n
                have e6 := leftOf_foc V2p
                obtain ⟨t3, r3, V3, m3⟩ := leftRotate_foc V2p
                have V3n : ValidZ t3 (.L Color.RED ap xp (.node Color.BLACK Sll sl xsl Slr) ::
                    .L Color.BLACK s xs Sr :: p) (.node c l d x r) :=
                  validZ_down (f := .L _ _ _ _) (validZ_down (f := .L _ _ _ _) V3)
                have e7 := siblingAllBlack_foc Color.BLACK V3n rfl
                obtain ⟨t4, r4, V4, m4⟩ := deleteCase4_L V3n hq
                refine ⟨t4, ?_, V4, ((m1.trans m2).trans m3).trans m4⟩
                simp only [Frame.sib, Tree.ptr_node, pathPar, Frame.addr, Frame.color,
                  reduceCtorEq, false_and, decide_False] at e4 e5 e6 e7
                simp only [deleteCase1, e1, deleteCase2, e2, e3, r1, e4, r2, e5, e6, if_true, r3,
                  deleteCase3, e7, r4]
          | BLACK =>
            have e7 := siblingAllBlack_foc Color.BLACK H rfl
            simp only [Frame.color, true_and] at e7
            by_cases h3 : cp = Color.BLACK ∧ Sl.col = Color.BLACK ∧ Sr.col = Color.BLACK
            · simp only [delFix, h3, and_self, if_true] at hq
              obtain ⟨hcp, hl, hr⟩ := h3
              subst hcp
              cases hrec : delFix p with
              | none => rw [hrec] at hq; cases hq
              | some p'' =>
                rw [hrec] at hq
                simp only [Option.some.injEq] at hq
                subst hq
                obtain ⟨t1, r1, V1, m1⟩ := setColor_foc (validZ_swap H) Color.RED
                have V1n : ValidZ t1 (.L Color.BLACK ap xp (.node Color.RED Sl s xs Sr) :: p)
                    (.node c l d x r) := validZ_unswap V1
                have e8 := parentOf_foc V1n
                obtain ⟨t2, r2, V2, m2⟩ := ih p p'' t1 _ _ _ ap _ (validZ_up V1n) (by omega) hrec
                refine ⟨t2, ?_, validZ_down (f := .L _ _ _ _) V2, m1.trans m2⟩
                simp only [pathPar, Frame.addr] at e8
                simp only [deleteCase1, e1, deleteCase2, e2, e3, deleteCase3, e7, hl, hr, and_self,
                  decide_True, r1, e8, r2]
            · simp only [delFix, h3, if_false] at hq
              obtain ⟨t4, r4, V4, m4⟩ := deleteCase4_L H hq
              refine ⟨t4, ?_, V4, m4⟩
              simp only [deleteCase1, e1, deleteCase2, e2, e3, deleteCase3, e7, h3, decide_False,
                r4]
      | R cp S ap xp =>
        cases S with
        | nil => simp only [delFix] at hq; cases hq
        | node cs Sl s xs Sr =>
          simp only [Frame.sib, Tree.ptr_node, Tree.col, pathPar, Frame.addr] at e1 e2 e3
          cases cs with
          | RED =>
            cases Sr with
            | nil => simp only [delFix] at hq; cases hq
            | node csr Srl sr xsr Srr =>
              cases csr with
              | RED => simp only [delFix] at hq; cases hq
              | BLACK =>
                simp only [delFix] at hq
                obtain ⟨t1, r1, V1, m1⟩ := setColor_foc (validZ_up H) Color.RED
                have V1n : ValidZ t1 (.R Color.RED (.node Color.RED Sl s xs
                    (.node Color.BLACK Srl sr xsr Srr)) ap xp :: p) (.node c l d x r) :=
                  validZ_down (f := .R _ _ _ _) V1
                have e4 := getSibling_foc V1n
                obtain ⟨t2, r2, V2, m2⟩ := setColor_foc (validZ_swap V1n) Color.BLACK
                have V2n : ValidZ t2 (.R Color.RED (.node Color.BLACK Sl s xs
                    (.node Color.BLACK Srl sr xsr Srr)) ap xp :: p) (.node c l d x r) :=
                  validZ_unswap V2
                have e5 := parentOf_foc V2n
                have V2p := validZ_up V2n
                have e6 := leftOf_foc V2p
                have hne : ¬ (some d = some s) := by
                  intro h
                  exact ptr_ne_of_validZ V2p (b := d) (by rw [Tree.ptr_node, ← h]) rfl
                obtain ⟨t3, r3, V3, m3⟩ := rightRotate_foc V2p
                have V3n : ValidZ t3 (.R Color.RED (.node Color.BLACK Srl sr xsr Srr) ap xp ::
                    .R Color.BLACK Sl s xs :: p) (.node c l d x r) :=
                  validZ_down (f := .R _ _ _ _) (validZ_down (f := .R _ _ _ _) V3)
                have e7 := siblingAllBlack_foc Color.BLACK V3n rfl
                obtain ⟨t4, r4, V4, m4⟩ := deleteCase4_R V3n hq
                refine ⟨t4, ?_, V4, ((m1.trans m2).trans m3).trans m4⟩
                simp only [Frame.sib, Tree.ptr_node, pathPar, Frame.addr, Frame.color,
                  reduceCtorEq, false_and, decide_False] at e4 e5 e6 e7
                simp only [deleteCase1, e1, deleteCase2, e2, e3, r1, e4, r2, e5, e6, hne,
                  if_false, r3, deleteCase3, e7, r4]
          | BLACK =>
            have e7 := siblingAllBlack_foc Color.BLACK H rfl
            simp only [Frame.color, true_and] at e7
            by_cases h3 : cp = Color.BLACK ∧ Sl.col = Color.BLACK ∧ Sr.col = Color.BLACK
            · simp only [delFix, h3, and_self, if_true] at hq
              obtain ⟨hcp, hl, hr⟩ := h3
              subst hcp
              cases hrec : delFix p with
              | none => rw [hrec] at hq; cases hq
              | some p'' =>
                rw [hrec] at hq
                simp only [Option.some.injEq] at hq
                subst hq
                obtain ⟨t1, r1, V1, m1⟩ := setColor_foc (validZ_swap H) Color.RED
                have V1n : ValidZ t1 (.R Color.BLACK (.node Color.RED Sl s xs Sr) ap xp :: p)
                    (.node c l d x r) := validZ_unswap V1
                have e8 := parentOf_foc V1n
                obtain ⟨t2, r2, V2, m2⟩ := ih p p'' t1 _ _ _ ap _ (validZ_up V1n) (by omega) hrec
                refine ⟨t2, ?_, validZ_down (f := .R _ _ _ _) V2, m1.trans m2⟩
                simp only [pathPar, Frame.addr] at e8
                simp only [deleteCase1, e1, deleteCase2, e2, e3, deleteCase3, e7, hl, hr, and_self,
                  decide_True, r1, e8, r2]
            · simp only [delFix, h3, if_false] at hq
              obtain ⟨t4, r4, V4, m4⟩ := deleteCase4_R H hq
              refine ⟨t4, ?_, V4, m4⟩
              simp only [deleteCase1, e1, deleteCase2, e2, e3, deleteCase3, e7, h3, decide_False,
                r4]

theorem validZ_freeData {t : RBTree α} {p : Path α} {n : Tree α} (H : ValidZ t p n)
    (d : Option α) : ValidZ (freeData t d) p n := by
  cases d with
  | none => exact H
  | some x => exact validZ_congr H rfl rfl rfl

/-- Freeing a cell that is not part of the tree leaves the tree valid. -/
theorem validZ_freeNode {t : RBTree α} {p : Path α} {n : Tree α} (H : ValidZ t p n) {d : Nat}
    {nd : Node α} (hc : t.nodes d = some nd) (hd : d ∉ n.addrs + pathAddrs p) :
    ∃ t', freeNode t d = some t' ∧ ValidZ t' p n ∧ SameMeta t t' := by
  refine ⟨{ t with nodes := fun q => if q = d then none else t.nodes q }, ?_, ?_,
    ⟨rfl, rfl, rfl, rfl, rfl, rfl⟩⟩
  · simp only [freeNode, hc, Option.map_some']
  · simp only [Multiset.mem_add, not_or] at hd
    refine ⟨H.hroot, H.hfoc.congr_r ?_, H.hpath.congr_p ?_, H.nodup, H.lt⟩
    · intro a ha
      show (if a = d then none else t.nodes a) = _
      rw [if_neg (fun (e : a = d) => hd.1 (e ▸ ha))]
    · intro a ha
      show (if a = d then none else t.nodes a) = _
      rw [if_neg (fun (e : a = d) => hd.2 (e ▸ ha))]

/-- `replaceWithChild` on a node with at most one child `ch` takes the node
out of the tree: the tree is the path with the child in the hole, and the
node's own cell is left as it was. -/
theorem splice_foc {t : RBTree α} {q : Path α} {cd : Color} {ld rd ch : Tree α} {d : Nat}
    {xd : α} (H : ValidZ t q (.node cd ld d xd rd))
    (hch : (ld = .nil ∧ ch = rd) ∨ (rd = .nil ∧ ch = ld)) :
    d ∉ ch.addrs + pathAddrs q ∧
    ∃ t', replaceWithChild t d ch.ptr = some t' ∧ ValidZ t' q ch ∧
      t'.nodes d = t.nodes d ∧ SameMeta t t' := by
  obtain ⟨h1, ⟨h2, h3, h4⟩, h5, h6, h7⟩ := H
  simp only [Tree.ptr_node] at h1 h5
  have hdp : d ∉ pathAddrs q :=
    not_mem_of_count h6 (fun z => by simp only [Tree.addrs, Multiset.count_add]; omega)
  obtain ⟨t1, e1, r1, p1, f1, m1⟩ := replaceWithChild_path ch.ptr h1 h5 h2 rfl hdp
    (Multiset.nodup_add.1 h6).2.1
  have hsub : ∀ z, Multiset.count z ch.addrs ≤ Multiset.count z (ld.addrs + rd.addrs) := by
    intro z
    rcases hch with ⟨-, rfl⟩ | ⟨-, rfl⟩ <;> simp only [Multiset.count_add] <;> omega
  have hrep : Rep t.nodes ch (some d) := by
    rcases hch with ⟨-, rfl⟩ | ⟨-, rfl⟩
    · exact h4
    · exact h3
  have hnd : (ch.addrs + pathAddrs q).Nodup := by
    refine Multiset.nodup_of_le ?_ h6
    rw [Multiset.le_iff_count]
    intro z
    have := hsub z
    simp only [Tree.addrs, Multiset.count_add] at this ⊢
    omega
  have hlt : ∀ z ∈ ch.addrs + pathAddrs q, z < t1.next := by
    intro z hz
    rw [m1.next]
    apply h7
    simp only [Multiset.mem_add, Tree.addrs, Multiset.mem_singleton] at hz ⊢
    rcases hz with hz | hz
    · have := Multiset.one_le_count_iff_mem.2 hz
      have h' := hsub z
      have : 1 ≤ Multiset.count z (ld.addrs + rd.addrs) := by omega
      have := Multiset.one_le_count_iff_mem.1 this
      simp only [Multiset.mem_add] at this
      exact Or.inl (Or.inr this)
    · exact Or.inr hz
  have hdch : d ∉ ch.addrs := by
    intro hz
    have c1 := Multiset.one_le_count_iff_mem.2 hz
    have c2 := Multiset.nodup_iff_count_le_one.1 h6 d
    have c3 := hsub d
    simp only [Tree.addrs, Multiset.count_add, Multiset.count_singleton_self] at c2 c3
    omega
  have hchp : ∀ z ∈ ch.addrs, z ∉ pathAddrs q :=
    disj_of_count hnd (fun z => by simp only [Multiset.count_add]; omega)
  refine ⟨by simp only [Multiset.mem_add, not_or]; exact ⟨hdch, hdp⟩, ?_⟩
  cases ch with
  | nil =>
    simp only [Tree.ptr_nil] at e1 r1 p1
    exact ⟨t1, e1, ⟨r1, trivial, p1, hnd, hlt⟩, f1 d hdp, m1⟩
  | node cc cl c xc cr =>
    simp only [Tree.ptr_node] at e1 r1 p1
    obtain ⟨g1, g2, g3⟩ := hrep
    have hcp : c ∉ pathAddrs q := hchp c (by simp [Tree.addrs])
    have n1c : t1.nodes c = _ := (f1 c hcp).trans g1
    have hcd : d ≠ c := fun e => hdch (by rw [e]; simp [Tree.addrs])
    have hccl : c ∉ cl.addrs := not_mem_of_count hnd (fun z => by
      simp only [Tree.addrs, Multiset.count_add]; omega)
    have hccr : c ∉ cr.addrs := not_mem_of_count hnd (fun z => by
      simp only [Tree.addrs, Multiset.count_add]; omega)
    refine ⟨t1.write c ⟨cl.ptr, cr.ptr, pathPar q, cc, some xc⟩, ?_, ⟨r1, ⟨write_nodes_same _ _ _,
      ?_, ?_⟩, p1.write_p _ hcp, hnd, hlt⟩, ?_, m1.write_m _ _⟩
    · rw [Tree.ptr_node, e1]
      simp only [setParent, n1c, Option.map_some']
    · refine (g2.congr_r fun z hz => f1 z (hchp z ?_)).write_r _ hccl
      simp only [Tree.addrs, Multiset.mem_add]; exact Or.inr (Or.inl hz)
    · refine (g3.congr_r fun z hz => f1 z (hchp z ?_)).write_r _ hccr
      simp only [Tree.addrs, Multiset.mem_add]; exact Or.inr (Or.inr hz)
    · rw [write_nodes_ne _ _ hcd]
      exact f1 d hdp

theorem setColor_nodes_ne {t t' : RBTree α} {a b : Nat} {c : Color}
    (h : setColor t a c = some t') (hb : b ≠ a) : t'.nodes b = t.nodes b := by
  simp only [setColor] at h
  cases hn : t.nodes a with
  | none => simp only [hn, Option.map_none', reduceCtorEq] at h
  | some n =>
    simp only [hn, Option.map_some', Option.some.injEq] at h
    rw [← h, write_nodes_ne _ _ hb]

theorem Tree.setCol_addrs (c : Color) (n : Tree α) : (n.setCol c).addrs = n.addrs := by
  cases n <;> rfl

theorem Tree.setCol_elems (c : Color) (n : Tree α) : (n.setCol c).elems = n.elems := by
  cases n <;> rfl

/-- The tree `spliceZ` builds, as a plugged path. -/
theorem spliceZ_eq (q : Path α) (ch : Tree α) :
    spliceZ q ch = plug q (if q.length = 0 then ch.setCol Color.BLACK else ch) := by
  cases q with
  | nil => rfl
  | cons f q => rfl

/-- Refinement of `removeNode` on a node with at most one child. -/
theorem removeNode_foc {t : RBTree α} {q : Path α} {cd : Color} {ld rd ch : Tree α} {d : Nat}
    {xd : α} {tr' : Tree α} (H : ValidZ t q (.node cd ld d xd rd))
    (hch : (ld = .nil ∧ ch = rd) ∨ (rd = .nil ∧ ch = ld))
    (hr : removeZ q cd ch = some tr') :
    ∃ t6, removeNode t d = some { t6 with size := t6.size - 1 } ∧ Valid t6 tr' ∧
      SameMeta t t6 := by
  have e1 := leftOf_foc H
  have e2 := rightOf_foc H
  have hcond : ld.ptr = none ∨ rd.ptr = none := by
    rcases hch with ⟨h, -⟩ | ⟨h, -⟩
    · exact Or.inl (by rw [h, Tree.ptr_nil])
    · exact Or.inr (by rw [h, Tree.ptr_nil])
  have hchild : (if rd.ptr = none then ld.ptr else rd.ptr) = ch.ptr := by
    rcases hch with ⟨h, rfl⟩ | ⟨h, rfl⟩
    · subst h
      split
      · rename_i h'; rw [h', Tree.ptr_nil]
      · rfl
    · subst h
      simp only [Tree.ptr_nil, if_true]
  have hgc : getColor t ch.ptr = some ch.col := by
    rcases hch with ⟨-, rfl⟩ | ⟨-, rfl⟩
    · exact getColor_ptr (validZ_down (f := .R cd ld d xd) H)
    · exact getColor_ptr (validZ_down (f := .L cd d xd rd) H)
  -- the fix-up
  have h3 : ∃ t3 c3 q3, ((cd = Color.RED ∧ t3 = t) ∨ (cd = Color.BLACK ∧
        ∃ ta, setColor t d ch.col = some ta ∧ deleteCase1 ta.fuel ta d = some t3)) ∧
      ValidZ t3 q3 (.node c3 ld d xd rd) ∧ SameMeta t t3 ∧ tr' = spliceZ q3 ch := by
    cases cd with
    | RED =>
      simp only [removeZ, Option.some.injEq] at hr
      exact ⟨t, _, q, Or.inl ⟨rfl, rfl⟩, H, SameMeta.refl t, hr.symm⟩
    | BLACK =>
      simp only [removeZ] at hr
      cases hq : delFix q with
      | none => simp only [hq, reduceCtorEq] at hr
      | some q' =>
        simp only [hq, Option.some.injEq] at hr
        obtain ⟨ta, ea, Ha, ma⟩ := setColor_foc H ch.col
        have hf : q.length < ta.fuel := by
          have := validZ_card Ha
          simp only [RBTree.fuel]; omega
        obtain ⟨t3, e3, H3, m3⟩ := deleteCase1_foc ta.fuel q q' ta _ _ _ _ _ Ha hf hq
        exact ⟨t3, _, q', Or.inr ⟨rfl, ta, ea, e3⟩, H3, ma.trans m3, hr.symm⟩
  obtain ⟨t3, c3, q3, e3, H3, m3, rfl⟩ := h3
  obtain ⟨hdn, t4, e4, H4, n4, m4⟩ := splice_foc H3 hch
  have hcell := validZ_nodes_foc H3
  have e5 : parentOf t4 d = some (pathPar q3) := by
    simp only [parentOf, n4, hcell, Option.map_some']
  have h5 : ∃ t5, ((pathPar q3 = none ∧ ∃ c, ch.ptr = some c ∧
          setColor t4 c Color.BLACK = some t5) ∨
        (((∃ a, pathPar q3 = some a) ∨ ch.ptr = none) ∧ t5 = t4)) ∧
      ValidZ t5 q3 (if q3.length = 0 then ch.setCol Color.BLACK else ch) ∧
      t5.nodes d = t4.nodes d ∧ SameMeta t4 t5 := by
    cases q3 with
    | cons f q3 =>
      simp only [List.length_cons, Nat.add_one_ne_zero, if_false]
      exact ⟨t4, Or.inr ⟨Or.inl ⟨_, rfl⟩, rfl⟩, H4, rfl, SameMeta.refl t4⟩
    | nil =>
      cases ch with
      | nil =>
        simp only [List.length_nil, if_true, Tree.setCol]
        exact ⟨t4, Or.inr ⟨Or.inr rfl, rfl⟩, H4, rfl, SameMeta.refl t4⟩
      | node cc cl c xc cr =>
        simp only [List.length_nil, if_true, Tree.setCol]
        obtain ⟨t5, e5', H5, m5⟩ := setColor_foc H4 Color.BLACK
        have hdc : d ≠ c := by
          intro e
          apply hdn
          rw [e]
          simp [Tree.addrs]
        exact ⟨t5, Or.inl ⟨rfl, c, rfl, e5'⟩, H5, setColor_nodes_ne e5' hdc, m5⟩
  obtain ⟨t5, e5', H5, n5, m5⟩ := h5
  have hd5 : d ∉ (if q3.length = 0 then ch.setCol Color.BLACK else ch).addrs + pathAddrs q3 := by
    split
    · rw [Tree.setCol_addrs]; exact hdn
    · exact hdn
  obtain ⟨t6, e6, H6, m6⟩ := validZ_freeNode H5 ((n5.trans n4).trans hcell) hd5
  refine ⟨t6, ?_, ?_, ((m3.trans m4).trans m5).trans m6⟩
  · simp only [removeNode, e1, e2, if_pos hcond, hchild, getColor_node H, hgc]
    rcases e3 with ⟨rfl, rfl⟩ | ⟨rfl, ta, ea, e3⟩
    · rcases e5' with ⟨hp, c, hc, es⟩ | ⟨⟨a, hp⟩ | hc, rfl⟩
      · simp only [e4, e5, hp]
        simp only [hc, es, e6]
      · simp only [e4, e5, hp, e6]
      · simp only [e4, e5]
        simp only [hc]
        cases pathPar q3 <;> simp only [e6]
    · rcases e5' with ⟨hp, c, hc, es⟩ | ⟨⟨a, hp⟩ | hc, rfl⟩
      · simp only [ea, e3, e4, e5, hp]
        simp only [hc, es, e6]
      · simp only [ea, e3, e4, e5, hp, e6]
      · simp only [ea, e3, e4, e5]
        simp only [hc]
        cases pathPar q3 <;> simp only [e6]
  · rw [spliceZ_eq]
    exact (validZ_plug H6 :)

/-- The leftmost node found by `minZ` does not depend on the path above. -/
theorem minZ_append : ∀ (foc : Tree α) (p : Path α),
    minZ foc p = ((minZ foc []).1 ++ p, (minZ foc []).2) := by
  intro foc
  induction foc with
  | nil => intro p; rfl
  | node c l a x r ihl _ =>
    intro p
    cases l with
    | nil => rfl
    | node cl ll al xl rl =>
      show minZ (.node cl ll al xl rl) (.L c a x r :: p) =
        ((minZ (.node cl ll al xl rl) [.L c a x r]).1 ++ p,
          (minZ (.node cl ll al xl rl) [.L c a x r]).2)
      rw [ihl (.L c a x r :: p), ihl [.L c a x r]]
      simp only [List.append_assoc, List.singleton_append]

/-- Refinement of the body of `deleteFromRBTree` after the search: on a node
of a valid tree it returns, the memory holds the tree `deleteZ` computes, the
element of the node has been passed to `free`, and the size is one less. -/
theorem deleteNode_foc {t : RBTree α} {p : Path α} {c : Color} {l r : Tree α} {a : Nat} {x : α}
    {tr' : Tree α} (H : ValidZ t p (.node c l a x r))
    (hz : deleteZ p (.node c l a x r) = some tr') :
    ∃ t6, deleteNode t a = some { t6 with size := t6.size - 1 } ∧ Valid t6 tr' ∧
      SameMeta (freeData t (some x)) t6 := by
  have e1 := leftOf_foc H
  have e2 := rightOf_foc H
  have e3 := dataOf_foc H
  cases l with
  | nil =>
    simp only [deleteZ] at hz
    obtain ⟨t6, e6, H6, m6⟩ := removeNode_foc (validZ_freeData H (some x)) (Or.inl ⟨rfl, rfl⟩) hz
    refine ⟨t6, ?_, H6, m6⟩
    simp only [deleteNode, e1, e2, e3, Tree.ptr_nil, true_or, if_true, ne_eq, not_true_eq_false,
      false_and, if_false, e6]
  | node cl ll al xl rl =>
    cases r with
    | nil =>
      simp only [deleteZ] at hz
      obtain ⟨t6, e6, H6, m6⟩ :=
        removeNode_foc (validZ_freeData H (some x)) (Or.inr ⟨rfl, rfl⟩) hz
      refine ⟨t6, ?_, H6, m6⟩
      simp only [deleteNode, e1, e2, e3, Tree.ptr_nil, or_true, if_true, ne_eq,
        not_true_eq_false, and_false, if_false, e6]
    | node cr lr ar xr rr =>
      obtain ⟨pm1, cm, m, xm, rm, f1, g1, -, -, -⟩ :=
        minZ_spec (.node cr lr ar xr rr) (.R c (.node cl ll al xl rl) a x :: p) _ _ _ _ _ rfl
      have hM : (minZ (.node cr lr ar xr rr) []).2 = .node cm .nil m xm rm := by
        rw [minZ_append] at f1
        exact (Prod.mk.inj f1).2
      obtain ⟨pm2, cm', m', xm', rm', f2, g2, -, -, -⟩ :=
        minZ_spec (.node cr lr ar xr rr) (.R c (.node cl ll al xl rl) a xm :: p) _ _ _ _ _ rfl
      have hM' : Tree.node cm' .nil m' xm' rm' = .node cm .nil m xm rm := by
        have := f2
        rw [minZ_append] at this
        exact (Prod.mk.inj this).2.symm.trans hM
      rw [hM'] at f2 g2
      simp only [deleteZ, hM, f2] at hz
      -- the successor
      have es : successor t a = some (some m) := by
        rw [successor_foc H]
        simp only [succZ, f1, foundPtr, Tree.ptr_node]
      have H1 : ValidZ t pm1 (.node cm .nil m xm rm) := by
        apply validZ_unplug
        rw [g1]
        exact validZ_plug (validZ_down (f := .R c (.node cl ll al xl rl) a x) H)
      have ed : dataOf (freeData t (some x)) m = some (some xm) :=
        dataOf_foc (validZ_freeData H1 (some x))
      obtain ⟨tb, eb, Hb, mb⟩ := setData_foc (validZ_freeData H (some x)) xm
      have H2 : ValidZ tb pm2 (.node cm .nil m xm rm) := by
        apply validZ_unplug
        rw [g2]
        exact validZ_plug (validZ_down (f := .R c (.node cl ll al xl rl) a xm) Hb)
      obtain ⟨t6, e6, H6, m6⟩ := removeNode_foc H2 (Or.inl ⟨rfl, rfl⟩) hz
      refine ⟨t6, ?_, H6, mb.trans m6⟩
      simp only [deleteNode, e1, e2, e3, Tree.ptr_node, reduceCtorEq, or_self, if_false, ne_eq,
        not_false_eq_true, and_self, if_true, es, ed, eb, e6]

/-- What a red-black tree says about a subtree and the path around it. -/
theorem isRB_unplug : ∀ (p : Path α) (n : Tree α), (plug p n).isRB →
    n.noRedRed ∧ n.balanced ∧ PathRB p n.bh ∧ (pathCol p = Color.RED → n.col = Color.BLACK) ∧
      (p = [] → n.col = Color.BLACK) := by
  intro p
  induction p with
  | nil =>
    intro n h
    exact ⟨h.2.1, h.2.2, trivial, (fun hc => nomatch hc), fun _ => h.1⟩
  | cons f p ih =>
    intro n h
    obtain ⟨h1, h2, h3, h4, h5⟩ := ih (f.fill n) h
    have hpc : f.color = Color.RED → pathCol p = Color.BLACK := by
      intro hc
      rcases color_cases (pathCol p) with hq | hq
      · have := h4 hq
        rw [Frame.fill_col, hc] at this
        cases this
      · exact hq
    have hroot : p = [] → f.color = Color.BLACK := fun e => by
      have := h5 e
      rwa [Frame.fill_col] at this
    cases f with
    | L c a x r =>
      simp only [Frame.fill, Tree.noRedRed, Tree.balanced, Tree.bh, Frame.color] at h1 h2 h3 hpc hroot
      refine ⟨h1.2.1, h2.1, ⟨h1.2.2, h2.2.1, h2.2.2.symm, fun hc => ⟨(h1.1 hc).2, hpc hc⟩, hroot,
        h3⟩, fun hc => (h1.1 hc).1, fun e => nomatch e⟩
    | R c l a x =>
      simp only [Frame.fill, Tree.noRedRed, Tree.balanced, Tree.bh, Frame.color] at h1 h2 h3 hpc hroot
      refine ⟨h1.2.2, h2.2.1, ⟨h1.2.1, h2.1, h2.2.2, fun hc => ⟨(h1.1 hc).1, hpc hc⟩, hroot,
        ?_⟩, fun hc => (h1.1 hc).2, fun e => nomatch e⟩
      simp only [Frame.color]
      rw [← h2.2.2]
      exact h3

theorem Tree.col_red {n : Tree α} (h : n.col = Color.RED) :
    ∃ l a x r, n = .node Color.RED l a x r := by
  cases n with
  | nil => cases h
  | node c l a x r =>
    simp only [Tree.col] at h
    subst h
    exact ⟨l, a, x, r, rfl⟩

/-- A BLACK tree of positive black-height is a BLACK node. -/
theorem Tree.black_node {n : Tree α} {k : Nat} (h : n.col = Color.BLACK) (hk : n.bh = k + 1) :
    ∃ l a x r, n = .node Color.BLACK l a x r := by
  cases n with
  | nil => simp only [Tree.bh] at hk; omega
  | node c l a x r =>
    simp only [Tree.col] at h
    subst h
    exact ⟨l, a, x, r, rfl⟩

theorem not_both_black {cp : Color} {Sl Sr : Tree α}
    (h3 : ¬ (cp = Color.BLACK ∧ Sl.col = Color.BLACK ∧ Sr.col = Color.BLACK))
    (h4 : ¬ (cp = Color.RED ∧ Sl.col = Color.BLACK ∧ Sr.col = Color.BLACK)) :
    Sl.col = Color.RED ∨ Sr.col = Color.RED := by
  rcases color_cases Sl.col with h | h
  · exact Or.inl h
  · rcases color_cases Sr.col with h' | h'
    · exact Or.inr h'
    · rcases color_cases cp with hc | hc
      · exact absurd ⟨hc, h, h'⟩ h4
      · exact absurd ⟨hc, h, h'⟩ h3

/-- Cases 4 to 6 for a left child repair a black-height that is one short. -/
theorem delCase456L_rb (cp : Color) (ap : Nat) (xp : α) (Sl : Tree α) (s : Nat) (xs : α)
    (Sr : Tree α) (p : Path α) (k : Nat)
    (hn1 : Sl.noRedRed) (hn2 : Sr.noRedRed) (hb1 : Sl.balanced) (hb2 : Sr.balanced)
    (hk1 : Sl.bh = k) (hk2 : Sr.bh = k)
    (hp : PathRB p (k + 1 + (if cp = Color.BLACK then 1 else 0)))
    (hred : cp = Color.RED → pathCol p = Color.BLACK) (hroot : p = [] → cp = Color.BLACK)
    (hnot : ¬ (cp = Color.BLACK ∧ Sl.col = Color.BLACK ∧ Sr.col = Color.BLACK)) :
    ∃ p', delCase456L cp ap xp Sl s xs Sr p = some p' ∧ PathRB p' k ∧
      pathCol p' = Color.BLACK := by
  unfold delCase456L
  by_cases h4 : cp = Color.RED ∧ Sl.col = Color.BLACK ∧ Sr.col = Color.BLACK
  · rw [if_pos h4]
    obtain ⟨rfl, hl, hr⟩ := h4
    simp only [reduceCtorEq, if_false, Nat.add_zero] at hp
    refine ⟨_, rfl, ⟨⟨fun _ => ⟨hl, hr⟩, hn1, hn2⟩, ⟨hb1, hb2, hk1.trans hk2.symm⟩, ?_,
      (fun hc => nomatch hc), fun _ => rfl, ?_⟩, rfl⟩
    · simp only [Frame.sib, Tree.bh, reduceCtorEq, if_false, Nat.add_zero]; exact hk1
    · simp only [Frame.color, if_true]; exact hp
  · rw [if_neg h4]
    unfold delCase56L
    by_cases h5 : Sl.col = Color.RED ∧ Sr.col = Color.BLACK
    · rw [if_pos h5]
      obtain ⟨Sll, sl, xsl, Slr, rfl⟩ := Tree.col_red h5.1
      simp only [Tree.noRedRed, Tree.balanced, Tree.bh, reduceCtorEq, if_false, Nat.add_zero,
        true_implies] at hn1 hb1 hk1
      refine ⟨_, rfl, ⟨hn1.2.1, hb1.1, hk1, (fun hc => nomatch hc), (fun e => nomatch e),
        ⟨(fun hc => nomatch hc), hn1.2.2, hn2⟩, ⟨hb1.2.1, hb2, ?_⟩, ?_,
        fun hc => ⟨rfl, hred hc⟩, hroot, ?_⟩, rfl⟩
      · rw [← hb1.2.2, hk1, hk2]
      · simp only [Frame.sib, Tree.bh, Frame.color, if_true]; rw [← hb1.2.2, hk1]
      · simp only [Frame.color, if_true]; exact hp
    · rw [if_neg h5]
      have hr : Sr.col = Color.RED := by
        rcases not_both_black hnot h4 with h | h
        · rcases color_cases Sr.col with h' | h'
          · exact h'
          · exact absurd ⟨h, h'⟩ h5
        · exact h
      obtain ⟨Srl, sr, xsr, Srr, rfl⟩ := Tree.col_red hr
      simp only [Tree.noRedRed, Tree.balanced, Tree.bh, reduceCtorEq, if_false, Nat.add_zero,
        true_implies] at hn2 hb2 hk2
      refine ⟨_, rfl, ⟨hn1, hb1, hk1, (fun hc => nomatch hc), (fun e => nomatch e),
        ⟨(fun hc => nomatch hc), hn2.2.1, hn2.2.2⟩, ⟨hb2.1, hb2.2.1, hb2.2.2⟩, ?_,
        fun hc => ⟨rfl, hred hc⟩, hroot, ?_⟩, rfl⟩
      · simp only [Frame.sib, Tree.bh, Frame.color, if_true]; rw [hk2]
      · simp only [Frame.color, if_true]; exact hp

/-- Cases 4 to 6 for a right child repair a black-height that is one short. -/
theorem delCase456R_rb (cp : Color) (ap : Nat) (xp : α) (Sl : Tree α) (s : Nat) (xs : α)
    (Sr : Tree α) (p : Path α) (k : Nat)
    (hn1 : Sl.noRedRed) (hn2 : Sr.noRedRed) (hb1 : Sl.balanced) (hb2 : Sr.balanced)
    (hk1 : Sl.bh = k) (hk2 : Sr.bh = k)
    (hp : PathRB p (k + 1 + (if cp = Color.BLACK then 1 else 0)))
    (hred : cp = Color.RED → pathCol p = Color.BLACK) (hroot : p = [] → cp = Color.BLACK)
    (hnot : ¬ (cp = Color.BLACK ∧ Sl.col = Color.BLACK ∧ Sr.col = Color.BLACK)) :
    ∃ p', delCase456R cp ap xp Sl s xs Sr p = some p' ∧ PathRB p' k ∧
      pathCol p' = Color.BLACK := by
  unfold delCase456R
  by_cases h4 : cp = Color.RED ∧ Sl.col = Color.BLACK ∧ Sr.col = Color.BLACK
  · rw [if_pos h4]
    obtain ⟨rfl, hl, hr⟩ := h4
    simp only [reduceCtorEq, if_false, Nat.add_zero] at hp
    refine ⟨_, rfl, ⟨⟨fun _ => ⟨hl, hr⟩, hn1, hn2⟩, ⟨hb1, hb2, hk1.trans hk2.symm⟩, ?_,
      (fun hc => nomatch hc), fun _ => rfl, ?_⟩, rfl⟩
    · simp only [Frame.sib, Tree.bh, reduceCtorEq, if_false, Nat.add_zero]; exact hk1
    · simp only [Frame.color, if_true]; exact hp
  · rw [if_neg h4]
    unfold delCase56R
    by_cases h5 : Sr.col = Color.RED ∧ Sl.col = Color.BLACK
    · rw [if_pos h5]
      obtain ⟨Srl, sr, xsr, Srr, rfl⟩ := Tree.col_red h5.1
      simp only [Tree.noRedRed, Tree.balanced, Tree.bh, reduceCtorEq, if_false, Nat.add_zero,
        true_implies] at hn2 hb2 hk2
      refine ⟨_, rfl, ⟨hn2.2.2, hb2.2.1, ?_, (fun hc => nomatch hc), (fun e => nomatch e),
        ⟨(fun hc => nomatch hc), hn1, hn2.2.1⟩, ⟨hb1, hb2.1, ?_⟩, ?_,
        fun hc => ⟨rfl, hred hc⟩, hroot, ?_⟩, rfl⟩
      · simp only [Frame.sib]; rw [← hb2.2.2, hk2]
      · rw [hk1, hk2]
      · simp only [Frame.sib, Tree.bh, Frame.color, if_true]; rw [hk1]
      · simp only [Frame.color, if_true]; exact hp
    · rw [if_neg h5]
      have hl : Sl.col = Color.RED := by
        rcases not_both_black hnot h4 with h | h
        · exact h
        · rcases color_cases Sl.col with h' | h'
          · exact h'
          · exact absurd ⟨h, h'⟩ h5
      obtain ⟨Sll, sl, xsl, Slr, rfl⟩ := Tree.col_red hl
      simp only [Tree.noRedRed, Tree.balanced, Tree.bh, reduceCtorEq, if_false, Nat.add_zero,
        true_implies] at hn1 hb1 hk1
      refine ⟨_, rfl, ⟨hn2, hb2, hk2, (fun hc => nomatch hc), (fun e => nomatch e),
        ⟨(fun hc => nomatch hc), hn1.2.1, hn1.2.2⟩, ⟨hb1.1, hb1.2.1, hb1.2.2⟩, ?_,
        fun hc => ⟨rfl, hred hc⟩, hroot, ?_⟩, rfl⟩
      · simp only [Frame.sib, Tree.bh, Frame.color, if_true]; rw [hk1]
      · simp only [Frame.color, if_true]; exact hp

/-- The deletion fix-up on a path whose hole is one BLACK node short: it
returns, the path afterwards takes a subtree of the lower black-height, and
the node right above the hole is BLACK. -/
theorem delFix_rb : ∀ (p : Path α) (k : Nat), PathRB p (k + 1) →
    ∃ p', delFix p = some p' ∧ PathRB p' k ∧ pathCol p' = Color.BLACK := by
  intro p
  induction p with
  | nil => intro k _; exact ⟨[], rfl, trivial, rfl⟩
  | cons f p ih =>
    intro k hp
    obtain ⟨q1, q2, q3, q4, q5, q6⟩ := hp
    cases f with
    | L cp ap xp S =>
      simp only [Frame.sib, Frame.color] at q1 q2 q3 q4 q5 q6
      cases S with
      | nil => simp only [Tree.bh] at q3; omega
      | node cs Sl s xs Sr =>
        cases cs with
        | RED =>
          simp only [Tree.noRedRed, Tree.balanced, Tree.bh, reduceCtorEq, if_false,
            Nat.add_zero, true_implies, Tree.col] at q1 q2 q3 q4
          have hcp : cp = Color.BLACK := by
            rcases color_cases cp with h | h
            · exact absurd (q4 h).1 (by simp)
            · exact h
          subst hcp
          obtain ⟨Sll, sl, xsl, Slr, rfl⟩ := Tree.black_node q1.1.1 q3
          simp only [Tree.noRedRed, Tree.balanced, Tree.bh, if_true, Nat.add_right_cancel_iff]
            at q1 q2 q3
          simp only [if_true] at q6
          simp only [delFix]
          refine delCase456L_rb Color.RED ap xp Sll sl xsl Slr _ k q1.2.1.2.1 q1.2.1.2.2
            q2.1.1 q2.1.2.1 q3 (by rw [← q2.1.2.2, q3]) ?_ (fun _ => rfl) (fun e => nomatch e)
            (fun h => nomatch h.1)
          simp only [reduceCtorEq, if_false, Nat.add_zero]
          refine ⟨q1.2.2, q2.2.1, ?_, (fun hc => nomatch hc), fun _ => rfl, ?_⟩
          · simp only [Frame.sib]; rw [← q2.2.2, q3]
          · simp only [Frame.color, if_true]; exact q6
        | BLACK =>
          simp only [Tree.noRedRed, Tree.balanced, Tree.bh, if_true,
            Nat.add_right_cancel_iff] at q1 q2 q3
          simp only [delFix]
          by_cases h3 : cp = Color.BLACK ∧ Sl.col = Color.BLACK ∧ Sr.col = Color.BLACK
          · rw [if_pos h3]
            obtain ⟨rfl, hl, hr⟩ := h3
            simp only [if_true] at q6
            obtain ⟨p', e, hp', hc'⟩ := ih (k + 1) q6
            rw [e]
            refine ⟨_, rfl, ⟨⟨fun _ => ⟨hl, hr⟩, q1.2.1, q1.2.2⟩, q2, ?_,
              (fun hc => nomatch hc), fun _ => rfl, ?_⟩, rfl⟩
            · simp only [Frame.sib, Tree.bh, reduceCtorEq, if_false, Nat.add_zero]; exact q3
            · simp only [Frame.color, if_true]; exact hp'
          · rw [if_neg h3]
            exact delCase456L_rb cp ap xp Sl s xs Sr p k q1.2.1 q1.2.2 q2.1 q2.2.1 q3
              (by rw [← q2.2.2, q3]) q6 (fun h => (q4 h).2) q5 h3
    | R cp S ap xp =>
      simp only [Frame.sib, Frame.color] at q1 q2 q3 q4 q5 q6
      cases S with
      | nil => simp only [Tree.bh] at q3; omega
      | node cs Sl s xs Sr =>
        cases cs with
        | RED =>
          simp only [Tree.noRedRed, Tree.balanced, Tree.bh, reduceCtorEq, if_false,
            Nat.add_zero, true_implies, Tree.col] at q1 q2 q3 q4
          have hcp : cp = Color.BLACK := by
            rcases color_cases cp with h | h
            · exact absurd (q4 h).1 (by simp)
            · exact h
          subst hcp
          have q3r : Sr.bh = k + 1 := by rw [← q2.2.2, q3]
          obtain ⟨Srl, sr, xsr, Srr, rfl⟩ := Tree.black_node q1.1.2 q3r
          simp only [Tree.noRedRed, Tree.balanced, Tree.bh, if_true, Nat.add_right_cancel_iff]
            at q1 q2 q3r
          simp only [if_true] at q6
          simp only [delFix]
          refine delCase456R_rb Color.RED ap xp Srl sr xsr Srr _ k q1.2.2.2.1 q1.2.2.2.2
            q2.2.1.1 q2.2.1.2.1 q3r (by rw [← q2.2.1.2.2, q3r]) ?_ (fun _ => rfl)
            (fun e => nomatch e) (fun h => nomatch h.1)
          simp only [reduceCtorEq, if_false, Nat.add_zero]
          refine ⟨q1.2.1, q2.1, ?_, (fun hc => nomatch hc), fun _ => rfl, ?_⟩
          · simp only [Frame.sib]; exact q3
          · simp only [Frame.color, if_true]; exact q6
        | BLACK =>
          simp only [Tree.noRedRed, Tree.balanced, Tree.bh, if_true,
            Nat.add_right_cancel_iff] at q1 q2 q3
          simp only [delFix]
          by_cases h3 : cp = Color.BLACK ∧ Sl.col = Color.BLACK ∧ Sr.col = Color.BLACK
          · rw [if_pos h3]
            obtain ⟨rfl, hl, hr⟩ := h3
            simp only [if_true] at q6
            obtain ⟨p', e, hp', hc'⟩ := ih (k + 1) q6
            rw [e]
            refine ⟨_, rfl, ⟨⟨fun _ => ⟨hl, hr⟩, q1.2.1, q1.2.2⟩, q2, ?_,
              (fun hc => nomatch hc), fun _ => rfl, ?_⟩, rfl⟩
            · simp only [Frame.sib, Tree.bh, reduceCtorEq, if_false, Nat.add_zero]; exact q3
            · simp only [Frame.color, if_true]; exact hp'
          · rw [if_neg h3]
            exact delCase456R_rb cp ap xp Sl s xs Sr p k q1.2.1 q1.2.2 q2.1 q2.2.1 q3
              (by rw [← q2.2.2, q3]) q6 (fun h => (q4 h).2) q5 h3

theorem delCase456L_elems {cp : Color} {ap : Nat} {xp : α} {Sl : Tree α} {s : Nat} {xs : α}
    {Sr : Tree α} {p p' : Path α} (h : delCase456L cp ap xp Sl s xs Sr p = some p') :
    pathBefore p' = pathBefore p ∧
      pathAfter p' = xp :: (Sl.elems ++ xs :: Sr.elems) ++ pathAfter p := by
  unfold delCase456L at h
  split at h
  · simp only [Option.some.injEq] at h
    subst h
    simp only [pathBefore, pathAfter, Tree.elems, and_self]
  · unfold delCase56L at h
    split at h
    · cases Sl with
      | nil => simp only [reduceCtorEq] at h
      | node c Sll sl xsl Slr =>
        simp only [Option.some.injEq] at h
        subst h
        simp only [pathBefore, pathAfter, Tree.elems, List.append_assoc, List.cons_append,
          and_self]
    · cases Sr with
      | nil => simp only [reduceCtorEq] at h
      | node c Srl sr xsr Srr =>
        simp only [Option.some.injEq] at h
        subst h
        simp only [pathBefore, pathAfter, Tree.elems, List.append_assoc, List.cons_append,
          and_self]

theorem delCase456R_elems {cp : Color} {ap : Nat} {xp : α} {Sl : Tree α} {s : Nat} {xs : α}
    {Sr : Tree α} {p p' : Path α} (h : delCase456R cp ap xp Sl s xs Sr p = some p') :
    pathBefore p' = pathBefore p ++ ((Sl.elems ++ xs :: Sr.elems) ++ [xp]) ∧
      pathAfter p' = pathAfter p := by
  unfold delCase456R at h
  split at h
  · simp only [Option.some.injEq] at h
    subst h
    simp only [pathBefore, pathAfter, Tree.elems, and_self]
  · unfold delCase56R at h
    split at h
    · cases Sr with
      | nil => simp only [reduceCtorEq] at h
      | node c Srl sr xsr Srr =>
        simp only [Option.some.injEq] at h
        subst h
        simp only [pathBefore, pathAfter, Tree.elems, List.append_assoc, List.cons_append,
          List.nil_append, and_self]
    · cases Sl with
      | nil => simp only [reduceCtorEq] at h
      | node c Sll sl xsl Slr =>
        simp only [Option.some.injEq] at h
        subst h
        simp only [pathBefore, pathAfter, Tree.elems, List.append_assoc, List.cons_append,
          List.nil_append, and_self]

/-- The deletion fix-up keeps the in-order sequence around the hole. -/
theorem delFix_elems : ∀ (p p' : Path α), delFix p = some p' →
    pathBefore p' = pathBefore p ∧ pathAfter p' = pathAfter p := by
  intro p
  induction p with
  | nil =>
    intro p' h
    simp only [delFix, Option.some.injEq] at h
    subst h
    exact ⟨rfl, rfl⟩
  | cons f p ih =>
    intro p' h
    cases f with
    | L cp ap xp S =>
      cases S with
      | nil => simp only [delFix, reduceCtorEq] at h
      | node cs Sl s xs Sr =>
        cases cs with
        | RED =>
          cases Sl with
          | nil => simp only [delFix, reduceCtorEq] at h
          | node cl Sll sl xsl Slr =>
            cases cl with
            | RED => simp only [delFix, reduceCtorEq] at h
            | BLACK =>
              simp only [delFix] at h
              obtain ⟨h1, h2⟩ := delCase456L_elems h
              rw [h1, h2]
              simp only [pathBefore, pathAfter, Tree.elems, List.append_assoc, List.cons_append,
                and_self]
        | BLACK =>
          simp only [delFix] at h
          split at h
          · cases hq : delFix p with
            | none => simp only [hq, reduceCtorEq] at h
            | some q =>
              simp only [hq, Option.some.injEq] at h
              subst h
              obtain ⟨h1, h2⟩ := ih q hq
              simp only [pathBefore, pathAfter, Tree.elems, h1, h2, and_self]
          · obtain ⟨h1, h2⟩ := delCase456L_elems h
            rw [h1, h2]
            simp only [pathBefore, pathAfter, Tree.elems, and_self]
    | R cp S ap xp =>
      cases S with
      | nil => simp only [delFix, reduceCtorEq] at h
      | node cs Sl s xs Sr =>
        cases cs with
        | RED =>
          cases Sr with
          | nil => simp only [delFix, reduceCtorEq] at h
          | node cr Srl sr xsr Srr =>
            cases cr with
            | RED => simp only [delFix, reduceCtorEq] at h
            | BLACK =>
              simp only [delFix] at h
              obtain ⟨h1, h2⟩ := delCase456R_elems h
              rw [h1, h2]
              simp only [pathBefore, pathAfter, Tree.elems, List.append_assoc, List.cons_append,
                List.nil_append, and_self]
        | BLACK =>
          simp only [delFix] at h
          split at h
          · cases hq : delFix p with
            | none => simp only [hq, reduceCtorEq] at h
            | some q =>
              simp only [hq, Option.some.injEq] at h
              subst h
              obtain ⟨h1, h2⟩ := ih q hq
              simp only [pathBefore, pathAfter, Tree.elems, h1, h2, and_self]
          · obtain ⟨h1, h2⟩ := delCase456R_elems h
            rw [h1, h2]
            simp only [pathBefore, pathAfter, Tree.elems, and_self]

theorem spliceZ_elems (q : Path α) (ch : Tree α) :
    (spliceZ q ch).elems = pathBefore q ++ ch.elems ++ pathAfter q := by
  rw [spliceZ_eq, plug_elems]
  split
  · rw [Tree.setCol_elems]
  · rfl

theorem removeZ_elems {q : Path α} {cd : Color} {ch tr' : Tree α}
    (h : removeZ q cd ch = some tr') :
    tr'.elems = pathBefore q ++ ch.elems ++ pathAfter q := by
  cases cd with
  | RED =>
    simp only [removeZ, Option.some.injEq] at h
    subst h
    exact spliceZ_elems q ch
  | BLACK =>
    simp only [removeZ] at h
    cases hq : delFix q with
    | none => simp only [hq, reduceCtorEq] at h
    | some q' =>
      simp only [hq, Option.some.injEq] at h
      subst h
      obtain ⟨h1, h2⟩ := delFix_elems q q' hq
      rw [spliceZ_elems, h1, h2]

theorem Tree.black_bh_zero {n : Tree α} (h : n.col = Color.BLACK) (hk : n.bh = 0) :
    n = .nil := by
  cases n with
  | nil => rfl
  | node c l a x r =>
    simp only [Tree.col] at h
    subst h
    simp only [Tree.bh, if_true] at hk
    omega

theorem Tree.setCol_black_isRB {n : Tree α} (h1 : n.noRedRed) (h2 : n.balanced) :
    (n.setCol Color.BLACK).isRB := by
  cases n with
  | nil => exact ⟨rfl, trivial, trivial⟩
  | node c l a x r => exact ⟨rfl, ⟨(fun hc => nomatch hc), h1.2.1, h1.2.2⟩, h2⟩

/-- Removing a node with at most one child from a red-black tree leaves a
red-black tree. -/
theorem removeZ_rb {q : Path α} {cd : Color} {ld rd ch : Tree α} {d : Nat} {xd : α}
    (h : (plug q (.node cd ld d xd rd)).isRB)
    (hch : (ld = .nil ∧ ch = rd) ∨ (rd = .nil ∧ ch = ld)) :
    ∃ tr', removeZ q cd ch = some tr' ∧ tr'.isRB := by
  obtain ⟨h1, h2, h3, h4, h5⟩ := isRB_unplug q _ h
  simp only [Tree.noRedRed, Tree.balanced, Tree.bh, Tree.col] at h1 h2 h3 h4 h5
  have hl0 : ld.bh = 0 := by
    rcases hch with ⟨rfl, -⟩ | ⟨rfl, -⟩
    · rfl
    · rw [h2.2.2]; rfl
  have hc0 : ch.bh = 0 := by
    rcases hch with ⟨-, rfl⟩ | ⟨-, rfl⟩
    · rw [← h2.2.2]; exact hl0
    · exact hl0
  have hcn : ch.noRedRed := by
    rcases hch with ⟨-, rfl⟩ | ⟨-, rfl⟩
    · exact h1.2.2
    · exact h1.2.1
  have hcb : ch.balanced := by
    rcases hch with ⟨-, rfl⟩ | ⟨-, rfl⟩
    · exact h2.2.1
    · exact h2.1
  have hcc : cd = Color.RED → ch.col = Color.BLACK := by
    intro hc
    rcases hch with ⟨-, rfl⟩ | ⟨-, rfl⟩
    · exact (h1.1 hc).2
    · exact (h1.1 hc).1
  rw [hl0] at h3
  cases cd with
  | RED =>
    have hnil := Tree.black_bh_zero (hcc rfl) hc0
    subst hnil
    simp only [reduceCtorEq, if_false, Nat.add_zero] at h3
    refine ⟨_, rfl, ?_⟩
    rw [spliceZ_eq]
    have : (if q.length = 0 then (Tree.nil : Tree α).setCol Color.BLACK else Tree.nil)
        = Tree.nil := by
      split <;> rfl
    rw [this]
    exact PathRB.plug q 0 .nil h3 trivial trivial rfl (fun _ => rfl) (fun _ => rfl)
  | BLACK =>
    simp only [if_true, Nat.zero_add] at h3
    obtain ⟨q', e, hp', hc'⟩ := delFix_rb q 0 h3
    refine ⟨spliceZ q' ch, by simp only [removeZ, e], ?_⟩
    rw [spliceZ_eq]
    split
    · rename_i hq
      have : q' = [] := List.length_eq_zero.1 hq
      subst this
      exact Tree.setCol_black_isRB hcn hcb
    · rename_i hq
      refine PathRB.plug q' 0 ch hp' hcn hcb hc0 (fun hr => ?_) (fun e' => ?_)
      · rw [hc'] at hr; cases hr
      · subst e'; exact absurd rfl hq

/-- The red-black conditions do not look at the elements. -/
theorem isRB_setElem {p : Path α} {c : Color} {l r : Tree α} {a : Nat} {x : α} (y : α)
    (h : (plug p (.node c l a x r)).isRB) : (plug p (.node c l a y r)).isRB := by
  obtain ⟨h1, h2, h3, h4, h5⟩ := isRB_unplug p _ h
  exact PathRB.plug p _ (.node c l a y r) h3 h1 h2 rfl h4 h5

/-- Deleting a node from a red-black tree: `deleteZ` returns and the tree it
gives is a red-black tree. -/
theorem deleteZ_rb {p : Path α} {c : Color} {l r : Tree α} {a : Nat} {x : α}
    (h : (plug p (.node c l a x r)).isRB) :
    ∃ tr', deleteZ p (.node c l a x r) = some tr' ∧ tr'.isRB := by
  cases l with
  | nil =>
    simp only [deleteZ]
    exact removeZ_rb h (Or.inl ⟨rfl, rfl⟩)
  | node cl ll al xl rl =>
    cases r with
    | nil =>
      simp only [deleteZ]
      exact removeZ_rb h (Or.inr ⟨rfl, rfl⟩)
    | node cr lr ar xr rr =>
      obtain ⟨pm0, cm, m, xm, rm, f0, -, -, -, -⟩ :=
        minZ_spec (.node cr lr ar xr rr) ([] : Path α) _ _ _ _ _ rfl
      obtain ⟨pm2, cm', m', xm', rm', f2, g2, -, -, -⟩ :=
        minZ_spec (.node cr lr ar xr rr) (.R c (.node cl ll al xl rl) a xm :: p) _ _ _ _ _ rfl
      have hM : (minZ (.node cr lr ar xr rr) []).2 = .node cm .nil m xm rm := by rw [f0]
      have hM' : Tree.node cm' .nil m' xm' rm' = .node cm .nil m xm rm := by
        have := f2
        rw [minZ_append] at this
        exact (Prod.mk.inj this).2.symm.trans hM
      rw [hM'] at f2 g2
      simp only [deleteZ, hM, f2]
      have hrb2 : (plug pm2 (.node cm .nil m xm rm)).isRB := by
        rw [g2]
        exact isRB_setElem xm h
      exact removeZ_rb hrb2 (Or.inl ⟨rfl, rfl⟩)

/-- The elements after a deletion: those before, without the element of the
node that was searched for. -/
theorem deleteZ_elems {p : Path α} {c : Color} {l r : Tree α} {a : Nat} {x : α} {tr' : Tree α}
    (h : deleteZ p (.node c l a x r) = some tr') :
    tr'.elems = pathBefore p ++ (l.elems ++ r.elems) ++ pathAfter p := by
  cases l with
  | nil =>
    simp only [deleteZ] at h
    rw [removeZ_elems h]
    simp only [Tree.elems, List.nil_append]
  | node cl ll al xl rl =>
    cases r with
    | nil =>
      simp only [deleteZ] at h
      rw [removeZ_elems h]
      simp only [Tree.elems, List.append_nil]
    | node cr lr ar xr rr =>
      obtain ⟨pm0, cm, m, xm, rm, f0, -, -, -, -⟩ :=
        minZ_spec (.node cr lr ar xr rr) ([] : Path α) _ _ _ _ _ rfl
      obtain ⟨pm2, cm', m', xm', rm', f2, -, g3, g4, -⟩ :=
        minZ_spec (.node cr lr ar xr rr) (.R c (.node cl ll al xl rl) a xm :: p) _ _ _ _ _ rfl
      have hM : (minZ (.node cr lr ar xr rr) []).2 = .node cm .nil m xm rm := by rw [f0]
      have hM' : Tree.node cm' .nil m' xm' rm' = .node cm .nil m xm rm := by
        have := f2
        rw [minZ_append] at this
        exact (Prod.mk.inj this).2.symm.trans hM
      simp only [Tree.node.injEq] at hM'
      obtain ⟨-, -, -, rfl, rfl⟩ := hM'
      simp only [deleteZ, hM, f2] at h
      rw [removeZ_elems h, g4]
      simp only [pathBefore, pathAfter, List.append_assoc, List.cons_append, List.nil_append]
        at g3 ⊢
      rw [g3]

theorem intCmp_strictTotal : StrictTotal intCmp :=
  ⟨fun a b => by unfold intCmp; omega, fun a b => by unfold intCmp; omega,
    fun a b c => by unfold intCmp; omega⟩

theorem Holds.redBlack {cmp : α → α → Int} {t : RBTree α} {es : List α} (h : Holds cmp t es) :
    t.redBlack := by
  obtain ⟨tr, hv, ⟨h1, h2, h3⟩, -⟩ := h
  exact ⟨tr, hv, h1, h2, (Tree.balanced_iff tr).1 h3⟩

theorem holds_newRBTree (cmp : α → α → Int) (freeFunc : Bool) :
    Holds cmp (newRBTree (some cmp) freeFunc) [] :=
  ⟨.nil, ⟨rfl, trivial, trivial, Multiset.nodup_zero, fun _ h => absurd h (by simp [Tree.addrs,
    pathAddrs])⟩, ⟨rfl, trivial, trivial⟩, List.Pairwise.nil, rfl, rfl, rfl⟩

/-- Inserting an element that is present fails and changes nothing. -/
theorem insert_present {cmp : α → α → Int} (hc : StrictTotal cmp) {t : RBTree α} {tr : Tree α}
    (hv : Valid t tr) (ho : tr.ordered cmp) (hcf : t.compFunc = some cmp) {x : α}
    (hx : x ∈ tr.elems) : insertToRBTree (some t) (some x) = some (false, some t) := by
  have e0 := RBTreeContains_valid hv hcf x
  cases hs : searchZ cmp x tr [] with
  | none => exact absurd hx ((searchZ_none_iff hc x tr [] ho).1 hs)
  | some z =>
    rw [hs] at e0
    simp only [insertToRBTree, e0, Option.isSome_some]

/-- Inserting an absent element succeeds and keeps the tree a red-black
search tree, now holding the element as well. -/
theorem insert_absent {cmp : α → α → Int} (hc : StrictTotal cmp) {t : RBTree α} {es : List α}
    (h : Holds cmp t es) {x : α} (hx : x ∉ es) :
    ∃ t' es', insertToRBTree (some t) (some x) = some (true, some t') ∧ Holds cmp t' es' ∧
      (∀ y, y ∈ es' ↔ y = x ∨ y ∈ es) ∧ t'.size = t.size + 1 ∧
      t'.freed = t.freed ∧ t'.destroyed = t.destroyed ∧ t'.freeFunc = t.freeFunc := by
  obtain ⟨tr, hv, hrb, ho, he, hcf, hsz⟩ := h
  subst he
  have hs := (searchZ_none_iff hc x tr [] ho).2 hx
  obtain ⟨tr', hi, hrb'⟩ := insertT_rb cmp tr t.next x hrb
  obtain ⟨t', e, hv', s1, s2, s3, s4, s5, s6⟩ := insertToRBTree_valid hv hcf x hs hi
  obtain ⟨o1, o2, o3⟩ := insertT_ordered hc ho hx hi
  exact ⟨t', tr'.elems, e, ⟨tr', hv', hrb', o1, rfl, s2.trans hcf, by rw [s1, o3, hsz]⟩, o2, s1,
    s5, s6, s3⟩

/-- Every `insertToRBTree` call on a red-black search tree returns, and leaves
a red-black search tree. -/
theorem insert_holds {cmp : α → α → Int} (hc : StrictTotal cmp) {t : RBTree α}
    {es : List α} (h : Holds cmp t es) (x : α) :
    ∃ b t' es', insertToRBTree (some t) (some x) = some (b, some t') ∧ Holds cmp t' es' := by
  by_cases hx : x ∈ es
  · obtain ⟨tr, hv, hrb, ho, he, hcf, hsz⟩ := h
    subst he
    exact ⟨false, t, _, insert_present hc hv ho hcf hx, tr, hv, hrb, ho, rfl, hcf, hsz⟩
  · obtain ⟨t', es', e, h', -⟩ := insert_absent hc h hx
    exact ⟨true, t', es', e, h'⟩

theorem insertSeq_holds {cmp : α → α → Int} (hc : StrictTotal cmp) (xs : List α) :
    ∀ (t : RBTree α) (es : List α), Holds cmp t es →
      ∃ ts, insertSeq t xs = some ts ∧ ts.length = xs.length ∧ ∀ t' ∈ ts, ∃ es', Holds cmp t' es' := by
  induction xs with
  | nil => intro t es _; exact ⟨[], rfl, rfl, fun _ h => absurd h (List.not_mem_nil _)⟩
  | cons x xs ih =>
    intro t es h
    obtain ⟨b, t', es', e, h'⟩ := insert_holds hc h x
    obtain ⟨ts, e2, l2, h2⟩ := ih t' es' h'
    refine ⟨t' :: ts, by simp only [insertSeq, e, e2], by simp only [List.length_cons, l2], ?_⟩
    intro t'' ht
    simp only [List.mem_cons] at ht
    rcases ht with rfl | ht
    · exact ⟨es', h'⟩
    · exact h2 t'' ht

/-- C1. For every sequence of `insertToRBTree` calls applied to the empty tree
of a strict total order comparator, every call returns and the tree after
each call satisfies the red-black invariants: BLACK root, no RED node with a
RED child, the same number of BLACK nodes on every path from the root to a
null leaf. -/
theorem insert_sequence_redBlack (cmp : α → α → Int) (hc : StrictTotal cmp)
    (freeFunc : Bool) (xs : List α) :
    ∃ ts, insertSeq (newRBTree (some cmp) freeFunc) xs = some ts ∧ ts.length = xs.length ∧
      ∀ t ∈ ts, t.redBlack := by
  obtain ⟨ts, e, l, h⟩ := insertSeq_holds hc xs _ _ (holds_newRBTree cmp freeFunc)
  exact ⟨ts, e, l, fun t ht => (h t ht).choose_spec.redBlack⟩

theorem insert_sequence_redBlack_witness :
    StrictTotal intCmp ∧ ∃ ts, insertSeq (newRBTree (some intCmp) true) [3, 1, 4, 1, 5] = some ts ∧
      ts.length = [(3 : Int), 1, 4, 1, 5].length ∧ ∀ t ∈ ts, t.redBlack :=
  ⟨intCmp_strictTotal, insert_sequence_redBlack intCmp intCmp_strictTotal true [3, 1, 4, 1, 5]⟩

/-- A search for an element that compares equal to no stored element fails. -/
theorem searchZ_absent (cmp : α → α → Int) (x : α) : ∀ (tr : Tree α) (p : Path α),
    (∀ y ∈ tr.elems, cmp y x ≠ 0) → searchZ cmp x tr p = none := by
  intro tr
  induction tr with
  | nil => intro p _; rfl
  | node c l a y r ihl ihr =>
    intro p h
    have hy : cmp y x ≠ 0 := h y (by simp [Tree.elems])
    simp only [searchZ, if_neg hy]
    split
    · exact ihr _ (fun z hz => h z (by simp [Tree.elems, hz]))
    · exact ihl _ (fun z hz => h z (by simp [Tree.elems, hz]))

theorem findNodeToDelete_valid {t : RBTree α} {tr : Tree α} {cmp : α → α → Int}
    (H : Valid t tr) (hc : t.compFunc = some cmp) (x : α) :
    findNodeToDelete (some t) (some x) = some (foundPtr (searchZ cmp x tr [])) := by
  have hr := H.hroot
  simp only [pathRoot] at hr
  cases tr with
  | nil =>
    simp only [Tree.ptr_nil] at hr
    simp only [findNodeToDelete, hc, hr, searchZ, foundPtr]
  | node c l a y r =>
    simp only [Tree.ptr_node] at hr
    have hh := validZ_card H
    have := searchLoop_foc cmp x t _ [] t.fuel H (by
      simp only [RBTree.fuel, List.length_nil] at hh ⊢; omega)
    simp only [Tree.ptr_node] at this
    simp only [findNodeToDelete, hc, hr, this]

/-- `deleteFromRBTree` of an element the search does not find: failure, and
the state is returned as it was. -/
theorem deleteFromRBTree_notFound {t : RBTree α} {tr : Tree α} {cmp : α → α → Int}
    (H : Valid t tr) (hc : t.compFunc = some cmp) {x : α} (hs : searchZ cmp x tr [] = none) :
    deleteFromRBTree (some t) (some x) = some (false, some t) := by
  simp only [deleteFromRBTree, RBTreeContains_valid H hc x, hs, Option.isSome_none]

/-- Refinement of a successful `deleteFromRBTree`: the memory holds the tree
`deleteZ` gives, the found element went to `free`, the size is one less. -/
theorem deleteFromRBTree_found {t : RBTree α} {tr tr' : Tree α} {cmp : α → α → Int}
    (H : Valid t tr) (hc : t.compFunc = some cmp) {x y : α} {p : Path α} {c : Color}
    {l r : Tree α} {a : Nat} (hs : searchZ cmp x tr [] = some (p, .node c l a y r))
    (hz : deleteZ p (.node c l a y r) = some tr') :
    ∃ t', deleteFromRBTree (some t) (some x) = some (true, some t') ∧ Valid t' tr' ∧
      t'.size = t.size - 1 ∧ t'.compFunc = t.compFunc ∧ t'.freeFunc = t.freeFunc ∧
      t'.next = t.next ∧ t'.freed = t.freed ++ [y] ∧ t'.destroyed = t.destroyed := by
  have hp := (searchZ_some cmp x tr [] p _ hs).2
  simp only [plug] at hp
  have HZ : ValidZ t p (.node c l a y r) := by
    apply validZ_unplug
    rw [hp]
    exact H
  obtain ⟨t6, e6, H6, m6⟩ := deleteNode_foc HZ hz
  refine ⟨{ t6 with size := t6.size - 1 }, ?_, validZ_congr H6 rfl rfl rfl, ?_, m6.compFunc,
    m6.freeFunc, m6.next, m6.freed, m6.destroyed⟩
  · simp only [deleteFromRBTree, RBTreeContains_valid H hc x, hs, Option.isSome_some,
      findNodeToDelete_valid H hc x, foundPtr, Tree.ptr_node, e6]
  · show t6.size - 1 = t.size - 1
    rw [m6.size]
    rfl

/-- Deleting a present element from a red-black search tree in memory: the
call succeeds and the memory holds a red-black search tree without it. -/
theorem delete_found_rb {cmp : α → α → Int} (hc : StrictTotal cmp) {t : RBTree α} {tr : Tree α}
    (hv : Valid t tr) (hrb : tr.isRB) (ho : tr.ordered cmp) (hcf : t.compFunc = some cmp)
    {x : α} (hx : x ∈ tr.elems) :
    ∃ t' tr' l1 l2, deleteFromRBTree (some t) (some x) = some (true, some t') ∧
      Valid t' tr' ∧ tr'.isRB ∧ tr'.ordered cmp ∧ tr.elems = l1 ++ x :: l2 ∧
      tr'.elems = l1 ++ l2 ∧ tr.size = tr'.size + 1 ∧
      t'.size = t.size - 1 ∧ t'.compFunc = t.compFunc ∧ t'.freeFunc = t.freeFunc ∧
      t'.next = t.next ∧ t'.freed = t.freed ++ [x] ∧ t'.destroyed = t.destroyed := by
  cases hs : searchZ cmp x tr [] with
  | none => exact absurd hx ((searchZ_none_iff hc x tr [] ho).1 hs)
  | some z =>
    obtain ⟨p, n⟩ := z
    obtain ⟨c, l, a, r, rfl⟩ := searchZ_some_elem hc x hs
    have hp := (searchZ_some cmp x tr [] p _ hs).2
    simp only [plug] at hp
    obtain ⟨tr', hz, hrb'⟩ := deleteZ_rb (hp ▸ hrb)
    have el' := deleteZ_elems hz
    have el : tr.elems = (pathBefore p ++ l.elems) ++ x :: (r.elems ++ pathAfter p) := by
      rw [← hp, plug_elems]
      simp only [Tree.elems, List.append_assoc, List.cons_append]
    have el2 : tr'.elems = (pathBefore p ++ l.elems) ++ (r.elems ++ pathAfter p) := by
      rw [el']
      simp only [List.append_assoc]
    obtain ⟨t', e, hv', s1, s2, s3, s4, s5, s6⟩ := deleteFromRBTree_found hv hcf hs hz
    have ho' : tr'.ordered cmp := by
      unfold Tree.ordered at ho ⊢
      rw [el2]
      rw [el] at ho
      exact ho.sublist ((List.sublist_cons_self x _).append_left _)
    have hlen : tr.size = tr'.size + 1 := by
      rw [Tree.size_eq_length, Tree.size_eq_length, el, el2]
      simp only [List.length_append, List.length_cons]
      omega
    exact ⟨t', tr', _, _, e, hv', hrb', ho', el, el2, hlen, s1, s2, s3, s4, s5, s6⟩

/-- Deleting a present element from a red-black search tree succeeds and
leaves a red-black search tree without it. -/
theorem delete_present {cmp : α → α → Int} (hc : StrictTotal cmp) {t : RBTree α} {es : List α}
    (h : Holds cmp t es) {x : α} (hx : x ∈ es) :
    ∃ t' l1 l2, deleteFromRBTree (some t) (some x) = some (true, some t') ∧
      es = l1 ++ x :: l2 ∧ Holds cmp t' (l1 ++ l2) ∧ t'.size + 1 = t.size ∧
      t'.freed = t.freed ++ [x] ∧ t'.destroyed = t.destroyed ∧ t'.freeFunc = t.freeFunc := by
  obtain ⟨tr, hv, hrb, ho, he, hcf, hsz⟩ := h
  subst he
  obtain ⟨t', tr', l1, l2, e, hv', hrb', ho', el, el2, hlen, s1, s2, s3, s4, s5, s6⟩ :=
    delete_found_rb hc hv hrb ho hcf hx
  refine ⟨t', l1, l2, e, el, ⟨tr', hv', hrb', ho', el2, s2.trans hcf, ?_⟩, ?_, s5, s6, s3⟩
  · rw [s1, hsz, hlen]; rfl
  · rw [s1, hsz, hlen]; rfl

/-- Deleting an absent element fails and changes nothing. -/
theorem delete_absent {cmp : α → α → Int} (hc : StrictTotal cmp) {t : RBTree α} {es : List α}
    (h : Holds cmp t es) {x : α} (hx : x ∉ es) :
    deleteFromRBTree (some t) (some x) = some (false, some t) := by
  obtain ⟨tr, hv, hrb, ho, he, hcf, hsz⟩ := h
  subst he
  exact deleteFromRBTree_notFound hv hcf ((searchZ_none_iff hc x tr [] ho).2 hx)

/-- In an ascending sequence an element occurs once. -/
theorem mem_remove_iff {cmp : α → α → Int} (hc : StrictTotal cmp) {l1 l2 : List α} {x : α}
    (h : (l1 ++ x :: l2).Pairwise (fun a b => cmp a b < 0)) (e : α) :
    e ∈ l1 ++ l2 ↔ e ∈ l1 ++ x :: l2 ∧ e ≠ x := by
  rw [List.pairwise_append] at h
  obtain ⟨-, h2, h3⟩ := h
  rw [List.pairwise_cons] at h2
  simp only [List.mem_append, List.mem_cons]
  constructor
  · rintro (h' | h')
    · exact ⟨Or.inl h', hc.ne_of_lt (h3 e h' x (by simp))⟩
    · exact ⟨Or.inr (Or.inr h'), (hc.ne_of_lt (h2.1 e h')).symm⟩
  · rintro ⟨h' | h' | h', hne⟩
    · exact Or.inl h'
    · exact absurd h' hne
    · exact Or.inr h'

/-- Every `deleteFromRBTree` call on a red-black search tree returns and
leaves a red-black search tree holding the other elements. -/
theorem delete_holds {cmp : α → α → Int} (hc : StrictTotal cmp) {t : RBTree α} {es : List α}
    (h : Holds cmp t es) (x : α) :
    ∃ b t' es', deleteFromRBTree (some t) (some x) = some (b, some t') ∧ Holds cmp t' es' ∧
      ∀ e, e ∈ es' ↔ e ∈ es ∧ e ≠ x := by
  by_cases hx : x ∈ es
  · obtain ⟨t', l1, l2, e, rfl, h', -⟩ := delete_present hc h hx
    obtain ⟨tr, -, -, ho, he, -⟩ := h
    refine ⟨true, t', _, e, h', mem_remove_iff hc ?_⟩
    rw [← he]
    exact ho
  · refine ⟨false, t, es, delete_absent hc h hx, h, fun e => ⟨fun h' => ⟨h', ?_⟩, fun h' => h'.1⟩⟩
    rintro rfl
    exact hx h'

theorem twoTree_valid : Valid twoTree twoShape :=
  ⟨rfl, ⟨rfl, trivial, rfl, trivial, trivial⟩, trivial, by decide, by decide⟩

theorem twoShape_isRB : twoShape.isRB := by
  simp [Tree.isRB, twoShape, Tree.noRedRed, Tree.balanced, Tree.bh, Tree.col]

theorem twoShape_ordered : twoShape.ordered intCmp := by
  simp [Tree.ordered, twoShape, Tree.elems, intCmp]

theorem twoTree_holds : Holds intCmp twoTree [1, 2] :=
  ⟨twoShape, twoTree_valid, twoShape_isRB, twoShape_ordered, rfl, rfl, rfl⟩

theorem runOps_append : ∀ (ops1 ops2 : List (Op α)) (t : RBTree α),
    runOps t (ops1 ++ ops2) = (runOps t ops1).bind (fun t' => runOps t' ops2) := by
  intro ops1
  induction ops1 with
  | nil => intro ops2 t; rfl
  | cons op ops1 ih =>
    intro ops2 t
    cases op with
    | ins x =>
      simp only [List.cons_append, runOps]
      cases h : insertToRBTree (some t) (some x) with
      | none => rfl
      | some r =>
        obtain ⟨b, ot⟩ := r
        cases ot with
        | none => rfl
        | some t' => exact ih ops2 t'
    | del x =>
      simp only [List.cons_append, runOps]
      cases h : deleteFromRBTree (some t) (some x) with
      | none => rfl
      | some r =>
        obtain ⟨b, ot⟩ := r
        cases ot with
        | none => rfl
        | some t' => exact ih ops2 t'

theorem liveAfter_nil (e : α) : ¬ liveAfter e ([] : List (Op α)) := by
  rintro ⟨pre, post, h, -⟩
  cases pre <;> cases h

theorem liveAfter_concat_ins (e x : α) (ops : List (Op α)) :
    liveAfter e (ops ++ [Op.ins x]) ↔ e = x ∨ liveAfter e ops := by
  constructor
  · rintro ⟨pre, post, h, hd⟩
    rcases List.eq_nil_or_concat post with rfl | ⟨post', z, rfl⟩
    all_goals try simp only [List.concat_eq_append] at h hd
    · have h' : ops ++ [Op.ins x] = pre ++ [Op.ins e] := h
      have := (List.append_inj' h' rfl).2
      simp only [List.cons.injEq, Op.ins.injEq, and_true] at this
      exact Or.inl this.symm
    · have h' : ops ++ [Op.ins x] = (pre ++ Op.ins e :: post') ++ [z] := by
        rw [h]; simp only [List.append_assoc, List.cons_append]
      have := (List.append_inj' h' rfl).1
      refine Or.inr ⟨pre, post', this, fun hm => hd ?_⟩
      simp only [List.mem_append]
      exact Or.inl hm
  · rintro (rfl | ⟨pre, post, rfl, hd⟩)
    · exact ⟨ops, [], rfl, List.not_mem_nil _⟩
    · refine ⟨pre, post ++ [Op.ins x], by simp only [List.append_assoc, List.cons_append], ?_⟩
      simp only [List.mem_append, List.mem_singleton, reduceCtorEq, or_false]
      exact hd

theorem liveAfter_concat_del (e x : α) (ops : List (Op α)) :
    liveAfter e (ops ++ [Op.del x]) ↔ liveAfter e ops ∧ e ≠ x := by
  constructor
  · rintro ⟨pre, post, h, hd⟩
    rcases List.eq_nil_or_concat post with rfl | ⟨post', z, rfl⟩
    all_goals try simp only [List.concat_eq_append] at h hd
    · have h' : ops ++ [Op.del x] = pre ++ [Op.ins e] := h
      have := (List.append_inj' h' rfl).2
      simp only [List.cons.injEq, reduceCtorEq, and_true] at this
    · have h' : ops ++ [Op.del x] = (pre ++ Op.ins e :: post') ++ [z] := by
        rw [h]; simp only [List.append_assoc, List.cons_append]
      obtain ⟨h1, h2⟩ := List.append_inj' h' rfl
      simp only [List.cons.injEq, and_true] at h2
      subst h2
      simp only [List.mem_append, List.mem_singleton, Op.del.injEq, not_or] at hd
      exact ⟨⟨pre, post', h1, hd.1⟩, hd.2⟩
  · rintro ⟨⟨pre, post, rfl, hd⟩, hne⟩
    refine ⟨pre, post ++ [Op.del x], by simp only [List.append_assoc, List.cons_append], ?_⟩
    simp only [List.mem_append, List.mem_singleton, Op.del.injEq, not_or]
    exact ⟨hd, hne⟩

/-- After any sequence of calls on the empty tree the memory holds a
red-black search tree whose elements are the ones inserted and not deleted
afterwards. -/
theorem runOps_holds {cmp : α → α → Int} (hc : StrictTotal cmp) (freeFunc : Bool)
    (ops : List (Op α)) :
    ∃ t es, runOps (newRBTree (some cmp) freeFunc) ops = some t ∧ Holds cmp t es ∧
      ∀ e, e ∈ es ↔ liveAfter e ops := by
  induction ops using List.reverseRecOn with
  | nil =>
    exact ⟨_, [], rfl, holds_newRBTree cmp freeFunc,
      fun e => ⟨fun h => absurd h (List.not_mem_nil _), fun h => absurd h (liveAfter_nil e)⟩⟩
  | append_singleton ops op ih =>
    obtain ⟨t, es, e1, h, hl⟩ := ih
    cases op with
    | ins x =>
      by_cases hx : x ∈ es
      · obtain ⟨tr, hv, hrb, ho, he, hcf, hsz⟩ := h
        subst he
        refine ⟨t, _, ?_, ⟨tr, hv, hrb, ho, rfl, hcf, hsz⟩, fun e => ?_⟩
        · rw [runOps_append, e1]
          simp only [Option.some_bind, runOps, insert_present hc hv ho hcf hx]
        · rw [liveAfter_concat_ins, ← hl]
          constructor
          · exact fun h' => Or.inr h'
          · rintro (rfl | h')
            · exact hx
            · exact h'
      · obtain ⟨t', es', e2, h', hm, -⟩ := insert_absent hc h hx
        refine ⟨t', es', ?_, h', fun e => ?_⟩
        · rw [runOps_append, e1]
          simp only [Option.some_bind, runOps, e2]
        · rw [liveAfter_concat_ins, ← hl]
          exact hm e
    | del x =>
      obtain ⟨b, t', es', e2, h', hm⟩ := delete_holds hc h x
      refine ⟨t', es', ?_, h', fun e => ?_⟩
      · rw [runOps_append, e1]
        simp only [Option.some_bind, runOps, e2]
      · rw [liveAfter_concat_del, ← hl]
        exact hm e

/-- The answer of `RBTreeContains` on a red-black search tree. -/
theorem contains_holds {cmp : α → α → Int} (hc : StrictTotal cmp) {t : RBTree α} {es : List α}
    (h : Holds cmp t es) (e : α) :
    ∃ b, RBTreeContains (some t) (some e) = some b ∧ (b = true ↔ e ∈ es) := by
  obtain ⟨tr, hv, hrb, ho, he, hcf, hsz⟩ := h
  subst he
  refine ⟨_, RBTreeContains_valid hv hcf e, ?_⟩
  have := searchZ_none_iff hc e tr [] ho
  cases hs : searchZ cmp e tr [] with
  | none =>
    rw [hs] at this
    simp only [Option.isSome_none, Bool.false_eq_true, false_iff]
    exact this.1 rfl
  | some z =>
    rw [hs] at this
    simp only [Option.isSome_some, true_iff]
    by_contra hn
    exact absurd (this.2 hn) (by simp)

theorem liveAfter_ins_del (e : α) (S D : List α) :
    liveAfter e (S.map Op.ins ++ D.map Op.del) ↔ e ∈ S ∧ e ∉ D := by
  induction D using List.reverseRecOn with
  | nil =>
    simp only [List.map_nil, List.append_nil, List.not_mem_nil, not_false_eq_true, and_true]
    induction S using List.reverseRecOn with
    | nil => simp only [List.map_nil, List.not_mem_nil, iff_false]; exact liveAfter_nil e
    | append_singleton S x ih =>
      rw [List.map_append, List.map_singleton, liveAfter_concat_ins, ih]
      simp only [List.mem_append, List.mem_singleton]
      tauto
  | append_singleton D x ih =>
    rw [List.map_append, List.map_singleton, ← List.append_assoc, liveAfter_concat_del, ih]
    simp only [List.mem_append, List.mem_singleton, not_or]
    tauto

/-- C2. On a tree in memory that satisfies the red-black invariants (BLACK
root, no RED node with a RED child, the same number of BLACK nodes on every
path from the root to a null leaf) and the binary-search ordering of a strict
total order comparator, `deleteFromRBTree` of a present element returns
success and the tree afterwards again satisfies the red-black invariants.
The node that is physically removed may be RED or BLACK, and BLACK with one
RED child. -/
theorem delete_keeps_redBlack (cmp : α → α → Int) (hc : StrictTotal cmp) (t : RBTree α)
    (tr : Tree α) (hv : Valid t tr) (hroot : tr.col = Color.BLACK) (hred : tr.noRedRed)
    (hbh : ∀ m ∈ tr.blackCounts, ∀ n ∈ tr.blackCounts, m = n) (ho : tr.ordered cmp)
    (hcf : t.compFunc = some cmp) (x : α) (hx : x ∈ tr.elems) :
    ∃ t', deleteFromRBTree (some t) (some x) = some (true, some t') ∧ t'.redBlack := by
  have hrb : tr.isRB := ⟨hroot, hred, (Tree.balanced_iff tr).2 hbh⟩
  obtain ⟨t', tr', l1, l2, e, hv', hrb', -⟩ := delete_found_rb hc hv hrb ho hcf hx
  exact ⟨t', e, tr', hv', hrb'.1, hrb'.2.1, (Tree.balanced_iff tr').1 hrb'.2.2⟩

theorem delete_keeps_redBlack_witness :
    StrictTotal intCmp ∧ Valid twoTree twoShape ∧ twoShape.col = Color.BLACK ∧
      twoShape.noRedRed ∧ (∀ m ∈ twoShape.blackCounts, ∀ n ∈ twoShape.blackCounts, m = n) ∧
      twoShape.ordered intCmp ∧ twoTree.compFunc = some intCmp ∧ (1 : Int) ∈ twoShape.elems ∧
      ∃ t', deleteFromRBTree (some twoTree) (some 1) = some (true, some t') ∧ t'.redBlack :=
  ⟨intCmp_strictTotal, twoTree_valid, rfl, twoShape_isRB.2.1,
    (Tree.balanced_iff twoShape).1 twoShape_isRB.2.2, twoShape_ordered, rfl, by decide,
    delete_keeps_redBlack intCmp intCmp_strictTotal twoTree twoShape twoTree_valid rfl
      twoShape_isRB.2.1 ((Tree.balanced_iff twoShape).1 twoShape_isRB.2.2) twoShape_ordered rfl 1
      (by decide)⟩

/-- C3. For every sequence of `insertToRBTree` and `deleteFromRBTree` calls
applied to the empty tree of a strict total order comparator, all calls
return, and for every element `e`, `RBTreeContains` returns true exactly when
`e` was inserted and not deleted afterwards. In particular, after inserting
the elements of `S` and then deleting the elements of `D`, it returns true
exactly for the elements of `S` that are not in `D`. -/
theorem contains_iff_inserted_not_deleted (cmp : α → α → Int) (hc : StrictTotal cmp)
    (freeFunc : Bool) :
    (∀ ops : List (Op α), ∃ t, runOps (newRBTree (some cmp) freeFunc) ops = some t ∧
      ∀ e, ∃ b, RBTreeContains (some t) (some e) = some b ∧ (b = true ↔ liveAfter e ops)) ∧
    (∀ S D : List α, ∃ t,
      runOps (newRBTree (some cmp) freeFunc) (S.map Op.ins ++ D.map Op.del) = some t ∧
      ∀ e, ∃ b, RBTreeContains (some t) (some e) = some b ∧ (b = true ↔ e ∈ S ∧ e ∉ D)) := by
  have key : ∀ ops : List (Op α), ∃ t, runOps (newRBTree (some cmp) freeFunc) ops = some t ∧
      ∀ e, ∃ b, RBTreeContains (some t) (some e) = some b ∧ (b = true ↔ liveAfter e ops) := by
    intro ops
    obtain ⟨t, es, e1, h, hl⟩ := runOps_holds hc freeFunc ops
    refine ⟨t, e1, fun e => ?_⟩
    obtain ⟨b, hb, hm⟩ := contains_holds hc h e
    exact ⟨b, hb, hm.trans (hl e)⟩
  refine ⟨key, fun S D => ?_⟩
  obtain ⟨t, e1, h⟩ := key (S.map Op.ins ++ D.map Op.del)
  refine ⟨t, e1, fun e => ?_⟩
  obtain ⟨b, hb, hm⟩ := h e
  exact ⟨b, hb, hm.trans (liveAfter_ins_del e S D)⟩

theorem contains_iff_inserted_not_deleted_witness :
    StrictTotal intCmp ∧
      ∃ t, runOps (newRBTree (some intCmp) true) [Op.ins 3, Op.ins 1, Op.del 3, Op.ins 4] = some t ∧
        ∀ e, ∃ b, RBTreeContains (some t) (some e) = some b ∧
          (b = true ↔ liveAfter e [Op.ins 3, Op.ins 1, Op.del 3, Op.ins 4]) :=
  ⟨intCmp_strictTotal,
    (contains_iff_inserted_not_deleted intCmp intCmp_strictTotal true).1
      [Op.ins 3, Op.ins 1, Op.del 3, Op.ins 4]⟩

/-- C7. On a valid search tree, inserting an element that is already present
(the comparator returns 0 against a stored element) reports failure and
leaves the whole state, hence size, shape, colours and elements, unchanged. -/
theorem insert_duplicate_unchanged (cmp : α → α → Int) (hc : StrictTotal cmp) (t : RBTree α)
    (tr : Tree α) (hv : Valid t tr) (ho : tr.ordered cmp) (hcf : t.compFunc = some cmp) (x : α)
    (hx : ∃ y ∈ tr.elems, cmp y x = 0) :
    insertToRBTree (some t) (some x) = some (false, some t) := by
  obtain ⟨y, hy, h0⟩ := hx
  have := (hc.eq_iff y x).1 h0
  subst this
  exact insert_present hc hv ho hcf hy

theorem insert_duplicate_unchanged_witness :
    StrictTotal intCmp ∧ Valid twoTree twoShape ∧ twoShape.ordered intCmp ∧
      twoTree.compFunc = some intCmp ∧ (∃ y ∈ twoShape.elems, intCmp y 2 = 0) ∧
      insertToRBTree (some twoTree) (some 2) = some (false, some twoTree) :=
  ⟨intCmp_strictTotal, twoTree_valid, twoShape_ordered, rfl, ⟨2, by decide, by decide⟩,
    insert_duplicate_unchanged intCmp intCmp_strictTotal twoTree twoShape twoTree_valid
      twoShape_ordered rfl 2 ⟨2, by decide, by decide⟩⟩

/-- C8. On a valid tree, `deleteFromRBTree` of an element that is absent (the
comparator returns 0 against no stored element) reports failure and returns
the state as it was: nothing is released, and size, shape, colours and
elements are unchanged. -/
theorem delete_absent_unchanged (t : RBTree α) (tr : Tree α) (hv : Valid t tr) (x : α)
    (hx : ∀ cmp, t.compFunc = some cmp → ∀ y ∈ tr.elems, cmp y x ≠ 0) :
    deleteFromRBTree (some t) (some x) = some (false, some t) := by
  cases hcf : t.compFunc with
  | none => simp only [deleteFromRBTree, RBTreeContains, hcf]
  | some cmp => exact deleteFromRBTree_notFound hv hcf (searchZ_absent cmp x tr [] (hx cmp hcf))

theorem delete_absent_unchanged_witness :
    Valid twoTree twoShape ∧
      (∀ cmp, twoTree.compFunc = some cmp → ∀ y ∈ twoShape.elems, cmp y 3 ≠ 0) ∧
      deleteFromRBTree (some twoTree) (some 3) = some (false, some twoTree) :=
  have h : ∀ cmp, twoTree.compFunc = some cmp → ∀ y ∈ twoShape.elems, cmp y 3 ≠ 0 := by
    intro cmp hcmp y hy
    have e : cmp = intCmp := (Option.some.inj hcmp).symm
    subst e
    simp only [twoShape, Tree.elems, List.nil_append, List.mem_cons, List.mem_singleton,
      List.not_mem_nil, or_false] at hy
    rcases hy with rfl | rfl <;> decide
  ⟨twoTree_valid, h, delete_absent_unchanged twoTree twoShape twoTree_valid 3 h⟩

/-- C9. On a valid tree (a red-black search tree of a strict total order
comparator whose `size` counts its elements), `deleteFromRBTree` of a present
element `x` returns success, the size is one less afterwards,
`RBTreeContains` then returns false for `x`, and it still returns true for
every other element that was present. -/
theorem delete_present_effect (cmp : α → α → Int) (hc : StrictTotal cmp) (t : RBTree α)
    (es : List α) (h : Holds cmp t es) (x : α) (hx : x ∈ es) :
    ∃ t', deleteFromRBTree (some t) (some x) = some (true, some t') ∧ t'.size + 1 = t.size ∧
      RBTreeContains (some t') (some x) = some false ∧
      ∀ y ∈ es, y ≠ x → RBTreeContains (some t') (some y) = some true := by
  obtain ⟨t', l1, l2, e, rfl, h', hs, -⟩ := delete_present hc h hx
  have hp : (l1 ++ x :: l2).Pairwise (fun a b => cmp a b < 0) := by
    obtain ⟨tr, -, -, ho, he, -⟩ := h
    rw [← he]
    exact ho
  have hm := mem_remove_iff hc hp
  refine ⟨t', e, hs, ?_, fun y hy hne => ?_⟩
  · obtain ⟨b, hb, hbm⟩ := contains_holds hc h' x
    cases b with
    | false => exact hb
    | true => exact absurd rfl ((hm x).1 (hbm.1 rfl)).2
  · obtain ⟨b, hb, hbm⟩ := contains_holds hc h' y
    cases b with
    | false => exact absurd (hbm.2 ((hm y).2 ⟨hy, hne⟩)) (by simp)
    | true => exact hb

theorem delete_present_effect_witness :
    StrictTotal intCmp ∧ Holds intCmp twoTree [1, 2] ∧ (2 : Int) ∈ [(1 : Int), 2] ∧
      ∃ t', deleteFromRBTree (some twoTree) (some 2) = some (true, some t') ∧
        t'.size + 1 = twoTree.size ∧ RBTreeContains (some t') (some 2) = some false ∧
        ∀ y ∈ [(1 : Int), 2], y ≠ 2 → RBTreeContains (some t') (some y) = some true :=
  ⟨intCmp_strictTotal, twoTree_holds, by decide,
    delete_present_effect intCmp intCmp_strictTotal twoTree [1, 2] twoTree_holds 2 (by decide)⟩

theorem visitUntil_all_true {σ : Type} {func : α → σ → Bool × σ}
    (hf : ∀ x s, (func x s).1 = true) : ∀ (es : List α) (s : σ),
    visitUntil func es s = (true, visitAll func es s) := by
  intro es
  induction es with
  | nil => intro s; rfl
  | cons x xs ih =>
    intro s
    have h : func x s = (true, (func x s).2) := Prod.ext (hf x s) rfl
    rw [visitUntil_cons_true h, ih]
    rfl

theorem firstFlag_all_true {σ : Type} {func : α → σ → Bool × σ}
    (hf : ∀ x s, (func x s).1 = true) (es : List α) (s : σ) : firstFlag func es s = true := by
  cases es with
  | nil => rfl
  | cons x xs => exact hf x s

theorem visitUntil_append_true {σ : Type} {func : α → σ → Bool × σ} :
    ∀ (pre rest : List α) (s s1 : σ), visitUntil func pre s = (true, s1) →
      visitUntil func (pre ++ rest) s = visitUntil func rest s1 := by
  intro pre
  induction pre with
  | nil =>
    intro rest s s1 h
    simp only [visitUntil, Prod.mk.injEq, true_and] at h
    subst h
    rfl
  | cons y pre ih =>
    intro rest s s1 h
    cases hb : (func y s).1 with
    | false =>
      have h' : func y s = (false, (func y s).2) := Prod.ext hb rfl
      rw [visitUntil_cons_false h'] at h
      simp only [Prod.mk.injEq, Bool.false_eq_true, false_and] at h
    | true =>
      have h' : func y s = (true, (func y s).2) := Prod.ext hb rfl
      rw [visitUntil_cons_true h'] at h
      rw [List.cons_append, visitUntil_cons_true h']
      exact ih rest _ s1 h

/-- C4. For every tree reached from the empty tree of a strict total order
comparator by `insertToRBTree` and `deleteFromRBTree` calls, and every visitor
that always reports success, `forEachRBTree` returns success and has applied
the visitor to the elements of the tree (those inserted and not deleted
afterwards) once each, in strictly ascending comparator order. After inserting
3, 1, 4, 1, 5 the visit sequence is 1, 3, 4, 5. -/
theorem forEach_visits_ascending {σ : Type} (cmp : α → α → Int) (hc : StrictTotal cmp)
    (freeFunc : Bool) (func : α → σ → Bool × σ) (hf : ∀ x s, (func x s).1 = true)
    (ops : List (Op α)) (s : σ) :
    (∃ t es, runOps (newRBTree (some cmp) freeFunc) ops = some t ∧ Holds cmp t es ∧
      es.Pairwise (fun a b => cmp a b < 0) ∧ es.Nodup ∧ (∀ e, e ∈ es ↔ liveAfter e ops) ∧
      forEachRBTree (some t) func s = some (true, visitAll func es s)) ∧
    (runOps (newRBTree (some intCmp) freeFunc)
        [Op.ins 3, Op.ins 1, Op.ins 4, Op.ins 1, Op.ins 5]).bind
      (fun t => forEachRBTree (some t) logVisit []) = some (true, [1, 3, 4, 5]) := by
  constructor
  · obtain ⟨t, es, e1, h, hl⟩ := runOps_holds hc freeFunc ops
    have h0 := h
    obtain ⟨tr, hv, hrb, ho, he, hcf, hsz⟩ := h
    subst he
    refine ⟨t, _, e1, h0, ho, ?_, hl, ?_⟩
    · exact ho.imp (fun hab => hc.ne_of_lt hab)
    · rw [forEachRBTree_valid hv hcf func s, firstFlag_all_true hf, visitUntil_all_true hf]
  · cases freeFunc <;> rfl

theorem forEach_visits_ascending_witness :
    StrictTotal intCmp ∧ (∀ x s, (logVisit x s).1 = true) ∧
      ((∃ t es, runOps (newRBTree (some intCmp) true) [Op.ins 2, Op.ins 1, Op.del 2] = some t ∧
        Holds intCmp t es ∧ es.Pairwise (fun a b => intCmp a b < 0) ∧ es.Nodup ∧
        (∀ e, e ∈ es ↔ liveAfter e [Op.ins 2, Op.ins 1, Op.del 2]) ∧
        forEachRBTree (some t) logVisit [] = some (true, visitAll logVisit es [])) ∧
      (runOps (newRBTree (some intCmp) true)
          [Op.ins 3, Op.ins 1, Op.ins 4, Op.ins 1, Op.ins 5]).bind
        (fun t => forEachRBTree (some t) logVisit []) = some (true, [1, 3, 4, 5])) :=
  ⟨intCmp_strictTotal, fun _ _ => rfl,
    forEach_visits_ascending intCmp intCmp_strictTotal true logVisit (fun _ _ => rfl)
      [Op.ins 2, Op.ins 1, Op.del 2] []⟩

/-- C5. The visitor `logUntil 2` reports failure on the element 2, the second
element of the tree with the elements 1 and 2, and `forEachRBTree` returns
success all the same: `forEachRBTreeHelper` drops the result of its recursive
call. Only a failure on the first element is reported. -/
theorem forEach_later_failure_is_lost :
    (logUntil 2 2 [1]).1 = false ∧
      forEachRBTree (some twoTree) (logUntil 2) [] = some (true, [1, 2]) ∧
      forEachRBTree (some twoTree) (logUntil 1) [] = some (false, [1]) := by
  decide

/-- C6. On a valid tree whose elements are, in order, `pre`, then `x`, then
`post`: when the visitor succeeds on the elements of `pre` and fails on `x`,
`forEachRBTree` returns with the state the visitor left at `x`; the visitor
has been applied once to each element of `pre` and to `x`, and to no element
of `post`. -/
theorem forEach_stops_at_failure {σ : Type} (cmp : α → α → Int) (t : RBTree α) (tr : Tree α)
    (hv : Valid t tr) (hcf : t.compFunc = some cmp) (func : α → σ → Bool × σ) (s : σ)
    (pre post : List α) (x : α) (hel : tr.elems = pre ++ x :: post)
    (hpre : visitUntil func pre s = (true, visitAll func pre s))
    (hx : (func x (visitAll func pre s)).1 = false) :
    ∃ b, forEachRBTree (some t) func s = some (b, (func x (visitAll func pre s)).2) := by
  have h' : func x (visitAll func pre s) = (false, (func x (visitAll func pre s)).2) :=
    Prod.ext hx rfl
  have e2 : (visitUntil func tr.elems s).2 = (func x (visitAll func pre s)).2 := by
    rw [hel, visitUntil_append_true pre _ s _ hpre, visitUntil_cons_false h']
  exact ⟨firstFlag func tr.elems s, by rw [forEachRBTree_valid hv hcf func s, e2]⟩

theorem forEach_stops_at_failure_witness :
    Valid twoTree twoShape ∧ twoTree.compFunc = some intCmp ∧
      twoShape.elems = [] ++ 1 :: [2] ∧
      visitUntil (logUntil 1) [] [] = (true, visitAll (logUntil 1) [] []) ∧
      (logUntil 1 1 (visitAll (logUntil 1) [] [])).1 = false ∧
      ∃ b, forEachRBTree (some twoTree) (logUntil 1) [] =
        some (b, (logUntil 1 1 (visitAll (logUntil 1) [] [])).2) :=
  ⟨twoTree_valid, rfl, rfl, rfl, by decide,
    forEach_stops_at_failure intCmp twoTree twoShape twoTree_valid rfl (logUntil 1) [] [] [2] 1
      rfl rfl (by decide)⟩

/-- C10. `insertToRBTree` with a null tree or a null element reports failure
and changes nothing. On an empty tree whose comparator is missing it does not
fail: the element becomes the root and the size becomes 1. -/
theorem insert_without_comparator (freeFunc : Bool) (t : RBTree α) (x : α) :
    insertToRBTree (none : Option (RBTree α)) (some x) = some (false, none) ∧
      insertToRBTree (some t) none = some (false, some t) ∧
      ∃ t', insertToRBTree (some (newRBTree none freeFunc)) (some x) = some (true, some t') ∧
        t'.root = some 0 ∧ t'.size = 1 ∧ dataOf t' 0 = some (some x) :=
  ⟨rfl, rfl, _, rfl, rfl, rfl, rfl⟩

theorem countFrom_rep {t : RBTree α} : ∀ (tr : Tree α) (par : Option Nat) (fuel : Nat),
    Rep t.nodes tr par → tr.height < fuel → countFrom t fuel tr.ptr = some tr.size := by
  intro tr
  induction tr with
  | nil =>
    intro par fuel _ hf
    cases fuel with
    | zero => omega
    | succ fuel => rfl
  | node c l a x r ihl ihr =>
    intro par fuel h hf
    cases fuel with
    | zero => omega
    | succ fuel =>
      obtain ⟨h1, h2, h3⟩ := h
      simp only [Tree.height] at hf
      have el := ihl (some a) fuel h2 (by omega)
      have er := ihr (some a) fuel h3 (by omega)
      simp only [Tree.ptr_node, countFrom, h1, el, er, Tree.size]

theorem heightFrom_rep {t : RBTree α} : ∀ (tr : Tree α) (par : Option Nat) (fuel : Nat),
    Rep t.nodes tr par → tr.height < fuel → heightFrom t fuel tr.ptr = some tr.height := by
  intro tr
  induction tr with
  | nil =>
    intro par fuel _ hf
    cases fuel with
    | zero => omega
    | succ fuel => rfl
  | node c l a x r ihl ihr =>
    intro par fuel h hf
    cases fuel with
    | zero => omega
    | succ fuel =>
      obtain ⟨h1, h2, h3⟩ := h
      simp only [Tree.height] at hf
      have el := ihl (some a) fuel h2 (by omega)
      have er := ihr (some a) fuel h3 (by omega)
      simp only [Tree.ptr_node, heightFrom, h1, el, er, Tree.height]

theorem countFrom_valid {t : RBTree α} {tr : Tree α} (H : Valid t tr) :
    countFrom t t.fuel t.root = some tr.size := by
  have hh := validZ_card H
  have hr := H.hroot
  simp only [pathRoot] at hr
  rw [hr]
  exact countFrom_rep tr none t.fuel H.hfoc (by
    simp only [RBTree.fuel, List.length_nil] at hh ⊢; omega)

theorem heightFrom_valid {t : RBTree α} {tr : Tree α} (H : Valid t tr) :
    heightFrom t t.fuel t.root = some tr.height := by
  have hh := validZ_card H
  have hr := H.hroot
  simp only [pathRoot] at hr
  rw [hr]
  exact heightFrom_rep tr none t.fuel H.hfoc (by
    simp only [RBTree.fuel, List.length_nil] at hh ⊢; omega)

theorem insertT_size {cmp : α → α → Int} {tr tr' : Tree α} {n : Nat} {x : α}
    (h : insertT cmp tr n x = some tr') : tr'.size = tr.size + 1 := by
  cases tr with
  | nil =>
    simp only [insertT, Option.some.injEq] at h
    subst h
    rfl
  | node c l a y r =>
    simp only [insertT] at h
    have h1 := fixZ_addrs _ _ _ _ (le_refl _) h
    rw [descend_addrs] at h1
    rw [size_eq_card, size_eq_card, h1]
    simp only [Tree.addrs, pathAddrs, Multiset.card_add, Multiset.card_singleton,
      Multiset.card_zero]
    omega

/-- An `insertToRBTree` call on a red-black tree in memory returns and leaves
a red-black tree in memory, whatever the comparator. -/
theorem insert_shaped {cmp : α → α → Int} {t : RBTree α} {tr : Tree α}
    (h : Shaped cmp t tr) (x : α) :
    ∃ b t' tr', insertToRBTree (some t) (some x) = some (b, some t') ∧ Shaped cmp t' tr' ∧
      t'.freeFunc = t.freeFunc ∧ t'.destroyed = t.destroyed := by
  obtain ⟨hv, hrb, hcf, hsz⟩ := h
  cases hs : searchZ cmp x tr [] with
  | some z =>
    have e0 := RBTreeContains_valid hv hcf x
    rw [hs] at e0
    exact ⟨false, t, tr, by simp only [insertToRBTree, e0, Option.isSome_some],
      ⟨hv, hrb, hcf, hsz⟩, rfl, rfl⟩
  | none =>
    obtain ⟨tr', hi, hrb'⟩ := insertT_rb cmp tr t.next x hrb
    obtain ⟨t', e, hv', s1, s2, s3, s4, s5, s6⟩ := insertToRBTree_valid hv hcf x hs hi
    exact ⟨true, t', tr', e, ⟨hv', hrb', s2.trans hcf, by rw [s1, hsz, insertT_size hi]⟩,
      s3, s6⟩

/-- A `deleteFromRBTree` call on a red-black tree in memory returns and
leaves a red-black tree in memory, whatever the comparator. -/
theorem delete_shaped {cmp : α → α → Int} {t : RBTree α} {tr : Tree α}
    (h : Shaped cmp t tr) (x : α) :
    ∃ b t' tr', deleteFromRBTree (some t) (some x) = some (b, some t') ∧ Shaped cmp t' tr' ∧
      t'.freeFunc = t.freeFunc ∧ t'.destroyed = t.destroyed := by
  obtain ⟨hv, hrb, hcf, hsz⟩ := h
  cases hs : searchZ cmp x tr [] with
  | none =>
    exact ⟨false, t, tr, deleteFromRBTree_notFound hv hcf hs, ⟨hv, hrb, hcf, hsz⟩, rfl, rfl⟩
  | some z =>
    obtain ⟨p, n⟩ := z
    obtain ⟨⟨c, l, a, y, r, rfl, -⟩, hp⟩ := searchZ_some cmp x tr [] p n hs
    simp only [plug] at hp
    obtain ⟨tr', hz, hrb'⟩ := deleteZ_rb (hp ▸ hrb)
    obtain ⟨t', e, hv', s1, s2, s3, s4, s5, s6⟩ := deleteFromRBTree_found hv hcf hs hz
    refine ⟨true, t', tr', e, ⟨hv', hrb', s2.trans hcf, ?_⟩, s3, s6⟩
    have el' := deleteZ_elems hz
    have el : tr.elems = pathBefore p ++ (l.elems ++ y :: r.elems) ++ pathAfter p := by
      rw [← hp, plug_elems]; rfl
    have hlen : tr.size = tr'.size + 1 := by
      rw [Tree.size_eq_length, Tree.size_eq_length, el, el']
      simp only [List.length_append, List.length_cons]
      omega
    rw [s1, hsz, hlen]
    rfl

/-- After any sequence of calls on the empty tree, the memory holds a
red-black tree and `size` is its number of nodes. -/
theorem runOps_shaped (cmp : α → α → Int) (ops : List (Op α)) :
    ∀ (t : RBTree α) (tr : Tree α), Shaped cmp t tr →
      ∃ t' tr', runOps t ops = some t' ∧ Shaped cmp t' tr' ∧
        t'.freeFunc = t.freeFunc ∧ t'.destroyed = t.destroyed := by
  induction ops with
  | nil => intro t tr h; exact ⟨t, tr, rfl, h, rfl, rfl⟩
  | cons op ops ih =>
    intro t tr h
    cases op with
    | ins x =>
      obtain ⟨b, t1, tr1, e, h1, f1, d1⟩ := insert_shaped h x
      obtain ⟨t', tr', e', h', f', d'⟩ := ih t1 tr1 h1
      exact ⟨t', tr', by simp only [runOps, e, e'], h', f'.trans f1, d'.trans d1⟩
    | del x =>
      obtain ⟨b, t1, tr1, e, h1, f1, d1⟩ := delete_shaped h x
      obtain ⟨t', tr', e', h', f', d'⟩ := ih t1 tr1 h1
      exact ⟨t', tr', by simp only [runOps, e, e'], h', f'.trans f1, d'.trans d1⟩

theorem shaped_newRBTree (cmp : α → α → Int) (freeFunc : Bool) :
    Shaped cmp (newRBTree (some cmp) freeFunc) .nil :=
  ⟨⟨rfl, trivial, trivial, Multiset.nodup_zero, fun _ h => absurd h (by simp [Tree.addrs,
    pathAddrs])⟩, ⟨rfl, trivial, trivial⟩, rfl, rfl⟩

/-- A tree whose subtrees agree on their black-height has at least
`2 ^ bh - 1` nodes. -/
theorem Tree.pow_bh_le_size : ∀ (tr : Tree α), tr.balanced → 2 ^ tr.bh ≤ tr.size + 1 := by
  intro tr
  induction tr with
  | nil => intro _; simp [Tree.bh, Tree.size]
  | node c l a x r ihl ihr =>
    intro h
    obtain ⟨h1, h2, h3⟩ := h
    have := ihl h1
    have := ihr h2
    rw [← h3] at this
    simp only [Tree.bh, Tree.size]
    split
    · rw [pow_succ]; omega
    · simp only [Nat.add_zero]; omega

/-- In a tree without RED-RED pairs the height is at most twice the
black-height, one more under a RED root. -/
theorem Tree.height_le_bh : ∀ (tr : Tree α), tr.noRedRed → tr.balanced →
    tr.height ≤ 2 * tr.bh + (if tr.col = Color.RED then 1 else 0) := by
  intro tr
  induction tr with
  | nil => intro _ _; simp [Tree.height, Tree.bh]
  | node c l a x r ihl ihr =>
    intro hn hb
    obtain ⟨n1, n2, n3⟩ := hn
    obtain ⟨b1, b2, b3⟩ := hb
    have hl := ihl n2 b1
    have hr := ihr n3 b2
    rw [← b3] at hr
    cases c with
    | RED =>
      obtain ⟨c1, c2⟩ := n1 rfl
      simp only [c1, c2, reduceCtorEq, if_false, Nat.add_zero] at hl hr
      simp only [Tree.height, Tree.bh, Tree.col, reduceCtorEq, if_false, if_true, Nat.add_zero]
      omega
    | BLACK =>
      simp only [Tree.height, Tree.bh, Tree.col, reduceCtorEq, if_false, if_true, Nat.add_zero]
      split at hl <;> split at hr <;> omega

/-- The height of a red-black tree is at most `2 * log2 (size + 1)`. -/
theorem Tree.height_le_log {tr : Tree α} (h : tr.isRB) :
    tr.height ≤ 2 * Nat.log 2 (tr.size + 1) := by
  obtain ⟨h1, h2, h3⟩ := h
  have e1 := Tree.height_le_bh tr h2 h3
  simp only [h1, reduceCtorEq, if_false, Nat.add_zero] at e1
  have e2 := Tree.pow_bh_le_size tr h3
  have e3 : tr.bh ≤ Nat.log 2 (tr.size + 1) :=
    (Nat.pow_le_iff_le_log (by omega) (by omega)).1 e2
  omega

/-- C11. For every sequence of `insertToRBTree` and `deleteFromRBTree` calls
applied to the empty tree, successful or failing, all calls return and in the
tree they leave the `size` field equals the number of nodes reachable from
`root`. -/
theorem size_counts_nodes (cmp : α → α → Int) (freeFunc : Bool) (ops : List (Op α)) :
    ∃ t, runOps (newRBTree (some cmp) freeFunc) ops = some t ∧
      countFrom t t.fuel t.root = some t.size := by
  obtain ⟨t, tr, e, ⟨hv, -, -, hsz⟩, -⟩ :=
    runOps_shaped cmp ops _ _ (shaped_newRBTree cmp freeFunc)
  exact ⟨t, e, by rw [hsz]; exact countFrom_valid hv⟩

/-- C12. For every sequence of `insertToRBTree` and `deleteFromRBTree` calls
applied to the empty tree, the tree after the last call, hence after every
single call, has a height of at most `2 * log2 (size + 1)`; the height counts
the nodes on the longest chain of child links from the root. -/
theorem height_logarithmic (cmp : α → α → Int) (freeFunc : Bool) (ops : List (Op α)) :
    ∃ t h, runOps (newRBTree (some cmp) freeFunc) ops = some t ∧
      heightFrom t t.fuel t.root = some h ∧ h ≤ 2 * Nat.log 2 (t.size + 1) := by
  obtain ⟨t, tr, e, ⟨hv, hrb, -, hsz⟩, -⟩ :=
    runOps_shaped cmp ops _ _ (shaped_newRBTree cmp freeFunc)
  exact ⟨t, tr.height, e, heightFrom_valid hv, by rw [hsz]; exact Tree.height_le_log hrb⟩

theorem Tree.postorder_perm (tr : Tree α) : tr.postorder.Perm tr.elems := by
  induction tr with
  | nil => exact List.Perm.refl _
  | node c l a x r ihl ihr =>
    simp only [Tree.postorder, Tree.elems]
    have h1 : (l.postorder ++ r.postorder ++ [x]).Perm (l.postorder ++ (x :: r.postorder)) := by
      rw [List.append_assoc]
      exact List.Perm.append_left _ (List.perm_append_singleton x r.postorder)
    exact h1.trans (List.Perm.append ihl (List.Perm.cons x ihr))

/-- `freeSubTree` on a subtree of a valid tree: the destructor is called on
the elements in post-order, the cells of the subtree are freed, and all
other cells are left as they were. -/
theorem freeSubTree_rep : ∀ (tr : Tree α) (par : Option Nat) (fuel : Nat) (t : RBTree α),
    Rep t.nodes tr par → tr.addrs.Nodup → tr.height < fuel →
    ∃ t', freeSubTree true fuel t tr.ptr = some t' ∧
      t'.destroyed = t.destroyed ++ tr.postorder ∧
      (∀ a ∈ tr.addrs, t'.nodes a = none) ∧ (∀ a, a ∉ tr.addrs → t'.nodes a = t.nodes a) ∧
      SameStruct t t' := by
  intro tr
  induction tr with
  | nil =>
    intro par fuel t _ _ hf
    cases fuel with
    | zero => omega
    | succ fuel =>
      exact ⟨t, rfl, by simp only [Tree.postorder, List.append_nil],
        fun a ha => absurd ha (by simp [Tree.addrs]), fun _ _ => rfl, ⟨rfl, rfl, rfl, rfl, rfl, rfl⟩⟩
  | node c l a x r ihl ihr =>
    intro par fuel t h hnd hf
    cases fuel with
    | zero => omega
    | succ fuel =>
      obtain ⟨h1, h2, h3⟩ := h
      simp only [Tree.height] at hf
      have hal : a ∉ l.addrs := not_mem_of_count hnd (fun z => by
        simp only [Tree.addrs, Multiset.count_add]; omega)
      have har : a ∉ r.addrs := not_mem_of_count hnd (fun z => by
        simp only [Tree.addrs, Multiset.count_add]; omega)
      have hlr : ∀ z ∈ r.addrs, z ∉ l.addrs := disj_of_count hnd (fun z => by
        simp only [Tree.addrs, Multiset.count_add]; omega)
      have hndl : l.addrs.Nodup := Multiset.nodup_of_le (by
        rw [Multiset.le_iff_count]; intro z
        simp only [Tree.addrs, Multiset.count_add]; omega) hnd
      have hndr : r.addrs.Nodup := Multiset.nodup_of_le (by
        rw [Multiset.le_iff_count]; intro z
        simp only [Tree.addrs, Multiset.count_add]; omega) hnd
      obtain ⟨t1, e1, d1, n1, f1, m1⟩ := ihl (some a) fuel t h2 hndl (by omega)
      have e1' : (if l.ptr ≠ none then freeSubTree true fuel t l.ptr else some t) = some t1 := by
        split
        · exact e1
        · rename_i hn
          have hl : l = .nil := by
            cases l with
            | nil => rfl
            | node _ _ _ _ _ => simp only [Tree.ptr_node, ne_eq, reduceCtorEq, not_false_eq_true,
                not_true_eq_false] at hn
          subst hl
          cases fuel with
          | zero => simp only [Tree.height] at hf; simp only [Tree.ptr_nil, freeSubTree] at e1 ⊢
                    exact absurd e1 (by simp)
          | succ fuel => simpa only [Tree.ptr_nil, freeSubTree] using e1
      have h3' : Rep t1.nodes r (some a) := h3.congr_r fun z hz => f1 z (hlr z hz)
      obtain ⟨t2, e2, d2, n2, f2, m2⟩ := ihr (some a) fuel t1 h3' hndr (by omega)
      have e2' : (if r.ptr ≠ none then freeSubTree true fuel t1 r.ptr else some t1) = some t2 := by
        split
        · exact e2
        · rename_i hn
          have hr : r = .nil := by
            cases r with
            | nil => rfl
            | node _ _ _ _ _ => simp only [Tree.ptr_node, ne_eq, reduceCtorEq, not_false_eq_true,
                not_true_eq_false] at hn
          subst hr
          cases fuel with
          | zero => simp only [Tree.ptr_nil, freeSubTree] at e2 ⊢
                    exact absurd e2 (by simp)
          | succ fuel => simpa only [Tree.ptr_nil, freeSubTree] using e2
      have c1 : t1.nodes a = some ⟨l.ptr, r.ptr, par, c, some x⟩ := (f1 a hal).trans h1
      have c2 : t2.nodes a = some ⟨l.ptr, r.ptr, par, c, some x⟩ := (f2 a har).trans c1
      refine ⟨{ (destroyData t2 (some x)) with
          nodes := fun q => if q = a then none else (destroyData t2 (some x)).nodes q }, ?_, ?_, ?_, ?_, ?_⟩
      · simp only [Tree.ptr_node, freeSubTree, leftOf, h1, Option.map_some', e1', rightOf, c1,
          e2', dataOf, c2, if_true, freeNode, destroyData]
      · show t2.destroyed ++ [x] = _
        rw [d2, d1]
        simp only [Tree.postorder, List.append_assoc]
      · intro z hz
        show (if z = a then none else t2.nodes z) = none
        split
        · rfl
        · rename_i hza
          simp only [Tree.addrs, Multiset.mem_add, Multiset.mem_singleton] at hz
          rcases hz with hz | hz | hz
          · exact absurd hz hza
          · rw [f2 z (fun h' => hlr z h' hz)]
            exact n1 z hz
          · exact n2 z hz
      · intro z hz
        simp only [Tree.addrs, Multiset.mem_add, Multiset.mem_singleton, not_or] at hz
        show (if z = a then none else t2.nodes z) = t.nodes z
        rw [if_neg hz.1, f2 z hz.2.2, f1 z hz.2.1]
      · exact ⟨m2.root.trans m1.root, m2.size.trans m1.size, m2.compFunc.trans m1.compFunc,
          m2.freeFunc.trans m1.freeFunc, m2.next.trans m1.next, m2.freed.trans m1.freed⟩

/-- C13. The tree built by inserting 2, 1, 3 has a destructor and holds 2 in
its root (address 0), a node with two non-null children. `deleteFromRBTree`
of 2 passes the element 2 to `free` and makes no call of the destructor; the
successor's element 3 is moved into the matched node and stays in the tree,
the successor's cell (address 2) is freed, and the size becomes 2. -/
theorem delete_two_children_uses_free :
    (runOps (newRBTree (some intCmp) true) [Op.ins 2, Op.ins 1, Op.ins 3]).map
        (fun t => (t.freeFunc, t.root, leftOf t 0, rightOf t 0, dataOf t 0, t.freed,
          t.destroyed)) =
      some (true, some 0, some (some 1), some (some 2), some (some 2), [], []) ∧
    (runOps (newRBTree (some intCmp) true) [Op.ins 2, Op.ins 1, Op.ins 3, Op.del 2]).map
        (fun t => (t.freed, t.destroyed, t.root, dataOf t 0, (t.nodes 2).isNone, t.size)) =
      some ([2], [], some 0, some (some 3), true, 2) :=
  ⟨rfl, rfl⟩

/-- C14. For every sequence of `insertToRBTree` and `deleteFromRBTree` calls
applied to the empty tree of a tree with a destructor, `freeRBTree` on the
resulting tree returns, calls the destructor on the elements stored in the
tree in post-order (children before their parent), once for each node, so
that the number of calls equals `size`, frees every node, and leaves the tree
reference null. Called on a null reference it returns and does nothing. -/
theorem freeRBTree_destroys_each_once (cmp : α → α → Int) (ops : List (Op α)) :
    ∃ t tr t', runOps (newRBTree (some cmp) true) ops = some t ∧ Valid t tr ∧
      freeRBTree (some t) = some (none, some t') ∧
      t'.destroyed = tr.postorder ∧ tr.postorder.Perm tr.elems ∧
      t'.destroyed.length = t.size ∧ (∀ a ∈ tr.addrs, t'.nodes a = none) ∧
      freeRBTree (none : Option (RBTree α)) = some (none, none) := by
  obtain ⟨t, tr, e, ⟨hv, -, -, hsz⟩, hf, hd⟩ :=
    runOps_shaped cmp ops _ _ (shaped_newRBTree cmp true)
  have hh := validZ_card hv
  have hr := hv.hroot
  simp only [pathRoot] at hr
  have hnd : tr.addrs.Nodup := by
    have := hv.nodup
    simpa only [pathAddrs, add_zero] using this
  obtain ⟨t', e', d', n', -, -⟩ := freeSubTree_rep tr none t.fuel t hv.hfoc hnd (by
    simp only [RBTree.fuel, List.length_nil] at hh ⊢; omega)
  have hf' : t.freeFunc = true := hf
  have hd' : t.destroyed = [] := hd
  refine ⟨t, tr, t', e, hv, ?_, ?_, Tree.postorder_perm tr, ?_, n', rfl⟩
  · simp only [freeRBTree, hf', Bool.true_eq_false, if_false, hr, e']
  · rw [d', hd', List.nil_append]
  · rw [d', hd', List.nil_append, (Tree.postorder_perm tr).length_eq, ← Tree.size_eq_length, hsz]

theorem SameLabels.rfl_l (t : RBTree α) : SameLabels t t := fun _ => ⟨rfl, rfl⟩

theorem SameLabels.trans_l {t t' t'' : RBTree α} (h : SameLabels t t') (h' : SameLabels t' t'') :
    SameLabels t t'' :=
  fun q => ⟨(h' q).1.trans (h q).1, (h' q).2.trans (h q).2⟩

theorem write_labels {t : RBTree α} {p : Nat} {n n' : Node α} (hn : t.nodes p = some n)
    (hc : n'.color = n.color) (hd : n'.data = n.data) : SameLabels t (t.write p n') := by
  intro q
  by_cases hq : q = p
  · subst hq
    simp only [colorOf, dataOf, write_nodes_same, hn, Option.map_some', hc, hd, and_self]
  · simp only [colorOf, dataOf, write_nodes_ne _ _ hq, and_self]

theorem setLeft_labels {t t' : RBTree α} {p : Nat} {v : Option Nat}
    (h : setLeft t p v = some t') : SameLabels t t' := by
  simp only [setLeft] at h
  cases hn : t.nodes p with
  | none => simp only [hn, Option.map_none', reduceCtorEq] at h
  | some n =>
    simp only [hn, Option.map_some', Option.some.injEq] at h
    subst h
    exact write_labels hn rfl rfl

theorem setRight_labels {t t' : RBTree α} {p : Nat} {v : Option Nat}
    (h : setRight t p v = some t') : SameLabels t t' := by
  simp only [setRight] at h
  cases hn : t.nodes p with
  | none => simp only [hn, Option.map_none', reduceCtorEq] at h
  | some n =>
    simp only [hn, Option.map_some', Option.some.injEq] at h
    subst h
    exact write_labels hn rfl rfl

theorem setParent_labels {t t' : RBTree α} {p : Nat} {v : Option Nat}
    (h : setParent t p v = some t') : SameLabels t t' := by
  simp only [setParent] at h
  cases hn : t.nodes p with
  | none => simp only [hn, Option.map_none', reduceCtorEq] at h
  | some n =>
    simp only [hn, Option.map_some', Option.some.injEq] at h
    subst h
    exact write_labels hn rfl rfl

theorem replaceWithChild_labels {t t' : RBTree α} {node : Nat} {child : Option Nat}
    (h : replaceWithChild t node child = some t') : SameLabels t t' := by
  revert h
  have tail : ∀ t1, SameLabels t t1 →
      (match child with
        | none => some t1
        | some c =>
          match parentOf t1 node with
          | none => none
          | some par2 => setParent t1 c par2) = some t' → SameLabels t t' := by
    intro t1 h1 h2
    cases child with
    | none =>
      simp only [Option.some.injEq] at h2
      subst h2
      exact h1
    | some c =>
      simp only at h2
      cases hp2 : parentOf t1 node with
      | none => simp only [hp2, reduceCtorEq] at h2
      | some par2 =>
        simp only [hp2] at h2
        exact h1.trans_l (setParent_labels h2)
  intro h
  simp only [replaceWithChild] at h
  cases hp : parentOf t node with
  | none => simp only [hp, reduceCtorEq] at h
  | some par =>
    simp only [hp] at h
    cases par with
    | none =>
      simp only at h
      exact tail { t with root := child } (fun _ => ⟨rfl, rfl⟩) h
    | some p =>
      simp only at h
      cases hl : leftOf t p with
      | none => simp only [hl, reduceCtorEq] at h
      | some pl =>
        simp only [hl] at h
        by_cases hc : some node = pl
        · simp only [if_pos hc] at h
          cases hs : setLeft t p child with
          | none => simp only [hs, reduceCtorEq] at h
          | some t1 =>
            simp only [hs] at h
            exact tail t1 (setLeft_labels hs) h
        · simp only [if_neg hc] at h
          cases hs : setRight t p child with
          | none => simp only [hs, reduceCtorEq] at h
          | some t1 =>
            simp only [hs] at h
            exact tail t1 (setRight_labels hs) h

/-- `leftRotate` changes no colour and no element, on any memory. -/
theorem leftRotate_labels {t t' : RBTree α} {node : Nat} (h : leftRotate t node = some t') :
    SameLabels t t' := by
  simp only [leftRotate] at h
  cases h0 : rightOf t node with
  | none => simp only [h0, reduceCtorEq] at h
  | some ro =>
    cases ro with
    | none => simp only [h0, reduceCtorEq] at h
    | some right =>
      simp only [h0] at h
      cases h1 : replaceWithChild t node (some right) with
      | none => simp only [h1, reduceCtorEq] at h
      | some t1 =>
        simp only [h1] at h
        cases h2 : leftOf t1 right with
        | none => simp only [h2, reduceCtorEq] at h
        | some rl =>
          simp only [h2] at h
          cases h3 : setRight t1 node rl with
          | none => simp only [h3, reduceCtorEq] at h
          | some t2 =>
            simp only [h3] at h
            have l2 := (replaceWithChild_labels h1).trans_l (setRight_labels h3)
            cases rl with
            | none =>
              simp only at h
              cases h5 : setLeft t2 right (some node) with
              | none => simp only [h5, reduceCtorEq] at h
              | some t4 =>
                simp only [h5] at h
                exact (l2.trans_l (setLeft_labels h5)).trans_l (setParent_labels h)
            | some x =>
              simp only at h
              cases h4 : setParent t2 x (some node) with
              | none => simp only [h4, reduceCtorEq] at h
              | some t3 =>
                simp only [h4] at h
                cases h5 : setLeft t3 right (some node) with
                | none => simp only [h5, reduceCtorEq] at h
                | some t4 =>
                  simp only [h5] at h
                  exact ((l2.trans_l (setParent_labels h4)).trans_l (setLeft_labels h5)).trans_l
                    (setParent_labels h)

/-- `rightRotate` changes no colour and no element, on any memory. -/
theorem rightRotate_labels {t t' : RBTree α} {node : Nat} (h : rightRotate t node = some t') :
    SameLabels t t' := by
  simp only [rightRotate] at h
  cases h0 : leftOf t node with
  | none => simp only [h0, reduceCtorEq] at h
  | some lo =>
    cases lo with
    | none => simp only [h0, reduceCtorEq] at h
    | some left =>
      simp only [h0] at h
      cases h1 : replaceWithChild t node (some left) with
      | none => simp only [h1, reduceCtorEq] at h
      | some t1 =>
        simp only [h1] at h
        cases h2 : rightOf t1 left with
        | none => simp only [h2, reduceCtorEq] at h
        | some lr =>
          simp only [h2] at h
          cases h3 : setLeft t1 node lr with
          | none => simp only [h3, reduceCtorEq] at h
          | some t2 =>
            simp only [h3] at h
            have l2 := (replaceWithChild_labels h1).trans_l (setLeft_labels h3)
            cases lr with
            | none =>
              simp only at h
              cases h5 : setRight t2 left (some node) with
              | none => simp only [h5, reduceCtorEq] at h
              | some t4 =>
                simp only [h5] at h
                exact (l2.trans_l (setRight_labels h5)).trans_l (setParent_labels h)
            | some x =>
              simp only at h
              cases h4 : setParent t2 x (some node) with
              | none => simp only [h4, reduceCtorEq] at h
              | some t3 =>
                simp only [h4] at h
                cases h5 : setRight t3 left (some node) with
                | none => simp only [h5, reduceCtorEq] at h
                | some t4 =>
                  simp only [h5] at h
                  exact ((l2.trans_l (setParent_labels h4)).trans_l (setRight_labels h5)).trans_l
                    (setParent_labels h)

theorem leftTree_valid : Valid leftTree leftShape :=
  ⟨rfl, ⟨rfl, ⟨rfl, trivial, trivial⟩, trivial⟩, trivial, by decide, by decide⟩

theorem StrictTotal.asymm {cmp : α → α → Int} (hc : StrictTotal cmp) {a b : α}
    (h : cmp a b < 0) : ¬ cmp b a < 0 := by
  have := (hc.anti a b).1 h
  omega

/-- C15. For a node `a` of a tree in memory with a non-null right child,
`leftRotate` returns, the memory again holds a tree with consistent links,
the in-order sequence of the elements of the whole tree is unchanged, and
every cell keeps its colour and its element. The same holds for
`rightRotate` on a node `d` with a non-null left child. -/
theorem rotations_keep_order_and_colours
    (t : RBTree α) (p : Path α) (ca cb : Color) (A B C : Tree α) (a b : Nat) (xa xb : α)
    (hl : ValidZ t p (.node ca A a xa (.node cb B b xb C)))
    (s : RBTree α) (q : Path α) (da db : Color) (D E F : Tree α) (d e : Nat) (yd ye : α)
    (hr : ValidZ s q (.node da (.node db D e ye E) d yd F)) :
    (∃ t' tr', leftRotate t a = some t' ∧ Valid t' tr' ∧
      tr'.elems = (plug p (.node ca A a xa (.node cb B b xb C))).elems ∧
      ∀ n, colorOf t' n = colorOf t n ∧ dataOf t' n = dataOf t n) ∧
    (∃ s' sr', rightRotate s d = some s' ∧ Valid s' sr' ∧
      sr'.elems = (plug q (.node da (.node db D e ye E) d yd F)).elems ∧
      ∀ n, colorOf s' n = colorOf s n ∧ dataOf s' n = dataOf s n) := by
  constructor
  · obtain ⟨t', e1, H', -⟩ := leftRotate_foc hl
    refine ⟨t', _, e1, validZ_plug H', ?_, leftRotate_labels e1⟩
    rw [plug_elems, plug_elems]
    simp only [Tree.elems, List.append_assoc, List.cons_append]
  · obtain ⟨s', e1, H', -⟩ := rightRotate_foc hr
    refine ⟨s', _, e1, validZ_plug H', ?_, rightRotate_labels e1⟩
    rw [plug_elems, plug_elems]
    simp only [Tree.elems, List.append_assoc, List.cons_append]

theorem rotations_keep_order_and_colours_witness :
    ValidZ twoTree [] (.node Color.BLACK .nil 0 1 (.node Color.RED .nil 1 2 .nil)) ∧
    ValidZ leftTree [] (.node Color.BLACK (.node Color.RED .nil 1 1 .nil) 0 2 .nil) ∧
    (∃ t' tr', leftRotate twoTree 0 = some t' ∧ Valid t' tr' ∧
      tr'.elems = (plug [] (.node Color.BLACK .nil 0 1 (.node Color.RED .nil 1 2 .nil))).elems ∧
      ∀ n, colorOf t' n = colorOf twoTree n ∧ dataOf t' n = dataOf twoTree n) ∧
    (∃ s' sr', rightRotate leftTree 0 = some s' ∧ Valid s' sr' ∧
      sr'.elems = (plug [] (.node Color.BLACK (.node Color.RED .nil 1 1 .nil) 0 2 .nil)).elems ∧
      ∀ n, colorOf s' n = colorOf leftTree n ∧ dataOf s' n = dataOf leftTree n) :=
  ⟨twoTree_valid, leftTree_valid,
    rotations_keep_order_and_colours twoTree [] Color.BLACK Color.RED .nil .nil .nil 0 1 1 2
      twoTree_valid leftTree [] Color.BLACK Color.RED .nil .nil .nil 0 1 2 1 leftTree_valid⟩

/-- What `minNode` returns on the root of a subtree of a search tree. -/
theorem minNode_least {cmp : α → α → Int} (hc : StrictTotal cmp) {t : RBTree α} {p : Path α}
    {c : Color} {l r : Tree α} {a : Nat} {x : α} (H : ValidZ t p (.node c l a x r))
    (ho : (plug p (.node c l a x r)).ordered cmp) :
    ∃ m xm, minNode t (some a) = some (some m) ∧ dataOf t m = some (some xm) ∧
      xm ∈ (Tree.node c l a x r).elems ∧
      ∀ z ∈ (Tree.node c l a x r).elems, ¬ cmp z xm < 0 := by
  obtain ⟨pm, cm, m, xm, rm, e1, e2, e3, -, -⟩ := minZ_spec _ p c l r a x rfl
  have hh := validZ_card H
  have hm := minLoop_foc _ p c l r a x t.fuel rfl H (by simp only [RBTree.fuel]; omega)
  rw [e1] at hm
  simp only [Tree.ptr_node] at hm
  have HM : ValidZ t pm (.node cm .nil m xm rm) := by
    apply validZ_unplug
    rw [e2]
    exact validZ_plug H
  have hord : ((Tree.node c l a x r).elems ++ pathAfter p).Pairwise (fun u v => cmp u v < 0) := by
    unfold Tree.ordered at ho
    rw [plug_elems, List.append_assoc] at ho
    exact (List.pairwise_append.1 ho).2.1
  rw [← e3] at hord
  have hxm : ∀ z ∈ rm.elems ++ pathAfter pm, cmp xm z < 0 := (List.pairwise_cons.1 hord).1
  have hmem : ∀ z ∈ (Tree.node c l a x r).elems, z ∈ xm :: (rm.elems ++ pathAfter pm) := by
    intro z hz
    have : z ∈ (Tree.node c l a x r).elems ++ pathAfter p := List.mem_append_left _ hz
    rw [← e3] at this
    exact this
  have hne : (Tree.node c l a x r).elems ≠ [] := by simp [Tree.elems]
  have hhead : xm ∈ (Tree.node c l a x r).elems := by
    cases he : (Tree.node c l a x r).elems with
    | nil => exact absurd he hne
    | cons y ys =>
      rw [he] at e3
      simp only [List.cons_append, List.cons.injEq] at e3
      rw [e3.1]
      exact List.mem_cons_self _ _
  cases hml : minLoop t t.fuel a with
  | none => rw [hml] at hm; simp at hm
  | some m' =>
    rw [hml] at hm
    simp only [Option.map_some', Option.some.injEq] at hm
    subst hm
    refine ⟨m', xm, by simp only [minNode, hml], dataOf_foc HM, hhead, fun z hz => ?_⟩
    have := hmem z hz
    simp only [List.mem_cons] at this
    rcases this with rfl | h'
    · exact hc.irrefl _
    · exact hc.asymm (hxm z h')

/-- What `successor` returns on a node of a search tree. -/
theorem successor_next {cmp : α → α → Int} (hc : StrictTotal cmp) {t : RBTree α} {p : Path α}
    {c : Color} {l r : Tree α} {a : Nat} {x : α} (H : ValidZ t p (.node c l a x r))
    (ho : (plug p (.node c l a x r)).ordered cmp) :
    ∃ res, successor t a = some res ∧
      (res = none ↔ ∀ z ∈ (plug p (.node c l a x r)).elems, ¬ cmp x z < 0) ∧
      ∀ b, res = some b → ∃ y, dataOf t b = some (some y) ∧
        y ∈ (plug p (.node c l a x r)).elems ∧ cmp x y < 0 ∧
        ∀ z ∈ (plug p (.node c l a x r)).elems, cmp x z < 0 → ¬ cmp z y < 0 := by
  have hel : (plug p (.node c l a x r)).elems
      = (pathBefore p ++ l.elems) ++ x :: (r.elems ++ pathAfter p) := by
    rw [plug_elems]
    simp only [Tree.elems, List.append_assoc, List.cons_append]
  unfold Tree.ordered at ho
  rw [hel] at ho ⊢
  obtain ⟨-, o2, o3⟩ := List.pairwise_append.1 ho
  obtain ⟨o4, o5⟩ := List.pairwise_cons.1 o2
  have hbefore : ∀ z ∈ pathBefore p ++ l.elems, ¬ cmp x z < 0 :=
    fun z hz => hc.asymm (o3 z hz x (List.mem_cons_self _ _))
  refine ⟨_, successor_foc H, ?_⟩
  rcases succZ_spec p c l r a x with ⟨h1, h2⟩ | ⟨p', c', l', a', x', r', h1, h2, h3⟩
  · rw [h1, h2]
    refine ⟨⟨fun _ z hz => ?_, fun _ => rfl⟩, fun b hb => nomatch hb⟩
    simp only [List.mem_append, List.mem_cons, List.not_mem_nil, or_false] at hz
    rcases hz with hz | rfl
    · exact hbefore z (List.mem_append.2 hz)
    · exact hc.irrefl _
  · have HS : ValidZ t p' (.node c' l' a' x' r') := by
      apply validZ_unplug
      rw [h2]
      exact validZ_plug H
    rw [h1, ← h3]
    rw [← h3] at o4 o5
    simp only [List.cons_append] at o4 o5 ⊢
    have hx' : cmp x x' < 0 := o4 x' (List.mem_cons_self _ _)
    simp only [foundPtr, Tree.ptr_node]
    refine ⟨⟨(fun h => nomatch h), fun h => ?_⟩, fun b hb => ?_⟩
    · exact absurd hx' (h x' (by simp))
    · simp only [Option.some.injEq] at hb
      subst hb
      refine ⟨x', dataOf_foc HS, by simp, hx', fun z hz hlt => ?_⟩
      simp only [List.mem_append, List.mem_cons] at hz
      rcases hz with hz | rfl | rfl | hz
      · exact absurd hlt (hbefore z (List.mem_append.2 hz))
      · exact absurd hlt (hc.irrefl _)
      · exact hc.irrefl _
      · exact hc.asymm ((List.pairwise_cons.1 o5).1 z (List.mem_append.2 hz))

/-- C16. In a binary-search-ordered tree in memory with consistent links, for
every node `a` with element `x`: `successor` returns; it returns null exactly
when no element of the tree is above `x`; and a node it returns holds an
element of the tree, the least one above `x`. `minNode` on `a` returns the
node of the subtree of `a` that holds the least element of that subtree, and
`minNode` on null returns null. -/
theorem successor_and_minNode (cmp : α → α → Int) (hc : StrictTotal cmp) (t : RBTree α)
    (p : Path α) (c : Color) (l r : Tree α) (a : Nat) (x : α)
    (H : ValidZ t p (.node c l a x r)) (ho : (plug p (.node c l a x r)).ordered cmp) :
    (∃ res, successor t a = some res ∧
      (res = none ↔ ∀ z ∈ (plug p (.node c l a x r)).elems, ¬ cmp x z < 0) ∧
      ∀ b, res = some b → ∃ y, dataOf t b = some (some y) ∧
        y ∈ (plug p (.node c l a x r)).elems ∧ cmp x y < 0 ∧
        ∀ z ∈ (plug p (.node c l a x r)).elems, cmp x z < 0 → ¬ cmp z y < 0) ∧
    (∃ m xm, minNode t (some a) = some (some m) ∧ dataOf t m = some (some xm) ∧
      xm ∈ (Tree.node c l a x r).elems ∧
      ∀ z ∈ (Tree.node c l a x r).elems, ¬ cmp z xm < 0) ∧
    minNode t none = some none :=
  ⟨successor_next hc H ho, minNode_least hc H ho, rfl⟩

theorem successor_and_minNode_witness :
    StrictTotal intCmp ∧
    ValidZ twoTree [] (.node Color.BLACK .nil 0 1 (.node Color.RED .nil 1 2 .nil)) ∧
    (plug [] (.node Color.BLACK .nil 0 1 (.node Color.RED .nil 1 2 .nil))).ordered intCmp ∧
    (∃ res, successor twoTree 0 = some res ∧
      (res = none ↔ ∀ z ∈ (plug [] (Tree.node Color.BLACK .nil 0 1
        (.node Color.RED .nil 1 2 .nil))).elems, ¬ intCmp 1 z < 0) ∧
      ∀ b, res = some b → ∃ y, dataOf twoTree b = some (some y) ∧
        y ∈ (plug [] (Tree.node Color.BLACK .nil 0 1
          (.node Color.RED .nil 1 2 .nil))).elems ∧ intCmp 1 y < 0 ∧
        ∀ z ∈ (plug [] (Tree.node Color.BLACK .nil 0 1 (.node Color.RED .nil 1 2 .nil))).elems,
          intCmp 1 z < 0 → ¬ intCmp z y < 0) ∧
    (∃ m xm, minNode twoTree (some 0) = some (some m) ∧ dataOf twoTree m = some (some xm) ∧
      xm ∈ (Tree.node Color.BLACK .nil 0 1 (.node Color.RED .nil 1 2 .nil)).elems ∧
      ∀ z ∈ (Tree.node Color.BLACK .nil 0 1 (.node Color.RED .nil 1 2 .nil)).elems,
        ¬ intCmp z xm < 0) ∧
    minNode twoTree none = some none :=
  ⟨intCmp_strictTotal, twoTree_valid, twoShape_ordered,
    successor_and_minNode intCmp intCmp_strictTotal twoTree [] Color.BLACK .nil
      (.node Color.RED .nil 1 2 .nil) 0 1 twoTree_valid twoShape_ordered⟩

theorem ptr_some {n : Tree α} {c : Nat} (h : n.ptr = some c) :
    ∃ cl l x r, n = .node cl l c x r := by
  cases n with
  | nil => cases h
  | node cl l a x r =>
    simp only [Tree.ptr_node, Option.some.injEq] at h
    subst h
    exact ⟨cl, l, x, r, rfl⟩

/-- A tree held in memory has consistent links. -/
theorem valid_links {t : RBTree α} {tr : Tree α} (H : Valid t tr) :
    LinksConsistent t tr.addrs := by
  refine ⟨fun a ha c hc => ?_, fun r hr => ?_, fun a ha hp => ?_⟩
  · obtain ⟨p, cn, l, x, rt, e⟩ := exists_zipper ha
    have HZ : ValidZ t p (.node cn l a x rt) := validZ_unplug (e ▸ H)
    rcases hc with hc | hc
    · rw [leftOf_foc HZ] at hc
      obtain ⟨cl, ll, xl, rl, rfl⟩ := ptr_some (Option.some.inj hc)
      exact parentOf_foc (validZ_down (f := .L cn a x rt) HZ)
    · rw [rightOf_foc HZ] at hc
      obtain ⟨cl, ll, xl, rl, rfl⟩ := ptr_some (Option.some.inj hc)
      exact parentOf_foc (validZ_down (f := .R cn l a x) HZ)
  · have h0 := H.hroot
    simp only [pathRoot] at h0
    obtain ⟨cl, l, x, rt, rfl⟩ := ptr_some (h0.symm.trans hr)
    exact parentOf_foc H
  · obtain ⟨p, cn, l, x, rt, e⟩ := exists_zipper ha
    have HZ : ValidZ t p (.node cn l a x rt) := validZ_unplug (e ▸ H)
    rw [parentOf_foc HZ] at hp
    cases p with
    | cons f p => simp only [pathPar, Option.some.injEq, reduceCtorEq] at hp
    | nil =>
      simp only [plug] at e
      have h0 := H.hroot
      rw [e] at h0
      exact h0

/-- C17. On a red-black tree in memory whose links are consistent,
`insertToRBTree` and `deleteFromRBTree` return and leave a tree whose links
are consistent: a non-null child of a node has that node as its parent, the
root has no parent, and `root` points to the only node without a parent.
Hence the links are consistent after every call of any sequence of calls on
the empty tree. -/
theorem links_stay_consistent (cmp : α → α → Int) (freeFunc : Bool) (t : RBTree α) (tr : Tree α)
    (hv : Valid t tr) (hrb : tr.isRB) (hcf : t.compFunc = some cmp) (x : α) :
    (∃ b t' tr', insertToRBTree (some t) (some x) = some (b, some t') ∧ Valid t' tr' ∧
      LinksConsistent t' tr'.addrs) ∧
    (∃ b t' tr', deleteFromRBTree (some t) (some x) = some (b, some t') ∧ Valid t' tr' ∧
      LinksConsistent t' tr'.addrs) ∧
    (∀ ops : List (Op α), ∃ t' tr', runOps (newRBTree (some cmp) freeFunc) ops = some t' ∧
      Valid t' tr' ∧ LinksConsistent t' tr'.addrs) := by
  refine ⟨?_, ?_, fun ops => ?_⟩
  · cases hs : searchZ cmp x tr [] with
    | some z =>
      have e0 := RBTreeContains_valid hv hcf x
      rw [hs] at e0
      exact ⟨false, t, tr, by simp only [insertToRBTree, e0, Option.isSome_some], hv,
        valid_links hv⟩
    | none =>
      obtain ⟨tr', hi, -⟩ := insertT_rb cmp tr t.next x hrb
      obtain ⟨t', e, hv', -⟩ := insertToRBTree_valid hv hcf x hs hi
      exact ⟨true, t', tr', e, hv', valid_links hv'⟩
  · cases hs : searchZ cmp x tr [] with
    | none => exact ⟨false, t, tr, deleteFromRBTree_notFound hv hcf hs, hv, valid_links hv⟩
    | some z =>
      obtain ⟨p, n⟩ := z
      obtain ⟨⟨c, l, a, y, r, rfl, -⟩, hp⟩ := searchZ_some cmp x tr [] p n hs
      simp only [plug] at hp
      obtain ⟨tr', hz, -⟩ := deleteZ_rb (hp ▸ hrb)
      obtain ⟨t', e, hv', -⟩ := deleteFromRBTree_found hv hcf hs hz
      exact ⟨true, t', tr', e, hv', valid_links hv'⟩
  · obtain ⟨t', tr', e, ⟨hv', -⟩, -⟩ := runOps_shaped cmp ops _ _ (shaped_newRBTree cmp freeFunc)
    exact ⟨t', tr', e, hv', valid_links hv'⟩

theorem links_stay_consistent_witness :
    Valid twoTree twoShape ∧ twoShape.isRB ∧ twoTree.compFunc = some intCmp ∧
    (∃ b t' tr', insertToRBTree (some twoTree) (some 3) = some (b, some t') ∧ Valid t' tr' ∧
      LinksConsistent t' tr'.addrs) ∧
    (∃ b t' tr', deleteFromRBTree (some twoTree) (some 3) = some (b, some t') ∧ Valid t' tr' ∧
      LinksConsistent t' tr'.addrs) ∧
    (∀ ops : List (Op Int), ∃ t' tr', runOps (newRBTree (some intCmp) true) ops = some t' ∧
      Valid t' tr' ∧ LinksConsistent t' tr'.addrs) :=
  ⟨twoTree_valid, twoShape_isRB, rfl,
    links_stay_consistent intCmp true twoTree twoShape twoTree_valid twoShape_isRB rfl 3⟩

theorem zigTree_valid :
    ValidZ zigTree [.R Color.RED .nil 1 1, .L Color.BLACK 0 3 .nil]
      (.node Color.RED .nil 2 2 .nil) :=
  ⟨rfl, ⟨rfl, trivial, trivial⟩, ⟨rfl, trivial, rfl, trivial, trivial⟩, by decide, by decide⟩

theorem zagTree_valid :
    ValidZ zagTree [.L Color.RED 1 3 .nil, .R Color.BLACK .nil 0 1]
      (.node Color.RED .nil 2 2 .nil) :=
  ⟨rfl, ⟨rfl, trivial, trivial⟩, ⟨rfl, trivial, rfl, trivial, trivial⟩, by decide, by decide⟩

/-- C19. `fix` on a RED node N whose parent P is RED, whose uncle U is BLACK
or absent, and that forms a zig-zag with P and the grandparent G (N right
child of P and P left child of G, or the mirror image): `fix` returns, N is
BLACK and stands where G stood, below the unchanged path above G, P and G are
the two children of N and both RED, and the in-order sequence of the elements
is unchanged. -/
theorem fix_zigzag
    (t : RBTree α) (p : Path α) (cg : Color) (S U l r : Tree α) (ap ag a : Nat) (xp xg x : α)
    (H : ValidZ t (.R Color.RED S ap xp :: .L cg ag xg U :: p) (.node Color.RED l a x r))
    (hU : U.col = Color.BLACK)
    (t' : RBTree α) (p' : Path α) (cg' : Color) (S' U' l' r' : Tree α) (ap' ag' a' : Nat)
    (xp' xg' x' : α)
    (H' : ValidZ t' (.L Color.RED ap' xp' S' :: .R cg' U' ag' xg' :: p') (.node Color.RED l' a' x' r'))
    (hU' : U'.col = Color.BLACK) :
    (∃ s, fix t.fuel t a = some s ∧
      ValidZ s p (.node Color.BLACK (.node Color.RED S ap xp l) a x (.node Color.RED r ag xg U)) ∧
      (plug p (.node Color.BLACK (.node Color.RED S ap xp l) a x (.node Color.RED r ag xg U))).elems
        = (plug (.R Color.RED S ap xp :: .L cg ag xg U :: p) (.node Color.RED l a x r)).elems) ∧
    (∃ s, fix t'.fuel t' a' = some s ∧
      ValidZ s p' (.node Color.BLACK (.node Color.RED U' ag' xg' l') a' x'
        (.node Color.RED r' ap' xp' S')) ∧
      (plug p' (.node Color.BLACK (.node Color.RED U' ag' xg' l') a' x'
        (.node Color.RED r' ap' xp' S'))).elems
        = (plug (.L Color.RED ap' xp' S' :: .R cg' U' ag' xg' :: p') (.node Color.RED l' a' x' r')).elems) := by
  constructor
  · have hh := validZ_card H
    have hz := fixZ_rotate (f := .R Color.RED S ap xp) (g := .L cg ag xg U) (p := p)
      (c := Color.RED) (l := l) (r := r) (a := a) (x := x) rfl hU
    obtain ⟨s, e, hv, -⟩ := fix_foc t.fuel _ t _ _ _ _ _ _ H (by
      simp only [RBTree.fuel, List.length_cons] at hh ⊢; omega) hz
    refine ⟨s, e, validZ_unplug hv, ?_⟩
    simp only [plug_elems, Tree.elems, pathBefore, pathAfter, List.append_assoc,
      List.cons_append, List.nil_append]
  · have hh := validZ_card H'
    have hz := fixZ_rotate (f := .L Color.RED ap' xp' S') (g := .R cg' U' ag' xg') (p := p')
      (c := Color.RED) (l := l') (r := r') (a := a') (x := x') rfl hU'
    obtain ⟨s, e, hv, -⟩ := fix_foc t'.fuel _ t' _ _ _ _ _ _ H' (by
      simp only [RBTree.fuel, List.length_cons] at hh ⊢; omega) hz
    refine ⟨s, e, validZ_unplug hv, ?_⟩
    simp only [plug_elems, Tree.elems, pathBefore, pathAfter, List.append_assoc,
      List.cons_append, List.nil_append]

theorem fix_zigzag_witness :
    ValidZ zigTree [.R Color.RED .nil 1 1, .L Color.BLACK 0 3 .nil]
      (.node Color.RED .nil 2 2 .nil) ∧
    (Tree.nil : Tree Int).col = Color.BLACK ∧
    ValidZ zagTree [.L Color.RED 1 3 .nil, .R Color.BLACK .nil 0 1]
      (.node Color.RED .nil 2 2 .nil) ∧
    (∃ s, fix zigTree.fuel zigTree 2 = some s ∧
      ValidZ s [] (.node Color.BLACK (.node Color.RED .nil 1 1 .nil) 2 2
        (.node Color.RED .nil 0 3 .nil)) ∧
      (plug [] (.node Color.BLACK (.node Color.RED .nil 1 (1 : Int) .nil) 2 2
        (.node Color.RED .nil 0 3 .nil))).elems
        = (plug [.R Color.RED .nil 1 1, .L Color.BLACK 0 3 .nil]
            (.node Color.RED .nil 2 2 .nil)).elems) ∧
    (∃ s, fix zagTree.fuel zagTree 2 = some s ∧
      ValidZ s [] (.node Color.BLACK (.node Color.RED .nil 0 1 .nil) 2 2
        (.node Color.RED .nil 1 3 .nil)) ∧
      (plug [] (.node Color.BLACK (.node Color.RED .nil 0 (1 : Int) .nil) 2 2
        (.node Color.RED .nil 1 3 .nil))).elems
        = (plug [.L Color.RED 1 3 .nil, .R Color.BLACK .nil 0 1]
            (.node Color.RED .nil 2 2 .nil)).elems) :=
  ⟨zigTree_valid, rfl, zagTree_valid,
    fix_zigzag zigTree [] Color.BLACK .nil .nil .nil .nil 1 0 2 1 3 2 zigTree_valid rfl
      zagTree [] Color.BLACK .nil .nil .nil .nil 1 0 2 3 1 2 zagTree_valid rfl⟩

theorem blackTree_valid : Valid blackTree blackShape :=
  ⟨rfl, ⟨rfl, ⟨rfl, trivial, trivial⟩, rfl, trivial, trivial⟩, trivial, by decide, by decide⟩

theorem blackShape_isRB : blackShape.isRB := by
  simp [Tree.isRB, blackShape, Tree.noRedRed, Tree.balanced, Tree.bh, Tree.col]

/-- C20. On a red-black tree in memory, `deleteFromRBTree` of a present key
returns: no step of it, the deletion fix-up included, reads or writes through
a null pointer. The fix-up on its own: `deleteCase1` started on a node that
was BLACK in a red-black tree (whatever colour it has been given since)
returns, so the sibling is non-null wherever `deleteCase2` to `deleteCase6`
read its children, and the far nephew is non-null where `deleteCase6`
recolours it and rotates the parent. -/
theorem delete_fixup_no_null (cmp : α → α → Int) (t : RBTree α) (tr : Tree α)
    (hv : Valid t tr) (hrb : tr.isRB) (hcf : t.compFunc = some cmp) (x : α)
    (hx : RBTreeContains (some t) (some x) = some true)
    (s : RBTree α) (p : Path α) (c : Color) (l r : Tree α) (d : Nat) (y : α)
    (hs : ValidZ s p (.node c l d y r)) (hsrb : (plug p (.node Color.BLACK l d y r)).isRB) :
    (∃ t', deleteFromRBTree (some t) (some x) = some (true, some t')) ∧
    (∃ s', deleteCase1 s.fuel s d = some s') := by
  constructor
  · rw [RBTreeContains_valid hv hcf x] at hx
    cases hz : searchZ cmp x tr [] with
    | none => rw [hz] at hx; simp at hx
    | some z =>
      obtain ⟨q, n⟩ := z
      obtain ⟨⟨c', l', a', y', r', rfl, -⟩, hp⟩ := searchZ_some cmp x tr [] q n hz
      simp only [plug] at hp
      obtain ⟨tr', hd, -⟩ := deleteZ_rb (hp ▸ hrb)
      obtain ⟨t', e, -⟩ := deleteFromRBTree_found hv hcf hz hd
      exact ⟨t', e⟩
  · obtain ⟨-, -, h3, -, -⟩ := isRB_unplug p _ hsrb
    simp only [Tree.bh, if_true] at h3
    obtain ⟨p', hq, -⟩ := delFix_rb p l.bh h3
    have hh := validZ_card hs
    obtain ⟨s', e, -⟩ := deleteCase1_foc s.fuel p p' s c l r d y hs (by
      simp only [RBTree.fuel]; omega) hq
    exact ⟨s', e⟩

theorem delete_fixup_no_null_witness :
    Valid blackTree blackShape ∧ blackShape.isRB ∧ blackTree.compFunc = some intCmp ∧
    RBTreeContains (some blackTree) (some 1) = some true ∧
    ValidZ blackTree [.L Color.BLACK 0 2 (.node Color.BLACK .nil 2 3 .nil)]
      (.node Color.BLACK .nil 1 1 .nil) ∧
    (plug [.L Color.BLACK 0 2 (.node Color.BLACK .nil 2 3 .nil)]
      (.node Color.BLACK .nil 1 (1 : Int) .nil)).isRB ∧
    (∃ t', deleteFromRBTree (some blackTree) (some 1) = some (true, some t')) ∧
    (∃ s', deleteCase1 blackTree.fuel blackTree 1 = some s') :=
  ⟨blackTree_valid, blackShape_isRB, rfl, rfl,
    validZ_down (f := .L Color.BLACK 0 2 (.node Color.BLACK .nil 2 3 .nil)) blackTree_valid,
    blackShape_isRB,
    delete_fixup_no_null intCmp blackTree blackShape blackTree_valid blackShape_isRB rfl 1 rfl
      blackTree [.L Color.BLACK 0 2 (.node Color.BLACK .nil 2 3 .nil)] Color.BLACK .nil .nil 1 1
      (validZ_down (f := .L Color.BLACK 0 2 (.node Color.BLACK .nil 2 3 .nil)) blackTree_valid)
      blackShape_isRB⟩

theorem lexCmp_cases {β : Type} [LinearOrder β] (xs ys : List β) :
    lexCmp xs ys = -1 ∨ lexCmp xs ys = 0 ∨ lexCmp xs ys = 1 := by
  induction xs generalizing ys with
  | nil => cases ys <;> simp [lexCmp]
  | cons x xs ih =>
    cases ys with
    | nil => simp [lexCmp]
    | cons y ys =>
      simp only [lexCmp]
      split
      · exact Or.inl rfl
      · split
        · exact Or.inr (Or.inr rfl)
        · exact ih ys

/-- C21. On a red-black tree in memory, `insertToRBTree` of an element that is
not present returns: no step of it, the insertion fix-up included, reads or
writes through a null pointer. The fix-up on its own: `fix` started on a RED
node without children that stands where a red-black tree had a null leaf
returns, so at every level of the red-uncle recursion the grandparent exists
where `findUncle` reads it, and the pivot is non-null where `insertCase4b`
rotates the grandparent. -/
theorem insert_fixup_no_null (cmp : α → α → Int) (t : RBTree α) (tr : Tree α)
    (hv : Valid t tr) (hrb : tr.isRB) (hcf : t.compFunc = some cmp) (x : α)
    (hx : RBTreeContains (some t) (some x) = some false)
    (s : RBTree α) (p : Path α) (n : Nat) (y : α)
    (hs : ValidZ s p (.node Color.RED .nil n y .nil)) (hsrb : (plug p .nil).isRB) :
    (∃ t', insertToRBTree (some t) (some x) = some (true, some t')) ∧
    (∃ s', fix s.fuel s n = some s') := by
  constructor
  · rw [RBTreeContains_valid hv hcf x] at hx
    cases hz : searchZ cmp x tr [] with
    | some z => rw [hz] at hx; simp at hx
    | none =>
      obtain ⟨tr', hi, -⟩ := insertT_rb cmp tr t.next x hrb
      obtain ⟨t', e, -⟩ := insertToRBTree_valid hv hcf x hz hi
      exact ⟨t', e⟩
  · obtain ⟨-, -, h3, -, -⟩ := isRB_unplug p _ hsrb
    simp only [Tree.bh] at h3
    obtain ⟨tr', hfix, -⟩ := fixZ_rb p.length p 0 .nil .nil n y (le_refl _) h3 trivial trivial
      rfl rfl trivial trivial rfl rfl
    have hh := validZ_card hs
    obtain ⟨s', e, -⟩ := fix_foc s.fuel p s _ _ _ _ _ tr' hs (by
      simp only [RBTree.fuel]; omega) hfix
    exact ⟨s', e⟩

theorem insert_fixup_no_null_witness :
    Valid twoTree twoShape ∧ twoShape.isRB ∧ twoTree.compFunc = some intCmp ∧
    RBTreeContains (some twoTree) (some 3) = some false ∧
    ValidZ zigTree [.R Color.RED .nil 1 1, .L Color.BLACK 0 3 .nil]
      (.node Color.RED .nil 2 2 .nil) ∧
    (plug [.R Color.RED .nil 1 (1 : Int), .L Color.BLACK 0 3 .nil] .nil).isRB ∧
    (∃ t', insertToRBTree (some twoTree) (some 3) = some (true, some t')) ∧
    (∃ s', fix zigTree.fuel zigTree 2 = some s') :=
  have h : (plug [.R Color.RED .nil 1 (1 : Int), .L Color.BLACK 0 3 .nil] .nil).isRB := by
    simp [plug, Frame.fill, Tree.isRB, Tree.noRedRed, Tree.balanced, Tree.bh, Tree.col]
  ⟨twoTree_valid, twoShape_isRB, rfl, rfl, zigTree_valid, h,
    insert_fixup_no_null intCmp twoTree twoShape twoTree_valid twoShape_isRB rfl 3 rfl
      zigTree [.R Color.RED .nil 1 1, .L Color.BLACK 0 3 .nil] 2 2 zigTree_valid h⟩

theorem delCase456L_top {cp : Color} {ap : Nat} {xp : α} {Sl : Tree α} {s : Nat} {xs : α}
    {Sr : Tree α} {p p' : Path α} (h : delCase456L cp ap xp Sl s xs Sr p = some p') :
    ∃ S' q, p' = .L Color.BLACK ap xp S' :: q := by
  unfold delCase456L at h
  split at h
  · simp only [Option.some.injEq] at h
    exact ⟨_, _, h.symm⟩
  · unfold delCase56L at h
    split at h
    · cases Sl with
      | nil => simp only [reduceCtorEq] at h
      | node c Sll sl xsl Slr =>
        simp only [Option.some.injEq] at h
        exact ⟨_, _, h.symm⟩
    · cases Sr with
      | nil => simp only [reduceCtorEq] at h
      | node c Srl sr xsr Srr =>
        simp only [Option.some.injEq] at h
        exact ⟨_, _, h.symm⟩

theorem delCase456R_top {cp : Color} {ap : Nat} {xp : α} {Sl : Tree α} {s : Nat} {xs : α}
    {Sr : Tree α} {p p' : Path α} (h : delCase456R cp ap xp Sl s xs Sr p = some p') :
    ∃ S' q, p' = .R Color.BLACK S' ap xp :: q := by
  unfold delCase456R at h
  split at h
  · simp only [Option.some.injEq] at h
    exact ⟨_, _, h.symm⟩
  · unfold delCase56R at h
    split at h
    · cases Sr with
      | nil => simp only [reduceCtorEq] at h
      | node c Srl sr xsr Srr =>
        simp only [Option.some.injEq] at h
        exact ⟨_, _, h.symm⟩
    · cases Sl with
      | nil => simp only [reduceCtorEq] at h
      | node c Sll sl xsl Slr =>
        simp only [Option.some.injEq] at h
        exact ⟨_, _, h.symm⟩

/-- After the deletion fix-up the node has the parent it had, on the same
side, and the parent is BLACK. -/
theorem delFix_top {f : Frame α} {p p' : Path α} (h : delFix (f :: p) = some p') :
    ∃ f' q, p' = f' :: q ∧ f'.addr = f.addr ∧ f'.color = Color.BLACK ∧
      ((∃ c a x r, f = .L c a x r) ↔ (∃ c a x r, f' = .L c a x r)) := by
  cases f with
  | L cp ap xp S =>
    have key : ∃ S' q, p' = .L Color.BLACK ap xp S' :: q := by
      cases S with
      | nil => simp only [delFix, reduceCtorEq] at h
      | node cs Sl s xs Sr =>
        cases cs with
        | RED =>
          cases Sl with
          | nil => simp only [delFix, reduceCtorEq] at h
          | node cl Sll sl xsl Slr =>
            cases cl with
            | RED => simp only [delFix, reduceCtorEq] at h
            | BLACK =>
              simp only [delFix] at h
              exact delCase456L_top h
        | BLACK =>
          simp only [delFix] at h
          split at h
          · cases hq : delFix p with
            | none => simp only [hq, reduceCtorEq] at h
            | some q =>
              simp only [hq, Option.some.injEq] at h
              exact ⟨_, _, h.symm⟩
          · exact delCase456L_top h
    obtain ⟨S', q, rfl⟩ := key
    exact ⟨_, q, rfl, rfl, rfl, ⟨fun _ => ⟨_, _, _, _, rfl⟩, fun _ => ⟨_, _, _, _, rfl⟩⟩⟩
  | R cp S ap xp =>
    have key : ∃ S' q, p' = .R Color.BLACK S' ap xp :: q := by
      cases S with
      | nil => simp only [delFix, reduceCtorEq] at h
      | node cs Sl s xs Sr =>
        cases cs with
        | RED =>
          cases Sr with
          | nil => simp only [delFix, reduceCtorEq] at h
          | node cr Srl sr xsr Srr =>
            cases cr with
            | RED => simp only [delFix, reduceCtorEq] at h
            | BLACK =>
              simp only [delFix] at h
              exact delCase456R_top h
        | BLACK =>
          simp only [delFix] at h
          split at h
          · cases hq : delFix p with
            | none => simp only [hq, reduceCtorEq] at h
            | some q =>
              simp only [hq, Option.some.injEq] at h
              exact ⟨_, _, h.symm⟩
          · exact delCase456R_top h
    obtain ⟨S', q, rfl⟩ := key
    refine ⟨_, q, rfl, rfl, rfl, ⟨fun h' => ?_, fun h' => ?_⟩⟩
    · obtain ⟨c, a, x, r, e⟩ := h'
      cases e
    · obtain ⟨c, a, x, r, e⟩ := h'
      cases e

/-- C22. When `deleteFromRBTree` removes a BLACK node `d` that is not the root
of a red-black tree, the fix-up `deleteCase1` (run on `d` whatever colour it
has been given) returns, and afterwards `d` is still a child of the parent it
had, on the same side, and that parent is BLACK. Consequently the whole
`deleteFromRBTree` call, which then splices the child of `d` into its place,
leaves a tree without a RED node with a RED child. -/
theorem fixup_keeps_black_parent (t : RBTree α) (f : Frame α) (p : Path α) (c : Color)
    (l r : Tree α) (d : Nat) (x : α) (H : ValidZ t (f :: p) (.node c l d x r))
    (hrb : (plug (f :: p) (.node Color.BLACK l d x r)).isRB)
    (cmp : α → α → Int) (s : RBTree α) (tr : Tree α) (hv : Valid s tr) (hsrb : tr.isRB)
    (hcf : s.compFunc = some cmp) (k : α)
    (hk : RBTreeContains (some s) (some k) = some true) :
    (∃ t', deleteCase1 t.fuel t d = some t' ∧ parentOf t d = some (some f.addr) ∧
      parentOf t' d = some (some f.addr) ∧ colorOf t' f.addr = some Color.BLACK ∧
      ((leftOf t f.addr = some (some d) ∧ leftOf t' f.addr = some (some d)) ∨
        (rightOf t f.addr = some (some d) ∧ rightOf t' f.addr = some (some d)))) ∧
    (∃ s', deleteFromRBTree (some s) (some k) = some (true, some s') ∧ s'.redBlack) := by
  constructor
  · obtain ⟨-, -, h3, -, -⟩ := isRB_unplug (f :: p) _ hrb
    simp only [Tree.bh, if_true] at h3
    obtain ⟨p', hq, -⟩ := delFix_rb (f :: p) l.bh h3
    have hh := validZ_card H
    obtain ⟨t', e, H', -⟩ := deleteCase1_foc t.fuel (f :: p) p' t c l r d x H (by
      simp only [RBTree.fuel]; omega) hq
    obtain ⟨f', q, rfl, ha, hc, hside⟩ := delFix_top hq
    have e1 : parentOf t d = some (some f.addr) := parentOf_foc H
    have e2 : parentOf t' d = some (some f.addr) := by
      rw [parentOf_foc H', pathPar, ha]
    have U := validZ_up H
    have U' := validZ_up H'
    refine ⟨t', e, e1, e2, ?_, ?_⟩
    · obtain ⟨l1, r1, x1, e3⟩ := Frame.fill_eq_node f' (.node c l d x r)
      rw [e3] at U'
      rw [← ha, colorOf_foc U', hc]
    · cases f with
      | L cp ap xp S =>
        obtain ⟨c', a', x', r', rfl⟩ := hside.1 ⟨_, _, _, _, rfl⟩
        simp only [Frame.addr] at ha
        subst ha
        exact Or.inl ⟨leftOf_foc U, leftOf_foc U'⟩
      | R cp S ap xp =>
        cases f' with
        | L c' a' x' r' =>
          obtain ⟨_, _, _, _, e4⟩ := hside.2 ⟨_, _, _, _, rfl⟩
          cases e4
        | R c' S' a' x' =>
          simp only [Frame.addr] at ha
          subst ha
          exact Or.inr ⟨rightOf_foc U, rightOf_foc U'⟩
  · rw [RBTreeContains_valid hv hcf k] at hk
    cases hz : searchZ cmp k tr [] with
    | none => rw [hz] at hk; simp at hk
    | some z =>
      obtain ⟨q, n⟩ := z
      obtain ⟨⟨c', l', a', y', r', rfl, -⟩, hp⟩ := searchZ_some cmp k tr [] q n hz
      simp only [plug] at hp
      obtain ⟨tr', hd, hrb'⟩ := deleteZ_rb (hp ▸ hsrb)
      obtain ⟨s', e, hv', -⟩ := deleteFromRBTree_found hv hcf hz hd
      exact ⟨s', e, tr', hv', hrb'.1, hrb'.2.1, (Tree.balanced_iff tr').1 hrb'.2.2⟩

theorem fixup_keeps_black_parent_witness :
    ValidZ blackTree [.L Color.BLACK 0 2 (.node Color.BLACK .nil 2 3 .nil)]
      (.node Color.BLACK .nil 1 1 .nil) ∧
    (plug [.L Color.BLACK 0 2 (.node Color.BLACK .nil 2 3 .nil)]
      (.node Color.BLACK .nil 1 (1 : Int) .nil)).isRB ∧
    Valid blackTree blackShape ∧ blackShape.isRB ∧ blackTree.compFunc = some intCmp ∧
    RBTreeContains (some blackTree) (some 1) = some true ∧
    (∃ t', deleteCase1 blackTree.fuel blackTree 1 = some t' ∧
      parentOf blackTree 1 = some (some 0) ∧ parentOf t' 1 = some (some 0) ∧
      colorOf t' 0 = some Color.BLACK ∧
      ((leftOf blackTree 0 = some (some 1) ∧ leftOf t' 0 = some (some 1)) ∨
        (rightOf blackTree 0 = some (some 1) ∧ rightOf t' 0 = some (some 1)))) ∧
    (∃ s', deleteFromRBTree (some blackTree) (some 1) = some (true, some s') ∧ s'.redBlack) :=
  ⟨validZ_down (f := .L Color.BLACK 0 2 (.node Color.BLACK .nil 2 3 .nil)) blackTree_valid,
    blackShape_isRB, blackTree_valid, blackShape_isRB, rfl, rfl,
    fixup_keeps_black_parent blackTree (.L Color.BLACK 0 2 (.node Color.BLACK .nil 2 3 .nil)) []
      Color.BLACK .nil .nil 1 1
      (validZ_down (f := .L Color.BLACK 0 2 (.node Color.BLACK .nil 2 3 .nil)) blackTree_valid)
      blackShape_isRB intCmp blackTree blackShape blackTree_valid blackShape_isRB rfl 1 rfl⟩

/-- A node the search loop returns holds an element that compares equal to
the element searched for, on any memory. -/
theorem searchLoop_hit (comp : α → α → Int) (t : RBTree α) (data : α) :
    ∀ (fuel : Nat) (ptr : Option Nat) (a : Nat), searchLoop comp t data fuel ptr = some (some a) →
      ∃ y, dataOf t a = some (some y) ∧ comp y data = 0 := by
  intro fuel
  induction fuel with
  | zero => intro ptr a h; simp only [searchLoop, reduceCtorEq] at h
  | succ fuel ih =>
    intro ptr a h
    cases ptr with
    | none => simp only [searchLoop, Option.some.injEq, reduceCtorEq] at h
    | some q =>
      simp only [searchLoop] at h
      cases hd : dataOf t q with
      | none => simp only [hd, reduceCtorEq] at h
      | some od =>
        cases od with
        | none => simp only [hd, reduceCtorEq] at h
        | some y =>
          simp only [hd] at h
          by_cases h0 : comp y data = 0
          · simp only [h0, if_true, Option.some.injEq] at h
            subst h
            exact ⟨y, hd, h0⟩
          · simp only [h0, if_false] at h
            by_cases h1 : comp y data < 0
            · simp only [h1, if_true] at h
              cases hr : rightOf t q with
              | none => simp only [hr, reduceCtorEq] at h
              | some r =>
                simp only [hr] at h
                exact ih r a h
            · simp only [h1, if_false] at h
              cases hl : leftOf t q with
              | none => simp only [hl, reduceCtorEq] at h
              | some l =>
                simp only [hl] at h
                exact ih l a h

/-- `RBTreeContains` is the test whether `findNodeToDelete` finds a node, on
any arguments and any memory. -/
theorem contains_eq_find (tree : Option (RBTree α)) (data : Option α) :
    RBTreeContains tree data = (findNodeToDelete tree data).map Option.isSome := by
  cases tree with
  | none => rfl
  | some t =>
    cases data with
    | none => rfl
    | some d =>
      simp only [RBTreeContains, findNodeToDelete]
      cases hc : t.compFunc with
      | none => rfl
      | some comp =>
        cases hr : t.root with
        | none => rfl
        | some r =>
          simp only
          cases searchLoop comp t d t.fuel (some r) <;> rfl

theorem findNodeToDelete_hit {s : RBTree α} {comp : α → α → Int} {d : α} {a : Nat}
    (hc : s.compFunc = some comp) (h : findNodeToDelete (some s) (some d) = some (some a)) :
    ∃ y, dataOf s a = some (some y) ∧ comp y d = 0 := by
  simp only [findNodeToDelete, hc] at h
  cases hr : s.root with
  | none => simp only [hr, Option.some.injEq, reduceCtorEq] at h
  | some r =>
    simp only [hr] at h
    exact searchLoop_hit comp s d _ _ a h

/-- C23. For every tree reference and element pointer, null ones and any
memory included, `RBTreeContains` returns true exactly when
`findNodeToDelete` returns a non-null node, and the element of a node that
`findNodeToDelete` returns compares 0 with the searched element. On a tree in
memory with consistent links both return, so that after the membership check
of `deleteFromRBTree` has passed the search result it dereferences is
non-null. -/
theorem contains_iff_found (cmp : α → α → Int) (t : RBTree α) (tr : Tree α)
    (hv : Valid t tr) (hcf : t.compFunc = some cmp) (x : α) :
    (∀ (tree : Option (RBTree α)) (data : Option α),
      RBTreeContains tree data = (findNodeToDelete tree data).map Option.isSome) ∧
    (∀ (s : RBTree α) (comp : α → α → Int) (d : α) (a : Nat), s.compFunc = some comp →
      findNodeToDelete (some s) (some d) = some (some a) →
      ∃ y, dataOf s a = some (some y) ∧ comp y d = 0) ∧
    (∃ res, findNodeToDelete (some t) (some x) = some res ∧
      RBTreeContains (some t) (some x) = some res.isSome ∧
      (RBTreeContains (some t) (some x) = some true →
        ∃ a y, res = some a ∧ dataOf t a = some (some y) ∧ cmp y x = 0)) := by
  refine ⟨contains_eq_find, fun s comp d a hc h => findNodeToDelete_hit hc h, ?_⟩
  have e1 := findNodeToDelete_valid hv hcf x
  have e2 : RBTreeContains (some t) (some x)
      = some (foundPtr (searchZ cmp x tr [])).isSome := by
    rw [contains_eq_find, e1]
    rfl
  refine ⟨_, e1, e2, fun h => ?_⟩
  rw [e2] at h
  simp only [Option.some.injEq] at h
  obtain ⟨a, ha⟩ := Option.isSome_iff_exists.1 h
  rw [ha] at e1
  obtain ⟨y, hy, h0⟩ := findNodeToDelete_hit hcf e1
  exact ⟨a, y, ha, hy, h0⟩

theorem contains_iff_found_witness :
    Valid twoTree twoShape ∧ twoTree.compFunc = some intCmp ∧
    (∀ (tree : Option (RBTree Int)) (data : Option Int),
      RBTreeContains tree data = (findNodeToDelete tree data).map Option.isSome) ∧
    (∀ (s : RBTree Int) (comp : Int → Int → Int) (d : Int) (a : Nat), s.compFunc = some comp →
      findNodeToDelete (some s) (some d) = some (some a) →
      ∃ y, dataOf s a = some (some y) ∧ comp y d = 0) ∧
    (∃ res, findNodeToDelete (some twoTree) (some 2) = some res ∧
      RBTreeContains (some twoTree) (some 2) = some res.isSome ∧
      (RBTreeContains (some twoTree) (some 2) = some true →
        ∃ a y, res = some a ∧ dataOf twoTree a = some (some y) ∧ intCmp y 2 = 0)) :=
  ⟨twoTree_valid, rfl, contains_iff_found intCmp twoTree twoShape twoTree_valid rfl 2⟩

end RBT
